import Mathlib

/-!
# Block-cyclic scatter of a dense matrix (`src/lu/mpi/local_domain.c`)

Shallow embedding of `init_local_domain`.  The C function is modelled as the
sequence of memory and message operations it performs (`Action`), produced by
the same nest of `for` loops as the source; a separate semantics (`exec`,
`mailbox`, `scatter32`, `run_in_world`) runs those operations on buffers and
in a communicator.

Conventions.
* The function as the machine runs it is `init_local_domain32` with its parts
  (`init_fields32`, `copy_own_blocks32`, `send_blocks32`, ...): every `int`
  addition and multiplication is computed modulo `2^32`, a zero divisor ends
  the run.  What is claimed about runs of the source is stated on it.
* `init_local_domain` with its parts (`init_fields`, `copy_own_blocks`, ...)
  is the same text read over exact integers.  It serves as the reference the
  32-bit run is compared with, and its fields as the closed form of `NBP`,
  `NBQ`; it agrees with the source only where no `int` operation overflows.
* `double` values are only copied, never computed with, so matrix entries are
  an arbitrary type `α`.
* A buffer cell is `Option α`: `none` is a cell that was never written.
* Every `for` loop is run with a step budget; running out of it ends the run.
  All results state that a budget above `N + B + P + Q` suffices.
* The macros of `local_domain.h` and the construction of the grid are not part
  of the sources at hand; they are modelled from the specification and marked
  as such.  The printing under `DEBUG` is left out.
-/

set_option autoImplicit false

namespace LocalDomain

/-! ## Data model -/

/-- The fields of `grid_t` that `init_local_domain` reads. -/
structure grid_t where
  P : Nat
  Q : Nat
  lrank : Nat
  myrow : Nat
  mycol : Nat
deriving DecidableEq

/-- Modelled from the spec: construction of the process grid (the grid source
is missing from `src/`); rank `r` sits at row `r div Q`, column `r mod Q`. -/
def grid_of_rank (P Q r : Nat) : grid_t :=
  { P := P, Q := Q, lrank := r, myrow := r / Q, mycol := r % Q }

/-- Modelled from the spec: macro `RANK_FROM_PQ` of the missing header,
row-major `rank = row * Q + col`. -/
def RANK_FROM_PQ (grid : grid_t) (p q : Nat) : Nat := p * grid.Q + q

/-- The scalar fields of `local_domain_t`; `dataLen` is the number of doubles
requested from `malloc` for `data`. -/
structure local_domain_t where
  grid : grid_t
  N : Nat
  B : Nat
  NBP : Nat
  NBQ : Nat
  NUM_BLOCKS : Nat
  dataLen : Nat
deriving DecidableEq

/-- Modelled from the spec: macro `BLK` of the missing header, the offset in
`data` of the tile with local block index `(lbi, lbj)`; tiles are stored
contiguously in row-major order of `(lbi, lbj)`. -/
def BLK (ld : local_domain_t) (lbi lbj : Nat) : Nat := (lbi * ld.NBQ + lbj) * ld.B * ld.B

/-- Modelled from the spec: macro `BLK_ELE` of the missing header, element
`(ii, jj)` of a row-major `B x B` tile starting at offset `blk`. -/
def BLK_ELE (blk B ii jj : Nat) : Nat := blk + ii * B + jj

/-- Modelled from the spec: macro `G_ROW_P` of the missing header, the global
row of in-block row `ii` of local block row `lbi` on process row `p`. -/
def G_ROW_P (ld : local_domain_t) (lbi p ii : Nat) : Nat := (lbi * ld.grid.P + p) * ld.B + ii

/-- Modelled from the spec: macro `G_COL_Q` of the missing header, symmetric
to `G_ROW_P`. -/
def G_COL_Q (ld : local_domain_t) (lbj q jj : Nat) : Nat := (lbj * ld.grid.Q + q) * ld.B + jj

/-- Modelled from the spec: macro `G_ROW` of the missing header, `G_ROW_P` at
this process's own row. -/
def G_ROW (ld : local_domain_t) (lbi ii : Nat) : Nat := G_ROW_P ld lbi ld.grid.myrow ii

/-- Modelled from the spec: macro `G_COL` of the missing header, `G_COL_Q` at
this process's own column. -/
def G_COL (ld : local_domain_t) (lbj jj : Nat) : Nat := G_COL_Q ld lbj ld.grid.mycol jj

/-- The derived datatype built by `MPI_Type_vector(count, blocklength, stride, MPI_DOUBLE, _)`. -/
structure vector_type where
  count : Nat
  blocklength : Nat
  stride : Nat
deriving DecidableEq

/-- The operations `init_local_domain` performs on memory and on the
communicator.
* `store dst src` is `data[dst] = globalA[src]`;
* `send off ty dest` is `MPI_Send(globalA + off, 1, ty, dest, 0, MPI_COMM_WORLD)`;
* `recv dst count source` is `MPI_Recv(data + dst, count, MPI_DOUBLE, source, 0, ...)`. -/
inductive Action where
  | store (dst src : Nat)
  | send (off : Nat) (ty : vector_type) (dest : Nat)
  | recv (dst count source : Nat)
deriving DecidableEq

/-! ## The loops of `init_local_domain` -/

/-- The loop `for (int i = i0; cond(i); i++) body(i)` over exact integers, run
for at most `fuel` evaluations of the condition, collecting the operations
performed; `none` when the budget runs out or the body does. -/
def forLoop (cond : Nat → Bool) (body : Nat → Option (List Action)) :
    Nat → Nat → Option (List Action)
  | 0, _ => none
  | fuel + 1, i =>
    if cond i then
      match body i, forLoop cond body fuel (i + 1) with
      | some a, some r => some (a ++ r)
      | _, _ => none
    else some []

/-- Lines 32-39 read over exact integers: the values the scalar fields take
when no `int` operation overflows and no divisor is zero.  The function as
the machine runs it is `init_fields32`. -/
def init_fields (N B : Nat) (grid : grid_t) : local_domain_t :=
  let NBP := N / B / grid.P + (if grid.myrow < (N / B) % grid.P then 1 else 0)
  let NBQ := N / B / grid.Q + (if grid.mycol < (N / B) % grid.Q then 1 else 0)
  let NUM_BLOCKS := NBP * NBQ
  { grid := grid, N := N, B := B, NBP := NBP, NBQ := NBQ, NUM_BLOCKS := NUM_BLOCKS,
    dataLen := NUM_BLOCKS * B * B }

/-- Lines 56-69 read over exact integers: target rank 0, copy instead of send.
The function as the machine runs it is `copy_own_blocks32`. -/
def copy_own_blocks (fuel N B : Nat) (ld : local_domain_t) : Option (List Action) :=
  forLoop (fun lbi => decide (lbi < ld.NBP)) (fun lbi =>
    forLoop (fun lbj => decide (lbj < ld.NBQ)) (fun lbj =>
      let blk := BLK ld lbi lbj
      forLoop (fun ii => decide (ii < B)) (fun ii =>
        forLoop (fun jj => decide (jj < B)) (fun jj =>
          let gi := G_ROW ld lbi ii
          let gj := G_COL ld lbj jj
          some [Action.store (BLK_ELE blk B ii jj) (gi * N + gj)])
          fuel 0)
        fuel 0)
      fuel 0)
    fuel 0

/-- Lines 73-86 read over exact integers: one strided send per block owned by
grid coordinate `(p, q)`.  The function as the machine runs it is
`send_blocks32`. -/
def send_blocks (fuel N B : Nat) (grid : grid_t) (ld : local_domain_t) (block_type : vector_type)
    (p q t_rank : Nat) : Option (List Action) :=
  forLoop (fun lbi => decide (lbi * grid.P + p < N / B)) (fun lbi =>
    forLoop (fun lbj => decide (lbj * grid.Q + q < N / B)) (fun lbj =>
      let gi := G_ROW_P ld lbi p 0
      let gj := G_COL_Q ld lbj q 0
      some [Action.send (gi * N + gj) block_type t_rank])
      fuel 0)
    fuel 0

/-- Lines 48-89 read over exact integers: the branch of rank 0.  The function
as the machine runs it is `holder_branch32`. -/
def holder_branch (fuel N B : Nat) (grid : grid_t) (ld : local_domain_t)
    (block_type : vector_type) : Option (List Action) :=
  forLoop (fun p => decide (p < grid.P)) (fun p =>
    forLoop (fun q => decide (q < grid.Q)) (fun q =>
      let t_rank := RANK_FROM_PQ grid p q
      if t_rank = 0 then copy_own_blocks fuel N B ld
      else send_blocks fuel N B grid ld block_type p q t_rank)
      fuel 0)
    fuel 0

/-- Lines 93-101 read over exact integers: the branch of every rank above 0.
The function as the machine runs it is `receiver_branch32`. -/
def receiver_branch (fuel B : Nat) (ld : local_domain_t) : Option (List Action) :=
  forLoop (fun lbi => decide (lbi < ld.NBP)) (fun lbi =>
    forLoop (fun lbj => decide (lbj < ld.NBQ)) (fun lbj =>
      some [Action.recv (BLK ld lbi lbj) (B * B) 0])
      fuel 0)
    fuel 0

/-- The function `init_local_domain(globalA, N, B, grid, ldomain)` read over
exact integers: the fields written to `*ldomain` and the operations performed,
in program order.  The function as the machine runs it is
`init_local_domain32`. -/
def init_local_domain (fuel N B : Nat) (grid : grid_t) : Option (local_domain_t × List Action) :=
  let ld := init_fields N B grid
  let block_type : vector_type := { count := B, blocklength := B, stride := N }
  let ops :=
    if grid.lrank = 0 then holder_branch fuel N B grid ld block_type
    else receiver_branch fuel B ld
  ops.map (fun tr => (ld, tr))

/-! ## Semantics of the operations -/

variable {α : Type}

/-- The element offsets, relative to the start address, that a vector type
selects: `count` rows of `blocklength` consecutive elements, consecutive rows
`stride` elements apart. -/
def vector_type.offsets (ty : vector_type) : List Nat :=
  (List.range ty.count).flatMap (fun r =>
    (List.range ty.blocklength).map (fun c => r * ty.stride + c))

/-- The message carried by `MPI_Send(globalA + off, 1, ty, ...)`: the cells the
datatype selects, in order; a cell outside the array reads as `none`. -/
def payload (globalA : List α) (off : Nat) (ty : vector_type) : List (Option α) :=
  ty.offsets.map (fun d => globalA[off + d]?)

/-- The sends addressed to rank `r` in a sequence of operations: start offset
and datatype, in program order. -/
def sendsTo (r : Nat) : List Action → List (Nat × vector_type)
  | [] => []
  | Action.send off ty dest :: tr =>
    if dest = r then (off, ty) :: sendsTo r tr else sendsTo r tr
  | _ :: tr => sendsTo r tr

/-- The messages from rank 0 waiting at rank `r`, in the order they were sent
(in-order delivery between a pair of ranks). -/
def mailbox (globalA : List α) (r : Nat) (sent : List Action) : List (List (Option α)) :=
  (sendsTo r sent).map (fun m => payload globalA m.1 m.2)

/-- Overwrites `m.length` consecutive cells of `data` starting at `dst`. -/
def writeAt (data : List (Option α)) (dst : Nat) (m : List (Option α)) : List (Option α) :=
  data.take dst ++ m ++ data.drop (dst + m.length)

/-- Runs a sequence of operations on one process: `globalA` is the array the
process reads, `inbox` the messages from rank 0 waiting for it, `data` its
local buffer.  Returns the final buffer and the messages left over; `none`
when a read or a write falls outside its array, or a receive finds no matching
message from its source. -/
def exec (globalA : List α) :
    List Action → List (List (Option α)) → List (Option α) →
      Option (List (Option α) × List (List (Option α)))
  | [], inbox, data => some (data, inbox)
  | Action.store dst src :: tr, inbox, data =>
    match globalA[src]? with
    | some v => if dst < data.length then exec globalA tr inbox (data.set dst (some v)) else none
    | none => none
  | Action.send off ty _ :: tr, inbox, data =>
    if (payload globalA off ty).all Option.isSome then exec globalA tr inbox data else none
  | Action.recv dst count source :: tr, inbox, data =>
    match inbox with
    | m :: rest =>
      if source = 0 ∧ m.length = count ∧ dst + count ≤ data.length then
        exec globalA tr rest (writeAt data dst m)
      else none
    | [] => none

/-- The positions of `data` an operation writes. -/
def Action.writes : Action → List Nat
  | Action.store dst _ => [dst]
  | Action.send _ _ _ => []
  | Action.recv dst count _ => List.range' dst count

/-- The indices of `globalA` an operation reads. -/
def Action.reads : Action → List Nat
  | Action.store _ src => [src]
  | Action.send off ty _ => ty.offsets.map (fun d => off + d)
  | Action.recv _ _ _ => []

/-! ## Closed forms used in the proofs -/

/-- Number of indices `I < nb` with `I mod P = p`, in closed form: the
expression `init_local_domain` evaluates for `NBP` and `NBQ`. -/
def blockCount (nb P p : Nat) : Nat := nb / P + (if p < nb % P then 1 else 0)

/-- The operations of the self-copy (lines 56-69), enumerated over the owned
tiles and their elements. -/
def copyOps (N B : Nat) (ld : local_domain_t) : List Action :=
  (List.range ld.NBP).flatMap fun lbi =>
    (List.range ld.NBQ).flatMap fun lbj =>
      (List.range B).flatMap fun ii =>
        (List.range B).flatMap fun jj =>
          [Action.store (BLK_ELE (BLK ld lbi lbj) B ii jj)
            (G_ROW ld lbi ii * N + G_COL ld lbj jj)]

/-- The sends to grid coordinate `(p, q)` (lines 73-86), enumerated over the
local block indices below the closed-form counts. -/
def sendOps (N B : Nat) (grid : grid_t) (ld : local_domain_t) (ty : vector_type)
    (p q t_rank : Nat) : List Action :=
  (List.range (blockCount (N / B) grid.P p)).flatMap fun lbi =>
    (List.range (blockCount (N / B) grid.Q q)).flatMap fun lbj =>
      [Action.send (G_ROW_P ld lbi p 0 * N + G_COL_Q ld lbj q 0) ty t_rank]

/-- What rank 0 does for grid coordinate `(p, q)`. -/
def holderStep (N B : Nat) (grid : grid_t) (ld : local_domain_t) (ty : vector_type)
    (p q : Nat) : List Action :=
  if RANK_FROM_PQ grid p q = 0 then copyOps N B ld
  else sendOps N B grid ld ty p q (RANK_FROM_PQ grid p q)

/-- The operations of rank 0, enumerated over the grid. -/
def holderOps (N B : Nat) (grid : grid_t) (ld : local_domain_t) (ty : vector_type) :
    List Action :=
  (List.range grid.P).flatMap fun p =>
    (List.range grid.Q).flatMap fun q => holderStep N B grid ld ty p q

/-- The local layout of a process: for every element of every owned tile, in
buffer order, its position in `data` and its index in `globalA`. -/
def layout (N B : Nat) (ld : local_domain_t) : List (Nat × Nat) :=
  (List.range ld.NBP).flatMap fun lbi =>
    (List.range ld.NBQ).flatMap fun lbj =>
      (List.range B).flatMap fun ii =>
        (List.range B).flatMap fun jj =>
          [(BLK_ELE (BLK ld lbi lbj) B ii jj, G_ROW ld lbi ii * N + G_COL ld lbj jj)]

/-- The local buffer a process should end with: the cell of `globalA` named by
each entry of its layout. -/
def localImage (globalA : List α) (N B : Nat) (ld : local_domain_t) : List (Option α) :=
  (layout N B ld).map (fun x => globalA[x.2]?)

/-- The receives of a rank above 0 (lines 93-101), enumerated over its tiles. -/
def recvOps (B : Nat) (ld : local_domain_t) : List Action :=
  (List.range ld.NBP).flatMap fun lbi =>
    (List.range ld.NBQ).flatMap fun lbj => [Action.recv (BLK ld lbi lbj) (B * B) 0]

/-- The tiles of grid coordinate `(p, q)` as rank 0 addresses them: start
offset in `globalA` and datatype, in row-major order of local block index. -/
def tilesOf (N B : Nat) (grid : grid_t) (ld : local_domain_t) (ty : vector_type)
    (p q : Nat) : List (Nat × vector_type) :=
  (List.range (blockCount (N / B) grid.P p)).flatMap fun lbi =>
    (List.range (blockCount (N / B) grid.Q q)).flatMap fun lbj =>
      [(G_ROW_P ld lbi p 0 * N + G_COL_Q ld lbj q 0, ty)]

/-! ## Ownership of global elements -/

/-- A place in the distributed matrix: grid coordinate `(p, q)`, local block
index `(lbi, lbj)` and in-block offset `(ii, jj)`. -/
structure Slot where
  p : Nat
  q : Nat
  lbi : Nat
  lbj : Nat
  ii : Nat
  jj : Nat
deriving DecidableEq

/-- The fields `init_local_domain` sets on the process at grid coordinate
`(p, q)`, over exact integers; `NBP` and `NBQ` involve only `/`, `%` and the
addition of 0 or 1 and are the same in `int` arithmetic. -/
def fieldsAt (N B P Q p q : Nat) : local_domain_t :=
  init_fields N B (grid_of_rank P Q (RANK_FROM_PQ (grid_of_rank P Q 0) p q))

/-- Global element `(gi, gj)` is assigned to slot `s`: `s` names a process of
the grid, one of the tiles that process owns according to its `NBP`, `NBQ`, an
offset inside the tile, and the global row and column of that place are `gi`
and `gj`. -/
def Assigned (N B P Q gi gj : Nat) (s : Slot) : Prop :=
  s.p < P ∧ s.q < Q ∧ s.lbi < (fieldsAt N B P Q s.p s.q).NBP ∧
    s.lbj < (fieldsAt N B P Q s.p s.q).NBQ ∧ s.ii < B ∧ s.jj < B ∧
    G_ROW_P (fieldsAt N B P Q s.p s.q) s.lbi s.p s.ii = gi ∧
    G_COL_Q (fieldsAt N B P Q s.p s.q) s.lbj s.q s.jj = gj

instance (N B P Q gi gj : Nat) (s : Slot) : Decidable (Assigned N B P Q gi gj s) := by
  unfold Assigned; infer_instance

/-- The slot the block-cyclic rule gives element `(gi, gj)`: block
`(gi / B, gj / B)` goes to process `((gi / B) mod P, (gj / B) mod Q)` as local
block `((gi / B) / P, (gj / B) / Q)`. -/
def slotOf (B P Q gi gj : Nat) : Slot :=
  { p := gi / B % P, q := gj / B % Q, lbi := gi / B / P, lbj := gj / B / Q,
    ii := gi % B, jj := gj % B }

/-! ## The round trip -/

/-- Modelled from the spec: the writes of the gather used by the round-trip
property (no gather exists under `src/`).  For every process `(p, q)`, every
local block `(lbi, lbj)` it owns and every offset `(ii, jj)`, the cell of its
local buffer at `(lbi * NBQ + lbj) * B * B + ii * B + jj` is written to global
position `((lbi * P + p) * B + ii, (lbj * Q + q) * B + jj)` of a row-major
`N x N` array. -/
def gatherWrites (N B P Q : Nat) (bufs : Nat → Nat → List (Option α)) : List (Nat × Option α) :=
  (List.range P).flatMap fun p =>
    (List.range Q).flatMap fun q =>
      (List.range (fieldsAt N B P Q p q).NBP).flatMap fun lbi =>
        (List.range (fieldsAt N B P Q p q).NBQ).flatMap fun lbj =>
          (List.range B).flatMap fun ii =>
            (List.range B).flatMap fun jj =>
              [(((lbi * P + p) * B + ii) * N + ((lbj * Q + q) * B + jj),
                ((bufs p q)[(lbi * (fieldsAt N B P Q p q).NBQ + lbj) * B * B
                  + ii * B + jj]?).join)]

/-- Modelled from the spec: the gather of the round-trip property, applied to
an `N x N` array none of whose cells has been written yet. -/
def gather (N B P Q : Nat) (bufs : Nat → Nat → List (Option α)) : List (Option α) :=
  (gatherWrites N B P Q bufs).foldl (fun G w => G.set w.1 w.2) (List.replicate (N * N) none)

/-! ## The index mapper of the specification -/

/-- Modelled from the spec: `owner_of_block(I, J) = (I mod P, J mod Q)` of the
Index Mapper, which `src/` has no function for. -/
def owner_of_block (P Q I J : Nat) : Nat × Nat := (I % P, J % Q)

/-- Modelled from the spec: `local_block_index(I, row_count_P) = I div P` of
the Index Mapper, which `src/` has no function for. -/
def local_block_index (I P : Nat) : Nat := I / P

/-- Modelled from the spec: `global_row(lbi, myrow, ii) = (lbi * P + myrow) * B + ii`
of the Index Mapper; the source reaches it through the macros `G_ROW`, `G_ROW_P`. -/
def global_row (P B lbi myrow ii : Nat) : Nat := (lbi * P + myrow) * B + ii

/-- Modelled from the spec: `global_col`, symmetric to `global_row`. -/
def global_col (Q B lbj mycol jj : Nat) : Nat := (lbj * Q + mycol) * B + jj

/-! ## Counting sends -/

/-- Whether an operation is an `MPI_Send`. -/
def Action.isSend : Action → Bool
  | Action.send _ _ _ => true
  | _ => false

/-! ## The same function with 32-bit `int` arithmetic

Every `+` and `*` on `int` operands, the loop increments included, goes through
`int_op`: the run goes on with the exact result as long as 32-bit arithmetic
yields it and it stays within a limit `lim`, and is abandoned otherwise.
Divisions and remainders of non-negative operands cannot overflow; they
abandon the run on a zero divisor.  Pointer arithmetic is exact. -/

/-- The value a signed 32-bit `int` holds after an operation whose exact
result is `v`: `v` reduced modulo `2^32` into `[-2^31, 2^31)`. -/
def wrap32 (v : Int) : Int := (v + 2 ^ 31) % 2 ^ 32 - 2 ^ 31

/-- Why a run with machine integers is abandoned: the loop budget ran out, an
`int` operation with exact result `v` gave something else in 32 bits, its
exact result `v` is above the limit under scrutiny, or a division or
remainder had a zero divisor. -/
inductive Fault where
  | fuel
  | wraps (v : Nat)
  | exceeds (v : Nat)
  | div_by_zero
deriving DecidableEq

/-- An `int` operation whose exact result is `e`. -/
def int_op (lim : Nat) (e : Nat) : Except Fault Nat :=
  if wrap32 (e : Int) = (e : Int) then
    if e ≤ lim then Except.ok e else Except.error (Fault.exceeds e)
  else Except.error (Fault.wraps e)

/-- The `int` division `a / b` of non-negative operands. -/
def int_div (a b : Nat) : Except Fault Nat :=
  if b = 0 then Except.error Fault.div_by_zero else Except.ok (a / b)

/-- The `int` remainder `a % b` of non-negative operands. -/
def int_mod (a b : Nat) : Except Fault Nat :=
  if b = 0 then Except.error Fault.div_by_zero else Except.ok (a % b)

/-- Modelled from the spec: macro `RANK_FROM_PQ` of the missing header, in
`int` arithmetic. -/
def RANK_FROM_PQ32 (lim : Nat) (grid : grid_t) (p q : Nat) : Except Fault Nat := do
  let a ← int_op lim (p * grid.Q)
  int_op lim (a + q)

/-- Modelled from the spec: macro `BLK` of the missing header; the offset
`(lbi * NBQ + lbj) * B * B` is computed in `int` arithmetic. -/
def BLK32 (lim : Nat) (ld : local_domain_t) (lbi lbj : Nat) : Except Fault Nat := do
  let a ← int_op lim (lbi * ld.NBQ)
  let b ← int_op lim (a + lbj)
  let c ← int_op lim (b * ld.B)
  int_op lim (c * ld.B)

/-- Modelled from the spec: macro `BLK_ELE` of the missing header; the index
`ii * B + jj` inside the tile is computed in `int` arithmetic. -/
def BLK_ELE32 (lim blk B ii jj : Nat) : Except Fault Nat := do
  let a ← int_op lim (ii * B)
  let b ← int_op lim (a + jj)
  pure (blk + b)

/-- Modelled from the spec: macro `G_ROW_P` of the missing header, in `int`
arithmetic. -/
def G_ROW_P32 (lim : Nat) (ld : local_domain_t) (lbi p ii : Nat) : Except Fault Nat := do
  let a ← int_op lim (lbi * ld.grid.P)
  let b ← int_op lim (a + p)
  let c ← int_op lim (b * ld.B)
  int_op lim (c + ii)

/-- Modelled from the spec: macro `G_COL_Q` of the missing header, in `int`
arithmetic. -/
def G_COL_Q32 (lim : Nat) (ld : local_domain_t) (lbj q jj : Nat) : Except Fault Nat := do
  let a ← int_op lim (lbj * ld.grid.Q)
  let b ← int_op lim (a + q)
  let c ← int_op lim (b * ld.B)
  int_op lim (c + jj)

/-- Modelled from the spec: macro `G_ROW` of the missing header, in `int`
arithmetic. -/
def G_ROW32 (lim : Nat) (ld : local_domain_t) (lbi ii : Nat) : Except Fault Nat :=
  G_ROW_P32 lim ld lbi ld.grid.myrow ii

/-- Modelled from the spec: macro `G_COL` of the missing header, in `int`
arithmetic. -/
def G_COL32 (lim : Nat) (ld : local_domain_t) (lbj jj : Nat) : Except Fault Nat :=
  G_COL_Q32 lim ld lbj ld.grid.mycol jj

/-- The loop `for (int i = i0; cond(i); i++) body(i)` in `int` arithmetic, run
for at most `fuel` evaluations of the condition. -/
def forLoop32 (lim : Nat) (cond : Nat → Except Fault Bool)
    (body : Nat → Except Fault (List Action)) : Nat → Nat → Except Fault (List Action)
  | 0, _ => Except.error Fault.fuel
  | fuel + 1, i => do
    let c ← cond i
    if c then
      let a ← body i
      let next ← int_op lim (i + 1)
      let r ← forLoop32 lim cond body fuel next
      pure (a ++ r)
    else pure []

/-- Lines 32-39 in `int` arithmetic. -/
def init_fields32 (lim N B : Nat) (grid : grid_t) : Except Fault local_domain_t := do
  let nb ← int_div N B
  let rowQuot ← int_div nb grid.P
  let rowRem ← int_mod nb grid.P
  let NBP ← int_op lim (rowQuot + (if grid.myrow < rowRem then 1 else 0))
  let colQuot ← int_div nb grid.Q
  let colRem ← int_mod nb grid.Q
  let NBQ ← int_op lim (colQuot + (if grid.mycol < colRem then 1 else 0))
  let NUM_BLOCKS ← int_op lim (NBP * NBQ)
  let rowLen ← int_op lim (NUM_BLOCKS * B)
  let dataLen ← int_op lim (rowLen * B)
  pure { grid := grid, N := N, B := B, NBP := NBP, NBQ := NBQ, NUM_BLOCKS := NUM_BLOCKS,
         dataLen := dataLen }

/-- Lines 56-69 in `int` arithmetic. -/
def copy_own_blocks32 (lim fuel N B : Nat) (ld : local_domain_t) : Except Fault (List Action) :=
  forLoop32 lim (fun lbi => pure (decide (lbi < ld.NBP))) (fun lbi =>
    forLoop32 lim (fun lbj => pure (decide (lbj < ld.NBQ))) (fun lbj => do
      let blk ← BLK32 lim ld lbi lbj
      forLoop32 lim (fun ii => pure (decide (ii < B))) (fun ii =>
        forLoop32 lim (fun jj => pure (decide (jj < B))) (fun jj => do
          let gi ← G_ROW32 lim ld lbi ii
          let gj ← G_COL32 lim ld lbj jj
          let dst ← BLK_ELE32 lim blk B ii jj
          let rowStart ← int_op lim (gi * N)
          let src ← int_op lim (rowStart + gj)
          pure [Action.store dst src])
          fuel 0)
        fuel 0)
      fuel 0)
    fuel 0

/-- Lines 73-86 in `int` arithmetic; the two guards are computed on every
test, the one that ends the loop included. -/
def send_blocks32 (lim fuel N B : Nat) (grid : grid_t) (ld : local_domain_t)
    (block_type : vector_type) (p q t_rank : Nat) : Except Fault (List Action) :=
  forLoop32 lim
    (fun lbi => do
      let a ← int_op lim (lbi * grid.P)
      let b ← int_op lim (a + p)
      let nb ← int_div N B
      pure (decide (b < nb)))
    (fun lbi =>
      forLoop32 lim
        (fun lbj => do
          let a ← int_op lim (lbj * grid.Q)
          let b ← int_op lim (a + q)
          let nb ← int_div N B
          pure (decide (b < nb)))
        (fun lbj => do
          let gi ← G_ROW_P32 lim ld lbi p 0
          let gj ← G_COL_Q32 lim ld lbj q 0
          let rowStart ← int_op lim (gi * N)
          pure [Action.send (rowStart + gj) block_type t_rank])
        fuel 0)
    fuel 0

/-- Lines 48-89 in `int` arithmetic. -/
def holder_branch32 (lim fuel N B : Nat) (grid : grid_t) (ld : local_domain_t)
    (block_type : vector_type) : Except Fault (List Action) :=
  forLoop32 lim (fun p => pure (decide (p < grid.P))) (fun p =>
    forLoop32 lim (fun q => pure (decide (q < grid.Q))) (fun q => do
      let t_rank ← RANK_FROM_PQ32 lim grid p q
      if t_rank = 0 then copy_own_blocks32 lim fuel N B ld
      else send_blocks32 lim fuel N B grid ld block_type p q t_rank)
      fuel 0)
    fuel 0

/-- Lines 93-101 in `int` arithmetic. -/
def receiver_branch32 (lim fuel B : Nat) (ld : local_domain_t) : Except Fault (List Action) :=
  forLoop32 lim (fun lbi => pure (decide (lbi < ld.NBP))) (fun lbi =>
    forLoop32 lim (fun lbj => pure (decide (lbj < ld.NBQ))) (fun lbj => do
      let blk ← BLK32 lim ld lbi lbj
      let count ← int_op lim (B * B)
      pure [Action.recv blk count 0])
      fuel 0)
    fuel 0

/-- The function `init_local_domain(globalA, N, B, grid, ldomain)` in `int`
arithmetic: the fields written to `*ldomain` and the operations performed, in
program order, or the fault that ended the run. -/
def init_local_domain32 (lim fuel N B : Nat) (grid : grid_t) :
    Except Fault (local_domain_t × List Action) := do
  let ld ← init_fields32 lim N B grid
  let block_type : vector_type := { count := B, blocklength := B, stride := N }
  let ops ←
    if grid.lrank = 0 then holder_branch32 lim fuel N B grid ld block_type
    else receiver_branch32 lim fuel B ld
  pure (ld, ops)


/-! ## Runs in a communicator -/

/-- Whether every send of a sequence of operations addresses a rank of a
communicator of `W` processes.  A send to any other rank is an error of the
transport, which ends the whole run (default MPI error handler). -/
def sendsValid (W : Nat) (tr : List Action) : Bool :=
  tr.all fun a =>
    match a with
    | Action.send _ _ dest => decide (dest < W)
    | _ => true

/-- How far a sequence of operations gets in a communicator of `W` processes:
the operations completed, in order, and the destination of the send that
ended the run, if one addressed a rank outside the communicator. -/
def run_in_world (W : Nat) : List Action → List Action × Option Nat
  | [] => ([], none)
  | Action.send off ty dest :: tr =>
    if dest < W then
      (Action.send off ty dest :: (run_in_world W tr).1, (run_in_world W tr).2)
    else ([], some dest)
  | a :: tr => (a :: (run_in_world W tr).1, (run_in_world W tr).2)

/-- The local buffer of rank `r` after `init_local_domain`, in 32-bit `int`
arithmetic, has run in a communicator of `W` processes on rank 0, which holds
`globalA`, and on rank `r` of a `P x Q` grid: both runs must reach their end,
every send of rank 0 must address a rank of the communicator, and every
message rank 0 sent to `r` must have been received. -/
def scatter32 (W fuel : Nat) (globalA : List α) (N B P Q r : Nat) : Option (List (Option α)) :=
  match init_local_domain32 (2 ^ 31 - 1) fuel N B (grid_of_rank P Q 0),
      init_local_domain32 (2 ^ 31 - 1) fuel N B (grid_of_rank P Q r) with
  | Except.ok (_, sent), Except.ok (ld, tr) =>
    if sendsValid W sent = true ∧ r < W then
      match exec (if r = 0 then globalA else []) tr (mailbox globalA r sent)
          (List.replicate ld.dataLen none) with
      | some (data, []) => some data
      | _ => none
    else none
  | _, _ => none

/-- Scatter `globalA` with `init_local_domain` in a communicator of `W`
processes, then gather every local buffer. -/
def roundTrip32 (W fuel : Nat) (globalA : List α) (N B P Q : Nat) : List (Option α) :=
  gather N B P Q (fun p q =>
    (scatter32 W fuel globalA N B P Q (RANK_FROM_PQ (grid_of_rank P Q 0) p q)).getD [])


/-! ## Loops as enumerations -/

theorem forLoop_from (cond : Nat → Bool) (body : Nat → Option (List Action))
    (f : Nat → List Action) (n : Nat) (hc : ∀ i, cond i = decide (i < n))
    (hb : ∀ i, i < n → body i = some (f i)) :
    ∀ fuel i, n - i < fuel →
      forLoop cond body fuel i = some ((List.range' i (n - i)).flatMap f) := by
  intro fuel
  induction fuel with
  | zero => intro i h; omega
  | succ k ih =>
    intro i h
    by_cases hi : i < n
    · have h1 : n - i = (n - (i + 1)) + 1 := by omega
      rw [forLoop, hc i, hb i hi, ih (i + 1) (by omega), h1, List.range'_succ]
      simp [hi]
    · have h0 : n - i = 0 := by omega
      rw [forLoop, hc i, h0]
      simp [hi]

theorem forLoop_eq (cond : Nat → Bool) (body : Nat → Option (List Action))
    (f : Nat → List Action) (n fuel : Nat) (hc : ∀ i, cond i = decide (i < n))
    (hb : ∀ i, i < n → body i = some (f i)) (hfuel : n < fuel) :
    forLoop cond body fuel 0 = some ((List.range n).flatMap f) := by
  rw [forLoop_from cond body f n hc hb fuel 0 (by omega), List.range_eq_range']
  rfl

/-- The guard `lbi * P + p < nb` of the send loops holds exactly below the
closed-form count. -/
theorem guard_iff_lt_blockCount (nb P p lbi : Nat) (hp : p < P) :
    lbi * P + p < nb ↔ lbi < blockCount nb P p := by
  have hP : 0 < P := by omega
  have hdm := Nat.div_add_mod nb P
  have hm := Nat.mod_lt nb hP
  unfold blockCount
  rcases Nat.lt_trichotomy lbi (nb / P) with h | h | h
  · have h1 : (lbi + 1) * P ≤ nb / P * P := Nat.mul_le_mul_right P h
    have h2 : (lbi + 1) * P = lbi * P + P := by ring
    have h3 : nb / P * P = P * (nb / P) := by ring
    constructor
    · intro _; omega
    · intro _; omega
  · subst h
    have h3 : nb / P * P = P * (nb / P) := by ring
    split_ifs with hc
    · constructor
      · intro _; omega
      · intro _; omega
    · constructor
      · intro _; omega
      · intro _; omega
  · have h1 : (nb / P + 1) * P ≤ lbi * P := Nat.mul_le_mul_right P h
    have h2 : (nb / P + 1) * P = P * (nb / P) + P := by ring
    split_ifs with hc
    · constructor
      · intro _; omega
      · intro _; omega
    · constructor
      · intro _; omega
      · intro _; omega

theorem blockCount_le (nb P p : Nat) (hp : p < P) : blockCount nb P p ≤ nb := by
  by_contra hlt
  have h := (guard_iff_lt_blockCount nb P p nb hp).mpr (by omega)
  have h1 : nb * 1 ≤ nb * P := Nat.mul_le_mul_left nb (by omega)
  omega

theorem copy_own_blocks_eq (fuel N B : Nat) (ld : local_domain_t)
    (h1 : ld.NBP < fuel) (h2 : ld.NBQ < fuel) (h3 : B < fuel) :
    copy_own_blocks fuel N B ld = some (copyOps N B ld) := by
  unfold copy_own_blocks copyOps
  refine forLoop_eq _ _ _ _ _ (fun _ => rfl) (fun lbi _ => ?_) h1
  refine forLoop_eq _ _ _ _ _ (fun _ => rfl) (fun lbj _ => ?_) h2
  refine forLoop_eq _ _ _ _ _ (fun _ => rfl) (fun ii _ => ?_) h3
  exact forLoop_eq _ _ _ _ _ (fun _ => rfl) (fun jj _ => rfl) h3

theorem send_blocks_eq (fuel N B : Nat) (grid : grid_t) (ld : local_domain_t)
    (ty : vector_type) (p q t : Nat) (hp : p < grid.P) (hq : q < grid.Q) (h1 : N / B < fuel) :
    send_blocks fuel N B grid ld ty p q t = some (sendOps N B grid ld ty p q t) := by
  unfold send_blocks sendOps
  have hcp := blockCount_le (N / B) grid.P p hp
  have hcq := blockCount_le (N / B) grid.Q q hq
  refine forLoop_eq _ _ _ _ _
    (fun i => by simp only [guard_iff_lt_blockCount (N / B) grid.P p i hp])
    (fun lbi _ => ?_) (by omega)
  exact forLoop_eq _ _ _ _ _
    (fun i => by simp only [guard_iff_lt_blockCount (N / B) grid.Q q i hq])
    (fun lbj _ => rfl) (by omega)

theorem holder_branch_eq (fuel N B : Nat) (grid : grid_t) (ld : local_domain_t)
    (ty : vector_type) (h1 : ld.NBP < fuel) (h2 : ld.NBQ < fuel) (h3 : B < fuel)
    (h4 : N / B < fuel) (h5 : grid.P < fuel) (h6 : grid.Q < fuel) :
    holder_branch fuel N B grid ld ty = some (holderOps N B grid ld ty) := by
  unfold holder_branch holderOps
  refine forLoop_eq _ _ _ _ _ (fun _ => rfl) (fun p hp => ?_) h5
  refine forLoop_eq _ _ _ _ _ (fun _ => rfl) (fun q hq => ?_) h6
  unfold holderStep
  by_cases ht : RANK_FROM_PQ grid p q = 0
  · simp only [ht, if_true]
    exact copy_own_blocks_eq fuel N B ld h1 h2 h3
  · simp only [ht, if_false]
    exact send_blocks_eq fuel N B grid ld ty p q _ hp hq h4

theorem receiver_branch_eq (fuel B : Nat) (ld : local_domain_t)
    (h1 : ld.NBP < fuel) (h2 : ld.NBQ < fuel) :
    receiver_branch fuel B ld = some (recvOps B ld) := by
  unfold receiver_branch recvOps
  refine forLoop_eq _ _ _ _ _ (fun _ => rfl) (fun lbi _ => ?_) h1
  exact forLoop_eq _ _ _ _ _ (fun _ => rfl) (fun lbj _ => rfl) h2

theorem init_fields_NBP (N B : Nat) (grid : grid_t) :
    (init_fields N B grid).NBP = blockCount (N / B) grid.P grid.myrow := rfl

theorem init_fields_NBQ (N B : Nat) (grid : grid_t) :
    (init_fields N B grid).NBQ = blockCount (N / B) grid.Q grid.mycol := rfl

theorem div_mod_lt_of_lt_mul (P Q r : Nat) (hr : r < P * Q) : r / Q < P ∧ r % Q < Q := by
  have hQ : 0 < Q := by
    rcases Nat.eq_zero_or_pos Q with h | h
    · subst h; simp at hr
    · exact h
  exact ⟨(Nat.div_lt_iff_lt_mul hQ).mpr hr, Nat.mod_lt _ hQ⟩

/-- On every rank of the grid the function returns, given a loop budget above
`N + B + P + Q`: rank 0 performs `holderOps`, every other rank `recvOps`. -/
theorem init_local_domain_eq (fuel N B P Q r : Nat) (hr : r < P * Q)
    (hfuel : N + B + P + Q < fuel) :
    init_local_domain fuel N B (grid_of_rank P Q r) =
      some (init_fields N B (grid_of_rank P Q r),
        if r = 0 then
          holderOps N B (grid_of_rank P Q r) (init_fields N B (grid_of_rank P Q r))
            { count := B, blocklength := B, stride := N }
        else recvOps B (init_fields N B (grid_of_rank P Q r))) := by
  obtain ⟨hrow, hcol⟩ := div_mod_lt_of_lt_mul P Q r hr
  have hnb : N / B ≤ N := Nat.div_le_self N B
  have hP := blockCount_le (N / B) P (r / Q) hrow
  have hQ := blockCount_le (N / B) Q (r % Q) hcol
  have h1 : (init_fields N B (grid_of_rank P Q r)).NBP < fuel := by
    rw [init_fields_NBP]; simp only [grid_of_rank]; omega
  have h2 : (init_fields N B (grid_of_rank P Q r)).NBQ < fuel := by
    rw [init_fields_NBQ]; simp only [grid_of_rank]; omega
  unfold init_local_domain
  dsimp only
  by_cases h0 : r = 0
  · have hl : (grid_of_rank P Q r).lrank = 0 := h0
    rw [if_pos hl, if_pos h0, holder_branch_eq fuel N B _ _ _ h1 h2 (by omega) (by omega)
      (by simp only [grid_of_rank]; omega) (by simp only [grid_of_rank]; omega)]
    rfl
  · have hl : (grid_of_rank P Q r).lrank ≠ 0 := h0
    rw [if_neg hl, if_neg h0, receiver_branch_eq fuel B _ h1 h2]
    rfl

/-! ## Enumerations over ranges -/

theorem range_flatMap_map {β : Type} (a b : Nat) (g : Nat → β) :
    (List.range a).flatMap (fun i => (List.range b).map (fun j => g (i * b + j))) =
      (List.range (a * b)).map g := by
  induction a with
  | zero => simp
  | succ a ih =>
    rw [List.range_succ, List.flatMap_append, ih, Nat.succ_mul, List.range_add,
      List.map_append, List.map_map]
    simp [Function.comp, Nat.add_comm]

theorem range_flatMap_shift {β : Type} (x b c : Nat) (g : Nat → β) :
    (List.range b).flatMap (fun j => (List.range c).map (fun m => g ((x * b + j) * c + m))) =
      (List.range (b * c)).map (fun m => g (x * (b * c) + m)) := by
  rw [← range_flatMap_map b c (fun m => g (x * (b * c) + m))]
  congr 1
  funext j
  congr 1
  funext m
  congr 1
  ring

theorem flatMap_singleton_eq_map {β γ : Type} (l : List β) (f : β → γ) :
    l.flatMap (fun x => [f x]) = l.map f := by
  induction l with
  | nil => rfl
  | cons a t ih => simp [List.flatMap_cons, ih]

theorem range_nest4 {β : Type} (a b c d : Nat) (g : Nat → β) :
    ((List.range a).flatMap fun i => (List.range b).flatMap fun j =>
      (List.range c).flatMap fun k => (List.range d).flatMap fun l =>
        [g (((i * b + j) * c + k) * d + l)]) = (List.range (a * (b * (c * d)))).map g := by
  have h1 : ∀ i j k, ((List.range d).flatMap fun l => [g (((i * b + j) * c + k) * d + l)]) =
      (List.range d).map (fun l => g (((i * b + j) * c + k) * d + l)) :=
    fun i j k => flatMap_singleton_eq_map _ _
  simp only [h1]
  have h2 : ∀ i j, ((List.range c).flatMap fun k =>
      (List.range d).map (fun l => g (((i * b + j) * c + k) * d + l))) =
      (List.range (c * d)).map (fun m => g ((i * b + j) * (c * d) + m)) :=
    fun i j => range_flatMap_shift (i * b + j) c d g
  simp only [h2]
  have h3 : ∀ i, ((List.range b).flatMap fun j =>
      (List.range (c * d)).map (fun m => g ((i * b + j) * (c * d) + m))) =
      (List.range (b * (c * d))).map (fun m => g (i * (b * (c * d)) + m)) :=
    fun i => range_flatMap_shift i b (c * d) g
  simp only [h3]
  exact range_flatMap_map a (b * (c * d)) g

theorem flatMap_range_single {β : Type} (n k : Nat) (f : Nat → List β) (hk : k < n)
    (h : ∀ j, j < n → j ≠ k → f j = []) : (List.range n).flatMap f = f k := by
  induction n with
  | zero => omega
  | succ n ih =>
    rw [List.range_succ, List.flatMap_append]
    by_cases hkn : k = n
    · subst hkn
      have : (List.range k).flatMap f = [] := by
        rw [List.flatMap_eq_nil_iff]
        intro x hx
        rw [List.mem_range] at hx
        exact h x (by omega) (by omega)
      simp [this]
    · rw [ih (by omega) (fun j hj hne => h j (by omega) hne)]
      simp [h n (by omega) (fun e => hkn e.symm)]

theorem getElem?_of_mem_of_fst {β : Type} (L : List (Nat × β)) (n : Nat)
    (hL : L.map Prod.fst = List.range n) (x : Nat × β) (hx : x ∈ L) :
    L[x.1]? = some x := by
  obtain ⟨k, hk, hkx⟩ := List.getElem_of_mem hx
  have h1 : (L.map Prod.fst)[k]? = some x.1 := by
    rw [List.getElem?_map, List.getElem?_eq_getElem hk, hkx]; rfl
  rw [hL] at h1
  have hlen : L.length = n := by
    have := congrArg List.length hL
    simpa using this
  rw [List.getElem?_range (by omega)] at h1
  have hk1 : k = x.1 := by simpa using h1
  rw [← hk1, List.getElem?_eq_getElem hk, hkx]

/-! ## Running the operations -/

theorem exec_stores (globalA : List α) (tail : List Action) (inbox : List (List (Option α))) :
    ∀ (pairs : List (Nat × Nat)) (done : List (Option α)),
      pairs.map Prod.fst = List.range' done.length pairs.length →
      (∀ x ∈ pairs, x.2 < globalA.length) →
      exec globalA (pairs.map (fun x => Action.store x.1 x.2) ++ tail) inbox
          (done ++ List.replicate pairs.length none) =
        exec globalA tail inbox (done ++ pairs.map (fun x => globalA[x.2]?)) := by
  intro pairs
  induction pairs with
  | nil => intro done _ _; simp
  | cons x t ih =>
    intro done hpos hsrc
    have hx : x.2 < globalA.length := hsrc x (List.mem_cons_self _ _)
    simp only [List.map_cons, List.length_cons, List.range'_succ, List.cons.injEq] at hpos
    obtain ⟨hd, ht⟩ := hpos
    have hset : (done ++ List.replicate (t.length + 1) (none : Option α)).set x.1
        (some globalA[x.2]) = (done ++ [some globalA[x.2]]) ++ List.replicate t.length none := by
      rw [hd, List.replicate_succ]
      simp
    have key := ih (done ++ [some globalA[x.2]]) (by simpa using ht)
      (fun y hy => hsrc y (List.mem_cons_of_mem _ hy))
    rw [List.map_cons, List.cons_append, List.length_cons, exec, List.getElem?_eq_getElem hx]
    dsimp only
    rw [if_pos (by simp; omega), hset, key]
    simp [List.getElem?_eq_getElem hx]

theorem exec_sends (globalA : List α) (inbox : List (List (Option α))) (data : List (Option α)) :
    ∀ tr : List Action,
      (∀ a ∈ tr, ∃ off ty dest, a = Action.send off ty dest ∧
        (payload globalA off ty).all Option.isSome = true) →
      exec globalA tr inbox data = some (data, inbox) := by
  intro tr
  induction tr with
  | nil => intro _; rfl
  | cons a t ih =>
    intro h
    obtain ⟨off, ty, dest, rfl, hs⟩ := h a (List.mem_cons_self _ _)
    rw [exec, if_pos hs]
    exact ih (fun b hb => h b (List.mem_cons_of_mem _ hb))

theorem exec_recvs (globalA : List α) (S : Nat) :
    ∀ (msgs : List (List (Option α))) (k0 : Nat) (done : List (Option α)),
      (∀ m ∈ msgs, m.length = S) → done.length = k0 * S →
      exec globalA ((List.range' k0 msgs.length).map (fun k => Action.recv (k * S) S 0)) msgs
          (done ++ List.replicate (msgs.length * S) none) = some (done ++ msgs.flatten, []) := by
  intro msgs
  induction msgs with
  | nil => intro k0 done _ _; simp [exec]
  | cons m ms ih =>
    intro k0 done hlen hdone
    have hm : m.length = S := hlen m (List.mem_cons_self _ _)
    have hrep : List.replicate ((ms.length + 1) * S) (none : Option α) =
        List.replicate S none ++ List.replicate (ms.length * S) none := by
      rw [List.append_replicate_replicate]; congr 1; ring
    have hw : writeAt (done ++ List.replicate ((ms.length + 1) * S) (none : Option α)) (k0 * S) m =
        (done ++ m) ++ List.replicate (ms.length * S) none := by
      unfold writeAt
      rw [← hdone, List.take_left, hm, hrep, List.drop_append, List.drop_left' (by simp)]
    have key := ih (k0 + 1) (done ++ m) (fun x hx => hlen x (List.mem_cons_of_mem _ hx))
      (by simp [hdone, hm]; ring)
    rw [List.length_cons, List.range'_succ, List.map_cons, exec]
    rw [if_pos ⟨rfl, hm, by simp; nlinarith⟩, hw, key]
    simp

/-! ## The layout of a local buffer -/

theorem copyOps_eq_map_layout (N B : Nat) (ld : local_domain_t) :
    copyOps N B ld = (layout N B ld).map (fun x => Action.store x.1 x.2) := by
  simp only [copyOps, layout, List.map_flatMap, List.map_cons, List.map_nil]

theorem layout_fst (N B : Nat) (ld : local_domain_t) (hB : ld.B = B) :
    (layout N B ld).map Prod.fst = List.range (ld.NBP * (ld.NBQ * (B * B))) := by
  have h : ∀ lbi lbj ii jj, BLK_ELE (BLK ld lbi lbj) B ii jj =
      id (((lbi * ld.NBQ + lbj) * B + ii) * B + jj) := by
    intro lbi lbj ii jj
    simp only [BLK_ELE, BLK, hB, id]
    ring
  simp only [layout, List.map_flatMap, List.map_cons, List.map_nil, h]
  rw [range_nest4 ld.NBP ld.NBQ B B id, List.map_id]

theorem layout_length (N B : Nat) (ld : local_domain_t) (hB : ld.B = B) :
    (layout N B ld).length = ld.NBP * (ld.NBQ * (B * B)) := by
  have h := congrArg List.length (layout_fst N B ld hB)
  simpa using h

theorem mem_layout (N B : Nat) (ld : local_domain_t) (x : Nat × Nat) :
    x ∈ layout N B ld ↔ ∃ lbi, lbi < ld.NBP ∧ ∃ lbj, lbj < ld.NBQ ∧ ∃ ii, ii < B ∧ ∃ jj, jj < B ∧
      x = (BLK_ELE (BLK ld lbi lbj) B ii jj, G_ROW ld lbi ii * N + G_COL ld lbj jj) := by
  simp only [layout, List.mem_flatMap, List.mem_range, List.mem_singleton]

/-- A row (or column) index built from a block index below `N / B` and an
in-block offset below `B` is below `N`. -/
theorem block_index_lt (N B I ii : Nat) (hI : I < N / B) (hii : ii < B) : I * B + ii < N := by
  have h1 : (I + 1) * B ≤ N / B * B := Nat.mul_le_mul_right B hI
  have h2 : N / B * B ≤ N := Nat.div_mul_le_self N B
  have h3 : (I + 1) * B = I * B + B := by ring
  omega

theorem flat_index_lt (N gi gj : Nat) (hi : gi < N) (hj : gj < N) : gi * N + gj < N * N := by
  have h1 : (gi + 1) * N ≤ N * N := Nat.mul_le_mul_right N hi
  have h2 : (gi + 1) * N = gi * N + N := by ring
  omega

/-- Every index of `globalA` named by the layout of a process of the grid is
inside the `N x N` matrix. -/
theorem layout_snd_lt (N B P Q r : Nat) (hr : r < P * Q) (x : Nat × Nat)
    (hx : x ∈ layout N B (init_fields N B (grid_of_rank P Q r))) : x.2 < N * N := by
  obtain ⟨hrow, hcol⟩ := div_mod_lt_of_lt_mul P Q r hr
  rw [mem_layout] at hx
  obtain ⟨lbi, hlbi, lbj, hlbj, ii, hii, jj, hjj, rfl⟩ := hx
  rw [init_fields_NBP] at hlbi
  rw [init_fields_NBQ] at hlbj
  have hI := (guard_iff_lt_blockCount (N / B) P (r / Q) lbi hrow).mpr hlbi
  have hJ := (guard_iff_lt_blockCount (N / B) Q (r % Q) lbj hcol).mpr hlbj
  exact flat_index_lt N _ _ (block_index_lt N B _ ii hI hii) (block_index_lt N B _ jj hJ hjj)

theorem localImage_getElem? (globalA : List α) (N B : Nat) (ld : local_domain_t) (hB : ld.B = B)
    (x : Nat × Nat) (hx : x ∈ layout N B ld) :
    (localImage globalA N B ld)[x.1]? = some globalA[x.2]? := by
  unfold localImage
  rw [List.getElem?_map, getElem?_of_mem_of_fst _ _ (layout_fst N B ld hB) x hx]
  rfl

/-! ## The run of rank 0 -/

theorem rank_eq_zero_iff (grid : grid_t) (p q : Nat) (hQ : 0 < grid.Q) :
    RANK_FROM_PQ grid p q = 0 ↔ p = 0 ∧ q = 0 := by
  unfold RANK_FROM_PQ
  constructor
  · intro h
    have hq : q = 0 := by omega
    have hp : p * grid.Q = 0 := by omega
    rcases Nat.mul_eq_zero.mp hp with h1 | h1
    · exact ⟨h1, hq⟩
    · omega
  · rintro ⟨rfl, rfl⟩; simp

theorem holderStep_of_ne (N B : Nat) (grid : grid_t) (ld : local_domain_t) (ty : vector_type)
    (p q : Nat) (h : RANK_FROM_PQ grid p q ≠ 0) :
    holderStep N B grid ld ty p q = sendOps N B grid ld ty p q (RANK_FROM_PQ grid p q) := by
  unfold holderStep; rw [if_neg h]

theorem holderStep_zero (N B : Nat) (grid : grid_t) (ld : local_domain_t) (ty : vector_type) :
    holderStep N B grid ld ty 0 0 = copyOps N B ld := by
  unfold holderStep; rw [if_pos (by simp [RANK_FROM_PQ])]

/-- Rank 0 first copies its own tiles; everything after that is a send to a
grid coordinate whose rank is not 0. -/
theorem holderOps_split (N B : Nat) (grid : grid_t) (ld : local_domain_t) (ty : vector_type)
    (hP : 0 < grid.P) (hQ : 0 < grid.Q) :
    ∃ rest, holderOps N B grid ld ty = copyOps N B ld ++ rest ∧
      ∀ a ∈ rest, ∃ p q, p < grid.P ∧ q < grid.Q ∧ RANK_FROM_PQ grid p q ≠ 0 ∧
        a ∈ sendOps N B grid ld ty p q (RANK_FROM_PQ grid p q) := by
  obtain ⟨P', hP'⟩ : ∃ P', grid.P = P' + 1 := ⟨grid.P - 1, by omega⟩
  obtain ⟨Q', hQ'⟩ : ∃ Q', grid.Q = Q' + 1 := ⟨grid.Q - 1, by omega⟩
  refine ⟨((List.range Q').map Nat.succ).flatMap (fun q => holderStep N B grid ld ty 0 q) ++
    ((List.range P').map Nat.succ).flatMap (fun p =>
      (List.range grid.Q).flatMap fun q => holderStep N B grid ld ty p q), ?_, ?_⟩
  · unfold holderOps
    rw [hP', List.range_succ_eq_map, List.flatMap_cons]
    conv_lhs => arg 1; rw [hQ', List.range_succ_eq_map, List.flatMap_cons]
    rw [holderStep_zero, List.append_assoc, hQ']
  · intro a ha
    rw [List.mem_append] at ha
    rcases ha with ha | ha
    · simp only [List.mem_flatMap, List.mem_map, List.mem_range] at ha
      obtain ⟨q, ⟨q', hq', rfl⟩, ha⟩ := ha
      have hne : RANK_FROM_PQ grid 0 (q' + 1) ≠ 0 := by
        intro h; have := (rank_eq_zero_iff grid 0 (q' + 1) hQ).mp h; omega
      rw [holderStep_of_ne _ _ _ _ _ _ _ hne] at ha
      exact ⟨0, q' + 1, hP, by omega, hne, ha⟩
    · simp only [List.mem_flatMap, List.mem_map, List.mem_range] at ha
      obtain ⟨p, ⟨p', hp', rfl⟩, q, hq, ha⟩ := ha
      have hne : RANK_FROM_PQ grid (p' + 1) q ≠ 0 := by
        intro h; have := (rank_eq_zero_iff grid (p' + 1) q hQ).mp h; omega
      rw [holderStep_of_ne _ _ _ _ _ _ _ hne] at ha
      exact ⟨p' + 1, q, by omega, hq, hne, ha⟩

theorem mem_offsets (ty : vector_type) (d : Nat) :
    d ∈ ty.offsets ↔ ∃ r, r < ty.count ∧ ∃ c, c < ty.blocklength ∧ d = r * ty.stride + c := by
  simp only [vector_type.offsets, List.mem_flatMap, List.mem_map, List.mem_range]
  constructor
  · rintro ⟨r, hr, c, hc, rfl⟩; exact ⟨r, hr, c, hc, rfl⟩
  · rintro ⟨r, hr, c, hc, rfl⟩; exact ⟨r, hr, c, hc, rfl⟩

/-- Every cell of the tile that starts at block `(I, J)`, with `I, J < N / B`,
lies inside the `N x N` matrix. -/
theorem tile_index_lt (N B I J r c : Nat) (hI : I < N / B) (hJ : J < N / B) (hr : r < B)
    (hc : c < B) : ((I * B + 0) * N + (J * B + 0)) + (r * N + c) < N * N := by
  have h1 := block_index_lt N B I r hI hr
  have h2 := block_index_lt N B J c hJ hc
  have h3 := flat_index_lt N _ _ h1 h2
  have h4 : ((I * B + 0) * N + (J * B + 0)) + (r * N + c) = (I * B + r) * N + (J * B + c) := by
    ring
  omega

theorem sendOps_safe (globalA : List α) (N B P Q r p q t : Nat)
    (hlen : globalA.length = N * N) (hp : p < P) (hq : q < Q) (a : Action)
    (ha : a ∈ sendOps N B (grid_of_rank P Q r) (init_fields N B (grid_of_rank P Q r))
      { count := B, blocklength := B, stride := N } p q t) :
    ∃ off ty dest, a = Action.send off ty dest ∧
      (payload globalA off ty).all Option.isSome = true := by
  simp only [sendOps, List.mem_flatMap, List.mem_range, List.mem_singleton] at ha
  obtain ⟨lbi, hlbi, lbj, hlbj, rfl⟩ := ha
  refine ⟨_, _, _, rfl, ?_⟩
  have hI := (guard_iff_lt_blockCount (N / B) P p lbi hp).mpr hlbi
  have hJ := (guard_iff_lt_blockCount (N / B) Q q lbj hq).mpr hlbj
  rw [List.all_eq_true]
  intro c hc
  simp only [payload, List.mem_map] at hc
  obtain ⟨d, hd, rfl⟩ := hc
  rw [mem_offsets] at hd
  obtain ⟨i, hi, j, hj, rfl⟩ := hd
  have hlt := tile_index_lt N B _ _ i j hI hJ hi hj
  have hlt2 : G_ROW_P (init_fields N B (grid_of_rank P Q r)) lbi p 0 * N +
      G_COL_Q (init_fields N B (grid_of_rank P Q r)) lbj q 0 + (i * N + j) < globalA.length := by
    rw [hlen]; exact hlt
  rw [List.getElem?_eq_getElem hlt2]
  rfl

/-- Rank 0, holding an `N x N` matrix, runs to completion without touching a
cell outside `globalA` or `data`, and ends with its local image. -/
theorem exec_holder (globalA : List α) (N B P Q : Nat) (hlen : globalA.length = N * N)
    (hP : 0 < P) (hQ : 0 < Q) :
    exec globalA
        (holderOps N B (grid_of_rank P Q 0) (init_fields N B (grid_of_rank P Q 0))
          { count := B, blocklength := B, stride := N }) []
        (List.replicate (init_fields N B (grid_of_rank P Q 0)).dataLen none) =
      some (localImage globalA N B (init_fields N B (grid_of_rank P Q 0)), []) := by
  obtain ⟨rest, hsplit, hrest⟩ := holderOps_split N B (grid_of_rank P Q 0)
    (init_fields N B (grid_of_rank P Q 0)) { count := B, blocklength := B, stride := N } hP hQ
  have hr0 : 0 < P * Q := Nat.mul_pos hP hQ
  have hdl : (init_fields N B (grid_of_rank P Q 0)).dataLen =
      (layout N B (init_fields N B (grid_of_rank P Q 0))).length := by
    rw [layout_length N B _ rfl]
    simp only [init_fields]
    ring
  have hstores := exec_stores globalA rest []
    (layout N B (init_fields N B (grid_of_rank P Q 0))) []
    (by rw [layout_fst N B _ rfl, layout_length N B _ rfl, List.range_eq_range']; rfl)
    (fun x hx => by rw [hlen]; exact layout_snd_lt N B P Q 0 hr0 x hx)
  rw [hsplit, copyOps_eq_map_layout, hdl]
  simp only [List.nil_append] at hstores
  rw [hstores]
  refine exec_sends globalA [] _ rest (fun a ha => ?_)
  obtain ⟨p, q, hp, hq, _, hmem⟩ := hrest a ha
  exact sendOps_safe globalA N B P Q 0 p q _ hlen hp hq a hmem

/-! ## The messages of rank 0 -/

theorem sendsTo_append (r : Nat) (a b : List Action) :
    sendsTo r (a ++ b) = sendsTo r a ++ sendsTo r b := by
  induction a with
  | nil => rfl
  | cons x t ih =>
    cases x with
    | store d s => simpa [sendsTo] using ih
    | recv d c s => simpa [sendsTo] using ih
    | send off ty dest =>
      by_cases h : dest = r
      · simp [sendsTo, h, ih]
      · simp [sendsTo, h, ih]

theorem sendsTo_flatMap {β : Type} (r : Nat) (L : List β) (f : β → List Action) :
    sendsTo r (L.flatMap f) = L.flatMap (fun x => sendsTo r (f x)) := by
  induction L with
  | nil => rfl
  | cons x t ih => simp [List.flatMap_cons, sendsTo_append, ih]

theorem sendsTo_copyOps (r N B : Nat) (ld : local_domain_t) : sendsTo r (copyOps N B ld) = [] := by
  simp [copyOps, sendsTo_flatMap, sendsTo]

theorem sendsTo_sendOps (r N B : Nat) (grid : grid_t) (ld : local_domain_t) (ty : vector_type)
    (p q t : Nat) :
    sendsTo r (sendOps N B grid ld ty p q t) = if t = r then tilesOf N B grid ld ty p q else [] := by
  by_cases h : t = r
  · simp [sendOps, tilesOf, sendsTo_flatMap, sendsTo, h]
  · simp [sendOps, sendsTo_flatMap, sendsTo, h]

theorem rank_div_mod (grid : grid_t) (p q : Nat) (hq : q < grid.Q) :
    RANK_FROM_PQ grid p q / grid.Q = p ∧ RANK_FROM_PQ grid p q % grid.Q = q := by
  have hQ : 0 < grid.Q := by omega
  unfold RANK_FROM_PQ
  constructor
  · rw [Nat.mul_comm, Nat.mul_add_div hQ, Nat.div_eq_of_lt hq]; rfl
  · rw [Nat.mul_comm, Nat.mul_add_mod, Nat.mod_eq_of_lt hq]

theorem rank_injective (grid : grid_t) (p q p' q' : Nat) (hq : q < grid.Q) (hq' : q' < grid.Q)
    (h : RANK_FROM_PQ grid p q = RANK_FROM_PQ grid p' q') : p = p' ∧ q = q' := by
  obtain ⟨h1, h2⟩ := rank_div_mod grid p q hq
  obtain ⟨h3, h4⟩ := rank_div_mod grid p' q' hq'
  rw [h] at h1 h2
  exact ⟨h1.symm.trans h3, h2.symm.trans h4⟩

theorem sendsTo_holderStep (r N B : Nat) (grid : grid_t) (ld : local_domain_t)
    (ty : vector_type) (p q : Nat) (hr : r ≠ 0) :
    sendsTo r (holderStep N B grid ld ty p q) =
      if RANK_FROM_PQ grid p q = r then tilesOf N B grid ld ty p q else [] := by
  unfold holderStep
  by_cases h0 : RANK_FROM_PQ grid p q = 0
  · rw [if_pos h0, sendsTo_copyOps, if_neg (by omega)]
  · rw [if_neg h0, sendsTo_sendOps]

/-- The sends rank 0 addresses to the rank of grid coordinate `(p, q)`, other
than itself, are exactly the tiles of `(p, q)`, in row-major order. -/
theorem sendsTo_holderOps (N B : Nat) (grid : grid_t) (ld : local_domain_t) (ty : vector_type)
    (p q : Nat) (hp : p < grid.P) (hq : q < grid.Q) (hne : RANK_FROM_PQ grid p q ≠ 0) :
    sendsTo (RANK_FROM_PQ grid p q) (holderOps N B grid ld ty) = tilesOf N B grid ld ty p q := by
  unfold holderOps
  rw [sendsTo_flatMap, flatMap_range_single grid.P p _ hp]
  · rw [sendsTo_flatMap, flatMap_range_single grid.Q q _ hq]
    · rw [sendsTo_holderStep _ _ _ _ _ _ _ _ hne, if_pos rfl]
    · intro j hj hjq
      rw [sendsTo_holderStep _ _ _ _ _ _ _ _ hne, if_neg]
      intro h
      exact hjq (rank_injective grid p j p q hj hq h).2
  · intro i _ hip
    rw [sendsTo_flatMap, List.flatMap_eq_nil_iff]
    intro j hj
    rw [List.mem_range] at hj
    rw [sendsTo_holderStep _ _ _ _ _ _ _ _ hne, if_neg]
    intro h
    exact hip (rank_injective grid i j p q hj hq h).1

theorem length_flatMap_range {β : Type} (a c : Nat) (f : Nat → List β)
    (h : ∀ i, (f i).length = c) : ((List.range a).flatMap f).length = a * c := by
  induction a with
  | zero => simp
  | succ a ih =>
    rw [List.range_succ, List.flatMap_append, List.length_append, ih]
    simp [h, Nat.succ_mul]

theorem length_tilesOf (N B : Nat) (grid : grid_t) (ld : local_domain_t) (ty : vector_type)
    (p q : Nat) :
    (tilesOf N B grid ld ty p q).length =
      blockCount (N / B) grid.P p * blockCount (N / B) grid.Q q := by
  unfold tilesOf
  refine length_flatMap_range _ _ _ (fun i => ?_)
  have h := length_flatMap_range (blockCount (N / B) grid.Q q) 1
    (fun lbj => [(G_ROW_P ld i p 0 * N + G_COL_Q ld lbj q 0, ty)]) (fun _ => rfl)
  rw [Nat.mul_one] at h
  exact h

theorem length_offsets (ty : vector_type) : ty.offsets.length = ty.count * ty.blocklength := by
  unfold vector_type.offsets
  exact length_flatMap_range _ _ _ (fun i => by simp)

theorem recvOps_eq_map (B : Nat) (ld : local_domain_t) (hB : ld.B = B) :
    recvOps B ld =
      (List.range' 0 (ld.NBP * ld.NBQ)).map (fun k => Action.recv (k * (B * B)) (B * B) 0) := by
  have h : ∀ lbi lbj, BLK ld lbi lbj = (lbi * ld.NBQ + lbj) * (B * B) := by
    intro lbi lbj; simp only [BLK, hB]; ring
  unfold recvOps
  simp only [h, flatMap_singleton_eq_map]
  rw [range_flatMap_map ld.NBP ld.NBQ (fun k => Action.recv (k * (B * B)) (B * B) 0),
    List.range_eq_range']

/-! ## The run of a rank above 0 -/

theorem flatten_mailbox (globalA : List α) (N B P Q r : Nat) :
    ((tilesOf N B (grid_of_rank P Q 0) (init_fields N B (grid_of_rank P Q 0))
        { count := B, blocklength := B, stride := N } (r / Q) (r % Q)).map
      (fun m => payload globalA m.1 m.2)).flatten =
      localImage globalA N B (init_fields N B (grid_of_rank P Q r)) := by
  rw [← List.flatMap_def]
  simp only [tilesOf, localImage, layout, payload, vector_type.offsets, List.flatMap_assoc,
    List.flatMap_cons, List.flatMap_nil, List.append_nil, List.map_flatMap, List.map_map,
    List.map_cons, List.map_nil, flatMap_singleton_eq_map, init_fields_NBP, init_fields_NBQ,
    List.flatMap_map, Function.comp_def]
  have hP0 : (grid_of_rank P Q 0).P = (grid_of_rank P Q r).P := rfl
  have hQ0 : (grid_of_rank P Q 0).Q = (grid_of_rank P Q r).Q := rfl
  have hrow : (grid_of_rank P Q r).myrow = r / Q := rfl
  have hcol : (grid_of_rank P Q r).mycol = r % Q := rfl
  rw [hP0, hQ0, hrow, hcol]
  congr 1; funext lbi
  congr 1; funext lbj
  congr 1; funext ii
  congr 1; funext jj
  congr 1
  simp only [G_ROW, G_COL, G_ROW_P, G_COL_Q, init_fields, grid_of_rank]
  ring

theorem payload_length (globalA : List α) (off : Nat) (ty : vector_type) :
    (payload globalA off ty).length = ty.count * ty.blocklength := by
  unfold payload
  rw [List.length_map, length_offsets]

/-- A rank above 0 of the grid, fed the messages rank 0 addressed to it, runs
to completion, consumes all of them, and ends with its local image. -/
theorem exec_receiver (globalA mem : List α) (N B P Q r : Nat) (hr : r < P * Q) (h0 : r ≠ 0) :
    exec mem (recvOps B (init_fields N B (grid_of_rank P Q r)))
        (mailbox globalA r
          (holderOps N B (grid_of_rank P Q 0) (init_fields N B (grid_of_rank P Q 0))
            { count := B, blocklength := B, stride := N }))
        (List.replicate (init_fields N B (grid_of_rank P Q r)).dataLen none) =
      some (localImage globalA N B (init_fields N B (grid_of_rank P Q r)), []) := by
  obtain ⟨hrow, hcol⟩ := div_mod_lt_of_lt_mul P Q r hr
  have hrank : RANK_FROM_PQ (grid_of_rank P Q 0) (r / Q) (r % Q) = r := by
    simp only [RANK_FROM_PQ, grid_of_rank]
    exact Nat.div_add_mod' r Q
  have hsends := sendsTo_holderOps N B (grid_of_rank P Q 0) (init_fields N B (grid_of_rank P Q 0))
    { count := B, blocklength := B, stride := N } (r / Q) (r % Q) hrow hcol (by rw [hrank]; exact h0)
  rw [hrank] at hsends
  have hcount : ((tilesOf N B (grid_of_rank P Q 0) (init_fields N B (grid_of_rank P Q 0))
      { count := B, blocklength := B, stride := N } (r / Q) (r % Q)).map
      (fun m => payload globalA m.1 m.2)).length =
      (init_fields N B (grid_of_rank P Q r)).NBP * (init_fields N B (grid_of_rank P Q r)).NBQ := by
    rw [List.length_map, length_tilesOf]
    rfl
  have hmsg : ∀ m ∈ (tilesOf N B (grid_of_rank P Q 0) (init_fields N B (grid_of_rank P Q 0))
      { count := B, blocklength := B, stride := N } (r / Q) (r % Q)).map
      (fun m => payload globalA m.1 m.2), m.length = B * B := by
    intro m hm
    rw [List.mem_map] at hm
    obtain ⟨x, hx, rfl⟩ := hm
    simp only [tilesOf, List.mem_flatMap, List.mem_range, List.mem_singleton] at hx
    obtain ⟨_, _, _, _, rfl⟩ := hx
    exact payload_length _ _ _
  have hdl : (init_fields N B (grid_of_rank P Q r)).dataLen =
      (init_fields N B (grid_of_rank P Q r)).NBP * (init_fields N B (grid_of_rank P Q r)).NBQ *
        (B * B) := by
    simp only [init_fields]; ring
  have key := exec_recvs mem (B * B) _ 0 [] hmsg (by simp)
  rw [hcount] at key
  unfold mailbox
  rw [hsends, recvOps_eq_map B _ rfl, hdl]
  simp only [List.nil_append] at key
  rw [key, flatten_mailbox]

/-! ## The scatter as a whole -/

theorem sendsTo_zero_holderOps (N B : Nat) (grid : grid_t) (ld : local_domain_t)
    (ty : vector_type) : sendsTo 0 (holderOps N B grid ld ty) = [] := by
  unfold holderOps
  rw [sendsTo_flatMap, List.flatMap_eq_nil_iff]
  intro p _
  rw [sendsTo_flatMap, List.flatMap_eq_nil_iff]
  intro q _
  unfold holderStep
  by_cases h : RANK_FROM_PQ grid p q = 0
  · rw [if_pos h, sendsTo_copyOps]
  · rw [if_neg h, sendsTo_sendOps, if_neg h]
theorem rank_lt (P Q p q : Nat) (hp : p < P) (hq : q < Q) : p * Q + q < P * Q := by
  have h1 : (p + 1) * Q ≤ P * Q := Nat.mul_le_mul_right Q hp
  have h2 : (p + 1) * Q = p * Q + Q := by ring
  omega

theorem rank_div (Q p q : Nat) (hq : q < Q) : (p * Q + q) / Q = p := by
  have hQ : 0 < Q := by omega
  rw [Nat.mul_comm, Nat.mul_add_div hQ, Nat.div_eq_of_lt hq]; rfl

theorem rank_mod (Q p q : Nat) (hq : q < Q) : (p * Q + q) % Q = q := by
  rw [Nat.mul_comm, Nat.mul_add_mod, Nat.mod_eq_of_lt hq]

theorem mem_holderOps (N B : Nat) (grid : grid_t) (ld : local_domain_t) (ty : vector_type)
    (a : Action) (ha : a ∈ holderOps N B grid ld ty) :
    a ∈ copyOps N B ld ∨ ∃ p q, p < grid.P ∧ q < grid.Q ∧ a ∈ sendOps N B grid ld ty p q
      (RANK_FROM_PQ grid p q) := by
  simp only [holderOps, holderStep, List.mem_flatMap, List.mem_range] at ha
  obtain ⟨p, hp, q, hq, ha⟩ := ha
  split_ifs at ha
  · exact Or.inl ha
  · exact Or.inr ⟨p, q, hp, hq, ha⟩


/-! ## The run in 32-bit arithmetic -/

theorem wrap32_of_lt (e : Nat) (h : e < 2 ^ 31) : wrap32 (e : Int) = (e : Int) := by
  unfold wrap32
  omega

theorem int_op_ok (lim e : Nat) (h : e ≤ lim) (h32 : lim < 2 ^ 31) :
    int_op lim e = Except.ok e := by
  unfold int_op
  rw [if_pos (wrap32_of_lt e (by omega)), if_pos h]

theorem ok_bind {β γ : Type} (a : β) (f : β → Except Fault γ) :
    (Except.ok a >>= f) = f a := rfl

theorem error_bind {β γ : Type} (e : Fault) (f : β → Except Fault γ) :
    ((Except.error e : Except Fault β) >>= f) = Except.error e := rfl

theorem int_div_ok (a b : Nat) (hb : 0 < b) : int_div a b = Except.ok (a / b) := by
  unfold int_div
  rw [if_neg (by omega)]

theorem int_mod_ok (a b : Nat) (hb : 0 < b) : int_mod a b = Except.ok (a % b) := by
  unfold int_mod
  rw [if_neg (by omega)]

theorem forLoop32_from (lim : Nat) (cond : Nat → Except Fault Bool)
    (body : Nat → Except Fault (List Action)) (f : Nat → List Action) (n : Nat)
    (h32 : lim < 2 ^ 31) (hn : n ≤ lim)
    (hc : ∀ i, i ≤ n → cond i = Except.ok (decide (i < n)))
    (hb : ∀ i, i < n → body i = Except.ok (f i)) :
    ∀ fuel i, i ≤ n → n - i < fuel →
      forLoop32 lim cond body fuel i = Except.ok ((List.range' i (n - i)).flatMap f) := by
  intro fuel
  induction fuel with
  | zero => intro i _ h; omega
  | succ k ih =>
    intro i hin h
    by_cases hi : i < n
    · have h1 : n - i = (n - (i + 1)) + 1 := by omega
      rw [forLoop32, hc i hin, ok_bind, decide_eq_true hi, if_pos rfl, hb i hi, ok_bind,
        int_op_ok lim (i + 1) (by omega) h32, ok_bind, ih (i + 1) (by omega) (by omega), ok_bind,
        h1, List.range'_succ, List.flatMap_cons]
      rfl
    · have h0 : n - i = 0 := by omega
      rw [forLoop32, hc i hin, ok_bind, decide_eq_false hi, h0]
      rfl

theorem forLoop32_eq (lim : Nat) (cond : Nat → Except Fault Bool)
    (body : Nat → Except Fault (List Action)) (f : Nat → List Action) (n fuel : Nat)
    (h32 : lim < 2 ^ 31) (hn : n ≤ lim)
    (hc : ∀ i, i ≤ n → cond i = Except.ok (decide (i < n)))
    (hb : ∀ i, i < n → body i = Except.ok (f i)) (hfuel : n < fuel) :
    forLoop32 lim cond body fuel 0 = Except.ok ((List.range n).flatMap f) := by
  rw [forLoop32_from lim cond body f n h32 hn hc hb fuel 0 (Nat.zero_le _) (by omega),
    List.range_eq_range']
  rfl

theorem G_ROW_P32_ok (lim : Nat) (ld : local_domain_t) (lbi p ii : Nat) (h32 : lim < 2 ^ 31)
    (hB : 1 ≤ ld.B) (h : G_ROW_P ld lbi p ii ≤ lim) :
    G_ROW_P32 lim ld lbi p ii = Except.ok (G_ROW_P ld lbi p ii) := by
  unfold G_ROW_P at h ⊢
  unfold G_ROW_P32
  have h3 : (lbi * ld.grid.P + p) * 1 ≤ (lbi * ld.grid.P + p) * ld.B := Nat.mul_le_mul_left _ hB
  rw [int_op_ok lim (lbi * ld.grid.P) (by omega) h32, ok_bind,
    int_op_ok lim (lbi * ld.grid.P + p) (by omega) h32, ok_bind,
    int_op_ok lim ((lbi * ld.grid.P + p) * ld.B) (by omega) h32, ok_bind,
    int_op_ok lim _ h h32]

theorem G_COL_Q32_ok (lim : Nat) (ld : local_domain_t) (lbj q jj : Nat) (h32 : lim < 2 ^ 31)
    (hB : 1 ≤ ld.B) (h : G_COL_Q ld lbj q jj ≤ lim) :
    G_COL_Q32 lim ld lbj q jj = Except.ok (G_COL_Q ld lbj q jj) := by
  unfold G_COL_Q at h ⊢
  unfold G_COL_Q32
  have h3 : (lbj * ld.grid.Q + q) * 1 ≤ (lbj * ld.grid.Q + q) * ld.B := Nat.mul_le_mul_left _ hB
  rw [int_op_ok lim (lbj * ld.grid.Q) (by omega) h32, ok_bind,
    int_op_ok lim (lbj * ld.grid.Q + q) (by omega) h32, ok_bind,
    int_op_ok lim ((lbj * ld.grid.Q + q) * ld.B) (by omega) h32, ok_bind,
    int_op_ok lim _ h h32]

theorem BLK32_ok (lim : Nat) (ld : local_domain_t) (lbi lbj : Nat) (h32 : lim < 2 ^ 31)
    (hB : 1 ≤ ld.B) (h : BLK ld lbi lbj ≤ lim) :
    BLK32 lim ld lbi lbj = Except.ok (BLK ld lbi lbj) := by
  unfold BLK at h ⊢
  unfold BLK32
  have h3 : (lbi * ld.NBQ + lbj) * 1 ≤ (lbi * ld.NBQ + lbj) * ld.B := Nat.mul_le_mul_left _ hB
  have h4 : (lbi * ld.NBQ + lbj) * ld.B * 1 ≤ (lbi * ld.NBQ + lbj) * ld.B * ld.B :=
    Nat.mul_le_mul_left _ hB
  rw [int_op_ok lim (lbi * ld.NBQ) (by omega) h32, ok_bind,
    int_op_ok lim (lbi * ld.NBQ + lbj) (by omega) h32, ok_bind,
    int_op_ok lim ((lbi * ld.NBQ + lbj) * ld.B) (by omega) h32, ok_bind,
    int_op_ok lim _ h h32]

theorem BLK_ELE32_ok (lim blk B ii jj : Nat) (h32 : lim < 2 ^ 31) (h : ii * B + jj ≤ lim) :
    BLK_ELE32 lim blk B ii jj = Except.ok (BLK_ELE blk B ii jj) := by
  unfold BLK_ELE32 BLK_ELE
  rw [int_op_ok lim (ii * B) (by omega) h32, ok_bind, int_op_ok lim _ h h32, ok_bind,
    Nat.add_assoc]
  rfl

theorem RANK_FROM_PQ32_ok (lim : Nat) (grid : grid_t) (p q : Nat) (h32 : lim < 2 ^ 31)
    (h : RANK_FROM_PQ grid p q ≤ lim) :
    RANK_FROM_PQ32 lim grid p q = Except.ok (RANK_FROM_PQ grid p q) := by
  unfold RANK_FROM_PQ at h ⊢
  unfold RANK_FROM_PQ32
  rw [int_op_ok lim (p * grid.Q) (by omega) h32, ok_bind, int_op_ok lim _ h h32]

theorem pos_of_lt_blockCount (nb P p lbi : Nat) (hp : p < P) (h : lbi < blockCount nb P p) :
    0 < nb := by
  have := (guard_iff_lt_blockCount nb P p lbi hp).mpr h
  omega

theorem block_size_le (N B : Nat) (h : 0 < N / B) : B ≤ N := by
  by_contra hlt
  rw [Nat.div_eq_of_lt (by omega)] at h
  omega

theorem guard_value_lt (nb P p lbi : Nat) (hp : p < P) (h : lbi ≤ blockCount nb P p) :
    lbi * P + p < nb + P := by
  rcases Nat.eq_zero_or_pos lbi with h0 | hpos
  · subst h0; omega
  · have h1 := (guard_iff_lt_blockCount nb P p (lbi - 1) hp).mpr (by omega)
    have h2 : lbi * P = (lbi - 1) * P + P := by
      obtain ⟨k, rfl⟩ : ∃ k, lbi = k + 1 := ⟨lbi - 1, by omega⟩
      simp only [Nat.add_sub_cancel]
      ring
    omega

theorem layout_pos_lt (N B : Nat) (ld : local_domain_t) (hB : ld.B = B) (lbi lbj ii jj : Nat)
    (hlbi : lbi < ld.NBP) (hlbj : lbj < ld.NBQ) (hii : ii < B) (hjj : jj < B) :
    BLK_ELE (BLK ld lbi lbj) B ii jj < ld.NBP * (ld.NBQ * (B * B)) := by
  have hmem := (mem_layout N B ld
    (BLK_ELE (BLK ld lbi lbj) B ii jj, G_ROW ld lbi ii * N + G_COL ld lbj jj)).mpr
    ⟨lbi, hlbi, lbj, hlbj, ii, hii, jj, hjj, rfl⟩
  have h2 := List.mem_map_of_mem Prod.fst hmem
  rw [layout_fst N B ld hB, List.mem_range] at h2
  exact h2

/-- The local buffer of a process of the grid is no longer than the matrix. -/
theorem buffer_le_matrix (N B nb a b : Nat) (hnb : nb = N / B) (ha : a ≤ nb) (hb : b ≤ nb) :
    a * (b * (B * B)) ≤ N * N := by
  have h1 : nb * B ≤ N := by rw [hnb]; exact Nat.div_mul_le_self N B
  have h2 : a * B ≤ N := le_trans (Nat.mul_le_mul_right B ha) h1
  have h3 : b * B ≤ N := le_trans (Nat.mul_le_mul_right B hb) h1
  have h4 : a * (b * (B * B)) = (a * B) * (b * B) := by ring
  rw [h4]
  exact Nat.mul_le_mul h2 h3

theorem copy_own_blocks32_eq (lim fuel N B P Q r : Nat) (h32 : lim < 2 ^ 31) (hB : 1 ≤ B)
    (hr : r < P * Q) (hlim : N * N ≤ lim) (hfuel : N + B + P + Q < fuel) :
    copy_own_blocks32 lim fuel N B (init_fields N B (grid_of_rank P Q r)) =
      Except.ok (copyOps N B (init_fields N B (grid_of_rank P Q r))) := by
  obtain ⟨hrow, hcol⟩ := div_mod_lt_of_lt_mul P Q r hr
  have hnb : N / B ≤ N := Nat.div_le_self N B
  have hNN : N ≤ N * N := Nat.le_mul_self N
  have hcP := blockCount_le (N / B) P (r / Q) hrow
  have hcQ := blockCount_le (N / B) Q (r % Q) hcol
  have hNBP : (init_fields N B (grid_of_rank P Q r)).NBP = blockCount (N / B) P (r / Q) := rfl
  have hNBQ : (init_fields N B (grid_of_rank P Q r)).NBQ = blockCount (N / B) Q (r % Q) := rfl
  have hbuf := buffer_le_matrix N B (N / B) _ _ rfl hcP hcQ
  unfold copy_own_blocks32 copyOps
  refine forLoop32_eq lim _ _ _ _ _ h32 (by rw [hNBP]; omega) (fun _ _ => rfl)
    (fun lbi hlbi => ?_) (by rw [hNBP]; omega)
  refine forLoop32_eq lim _ _ _ _ _ h32 (by rw [hNBQ]; omega) (fun _ _ => rfl)
    (fun lbj hlbj => ?_) (by rw [hNBQ]; omega)
  have hpos0 : 0 < N / B := pos_of_lt_blockCount (N / B) P (r / Q) lbi hrow hlbi
  have hBN : B ≤ N := block_size_le N B hpos0
  have hI := (guard_iff_lt_blockCount (N / B) P (r / Q) lbi hrow).mpr hlbi
  have hJ := (guard_iff_lt_blockCount (N / B) Q (r % Q) lbj hcol).mpr hlbj
  have hblk : BLK (init_fields N B (grid_of_rank P Q r)) lbi lbj ≤ lim := by
    have h := layout_pos_lt N B (init_fields N B (grid_of_rank P Q r)) rfl lbi lbj 0 0 hlbi hlbj
      (by omega) (by omega)
    simp only [BLK_ELE] at h
    rw [hNBP, hNBQ] at h
    omega
  rw [BLK32_ok lim _ lbi lbj h32 hB hblk, ok_bind]
  refine forLoop32_eq lim _ _ _ _ _ h32 (by omega) (fun _ _ => rfl) (fun ii hii => ?_) (by omega)
  refine forLoop32_eq lim _ _ _ _ _ h32 (by omega) (fun _ _ => rfl) (fun jj hjj => ?_) (by omega)
  have hgi : G_ROW (init_fields N B (grid_of_rank P Q r)) lbi ii < N :=
    block_index_lt N B _ ii hI hii
  have hgj : G_COL (init_fields N B (grid_of_rank P Q r)) lbj jj < N :=
    block_index_lt N B _ jj hJ hjj
  have hsrc := flat_index_lt N _ _ hgi hgj
  have hpos := layout_pos_lt N B (init_fields N B (grid_of_rank P Q r)) rfl lbi lbj ii jj
    hlbi hlbj hii hjj
  rw [hNBP, hNBQ] at hpos
  have hele : ii * B + jj ≤ lim := by
    simp only [BLK_ELE] at hpos
    omega
  unfold G_ROW32 G_COL32
  rw [G_ROW_P32_ok lim _ lbi _ ii h32 hB (by unfold G_ROW at hgi; omega), ok_bind,
    G_COL_Q32_ok lim _ lbj _ jj h32 hB (by unfold G_COL at hgj; omega), ok_bind,
    BLK_ELE32_ok lim _ B ii jj h32 hele, ok_bind,
    int_op_ok lim _ (by unfold G_ROW G_COL at hsrc; omega) h32, ok_bind,
    int_op_ok lim _ (by unfold G_ROW G_COL at hsrc; omega) h32, ok_bind]
  rfl

theorem send_blocks32_eq (lim fuel N B P Q p q t : Nat) (ty : vector_type) (h32 : lim < 2 ^ 31)
    (hB : 1 ≤ B) (hp : p < P) (hq : q < Q) (hlim : N * N ≤ lim) (hlimP : N / B + P ≤ lim)
    (hlimQ : N / B + Q ≤ lim) (hfuel : N + B + P + Q < fuel) :
    send_blocks32 lim fuel N B (grid_of_rank P Q 0) (init_fields N B (grid_of_rank P Q 0)) ty
        p q t =
      Except.ok (sendOps N B (grid_of_rank P Q 0) (init_fields N B (grid_of_rank P Q 0)) ty
        p q t) := by
  have hnb : N / B ≤ N := Nat.div_le_self N B
  have hNN : N ≤ N * N := Nat.le_mul_self N
  have hcP := blockCount_le (N / B) P p hp
  have hcQ := blockCount_le (N / B) Q q hq
  have hPg : (grid_of_rank P Q 0).P = P := rfl
  have hQg : (grid_of_rank P Q 0).Q = Q := rfl
  unfold send_blocks32 sendOps
  rw [hPg, hQg]
  refine forLoop32_eq lim _ _ _ _ _ h32 (by omega) (fun lbi hlbi => ?_) (fun lbi hlbi => ?_)
    (by omega)
  · have hv := guard_value_lt (N / B) P p lbi hp hlbi
    rw [int_op_ok lim (lbi * P) (by omega) h32, ok_bind,
      int_op_ok lim (lbi * P + p) (by omega) h32, ok_bind, int_div_ok N B hB, ok_bind]
    simp only [guard_iff_lt_blockCount (N / B) P p lbi hp]
    rfl
  · have hI := (guard_iff_lt_blockCount (N / B) P p lbi hp).mpr hlbi
    refine forLoop32_eq lim _ _ _ _ _ h32 (by omega) (fun lbj hlbj => ?_) (fun lbj hlbj => ?_)
      (by omega)
    · have hv := guard_value_lt (N / B) Q q lbj hq hlbj
      rw [int_op_ok lim (lbj * Q) (by omega) h32, ok_bind,
        int_op_ok lim (lbj * Q + q) (by omega) h32, ok_bind, int_div_ok N B hB, ok_bind]
      simp only [guard_iff_lt_blockCount (N / B) Q q lbj hq]
      rfl
    · have hJ := (guard_iff_lt_blockCount (N / B) Q q lbj hq).mpr hlbj
      have hgi : G_ROW_P (init_fields N B (grid_of_rank P Q 0)) lbi p 0 < N :=
        block_index_lt N B _ 0 hI (by omega)
      have hgj : G_COL_Q (init_fields N B (grid_of_rank P Q 0)) lbj q 0 < N :=
        block_index_lt N B _ 0 hJ (by omega)
      have hsrc := flat_index_lt N _ _ hgi hgj
      rw [G_ROW_P32_ok lim _ lbi p 0 h32 hB (by omega), ok_bind,
        G_COL_Q32_ok lim _ lbj q 0 h32 hB (by omega), ok_bind,
        int_op_ok lim _ (by omega) h32, ok_bind]
      rfl

theorem holder_branch32_eq (lim fuel N B P Q : Nat) (ty : vector_type) (h32 : lim < 2 ^ 31)
    (hB : 1 ≤ B) (hP : 1 ≤ P) (hQ : 1 ≤ Q) (hlim : N * N ≤ lim) (hlimR : P * Q ≤ lim)
    (hlimP : N / B + P ≤ lim) (hlimQ : N / B + Q ≤ lim) (hfuel : N + B + P + Q < fuel) :
    holder_branch32 lim fuel N B (grid_of_rank P Q 0) (init_fields N B (grid_of_rank P Q 0)) ty =
      Except.ok (holderOps N B (grid_of_rank P Q 0) (init_fields N B (grid_of_rank P Q 0)) ty) := by
  have hPg : (grid_of_rank P Q 0).P = P := rfl
  have hQg : (grid_of_rank P Q 0).Q = Q := rfl
  have hPle : P * 1 ≤ P * Q := Nat.mul_le_mul_left P hQ
  have hQle : 1 * Q ≤ P * Q := Nat.mul_le_mul_right Q hP
  unfold holder_branch32 holderOps
  rw [hPg, hQg]
  refine forLoop32_eq lim _ _ _ _ _ h32 (by omega) (fun _ _ => rfl) (fun p hp => ?_) (by omega)
  refine forLoop32_eq lim _ _ _ _ _ h32 (by omega) (fun _ _ => rfl) (fun q hq => ?_) (by omega)
  have hrank : RANK_FROM_PQ (grid_of_rank P Q 0) p q < P * Q := rank_lt P Q p q hp hq
  rw [RANK_FROM_PQ32_ok lim _ p q h32 (by omega), ok_bind]
  unfold holderStep
  by_cases h0 : RANK_FROM_PQ (grid_of_rank P Q 0) p q = 0
  · rw [if_pos h0, if_pos h0]
    exact copy_own_blocks32_eq lim fuel N B P Q 0 h32 hB (Nat.mul_pos hP hQ) hlim hfuel
  · rw [if_neg h0, if_neg h0]
    exact send_blocks32_eq lim fuel N B P Q p q _ ty h32 hB hp hq hlim hlimP hlimQ hfuel

theorem receiver_branch32_eq (lim fuel N B P Q r : Nat) (h32 : lim < 2 ^ 31) (hB : 1 ≤ B)
    (hr : r < P * Q) (hlim : N * N ≤ lim) (hfuel : N + B + P + Q < fuel) :
    receiver_branch32 lim fuel B (init_fields N B (grid_of_rank P Q r)) =
      Except.ok (recvOps B (init_fields N B (grid_of_rank P Q r))) := by
  obtain ⟨hrow, hcol⟩ := div_mod_lt_of_lt_mul P Q r hr
  have hnb : N / B ≤ N := Nat.div_le_self N B
  have hNN : N ≤ N * N := Nat.le_mul_self N
  have hcP := blockCount_le (N / B) P (r / Q) hrow
  have hcQ := blockCount_le (N / B) Q (r % Q) hcol
  have hNBP : (init_fields N B (grid_of_rank P Q r)).NBP = blockCount (N / B) P (r / Q) := rfl
  have hNBQ : (init_fields N B (grid_of_rank P Q r)).NBQ = blockCount (N / B) Q (r % Q) := rfl
  have hbuf := buffer_le_matrix N B (N / B) _ _ rfl hcP hcQ
  unfold receiver_branch32 recvOps
  refine forLoop32_eq lim _ _ _ _ _ h32 (by rw [hNBP]; omega) (fun _ _ => rfl)
    (fun lbi hlbi => ?_) (by rw [hNBP]; omega)
  refine forLoop32_eq lim _ _ _ _ _ h32 (by rw [hNBQ]; omega) (fun _ _ => rfl)
    (fun lbj hlbj => ?_) (by rw [hNBQ]; omega)
  have hpos0 : 0 < N / B := pos_of_lt_blockCount (N / B) P (r / Q) lbi hrow hlbi
  have hBN : B ≤ N := block_size_le N B hpos0
  have hBB : B * B ≤ N * N := Nat.mul_le_mul hBN hBN
  have hblk : BLK (init_fields N B (grid_of_rank P Q r)) lbi lbj ≤ lim := by
    have h := layout_pos_lt N B (init_fields N B (grid_of_rank P Q r)) rfl lbi lbj 0 0 hlbi hlbj
      (by omega) (by omega)
    simp only [BLK_ELE] at h
    rw [hNBP, hNBQ] at h
    omega
  rw [BLK32_ok lim _ lbi lbj h32 hB hblk, ok_bind, int_op_ok lim (B * B) (by omega) h32, ok_bind]
  rfl

theorem init_fields32_eq (lim N B P Q r : Nat) (h32 : lim < 2 ^ 31) (hB : 1 ≤ B)
    (hr : r < P * Q) (hlim : N * N ≤ lim) :
    init_fields32 lim N B (grid_of_rank P Q r) =
      Except.ok (init_fields N B (grid_of_rank P Q r)) := by
  obtain ⟨hrow, hcol⟩ := div_mod_lt_of_lt_mul P Q r hr
  have hnb : N / B ≤ N := Nat.div_le_self N B
  have hNN : N ≤ N * N := Nat.le_mul_self N
  have hcP := blockCount_le (N / B) P (r / Q) hrow
  have hcQ := blockCount_le (N / B) Q (r % Q) hcol
  have hbuf := buffer_le_matrix N B (N / B) _ _ rfl hcP hcQ
  have e1 : blockCount (N / B) P (r / Q) * (blockCount (N / B) Q (r % Q) * (B * B)) =
      blockCount (N / B) P (r / Q) * blockCount (N / B) Q (r % Q) * B * B := by ring
  have h1 : blockCount (N / B) P (r / Q) * blockCount (N / B) Q (r % Q) * 1 ≤
      blockCount (N / B) P (r / Q) * blockCount (N / B) Q (r % Q) * B :=
    Nat.mul_le_mul_left _ hB
  have h2 : blockCount (N / B) P (r / Q) * blockCount (N / B) Q (r % Q) * B * 1 ≤
      blockCount (N / B) P (r / Q) * blockCount (N / B) Q (r % Q) * B * B :=
    Nat.mul_le_mul_left _ hB
  have hP : N / B / P + (if r / Q < (N / B) % P then 1 else 0) = blockCount (N / B) P (r / Q) :=
    rfl
  have hQ : N / B / Q + (if r % Q < (N / B) % Q then 1 else 0) = blockCount (N / B) Q (r % Q) :=
    rfl
  have hPpos : 0 < P := Nat.pos_of_ne_zero (fun h => by subst h; simp at hr)
  have hQpos : 0 < Q := Nat.pos_of_ne_zero (fun h => by subst h; simp at hr)
  unfold init_fields32
  simp only [grid_of_rank]
  rw [int_div_ok N B hB, ok_bind, int_div_ok _ P hPpos, ok_bind, int_mod_ok _ P hPpos, ok_bind,
    hP, int_op_ok lim _ (by omega) h32, ok_bind, int_div_ok _ Q hQpos, ok_bind,
    int_mod_ok _ Q hQpos, ok_bind, hQ, int_op_ok lim _ (by omega) h32, ok_bind,
    int_op_ok lim _ (by omega) h32, ok_bind, int_op_ok lim _ (by omega) h32, ok_bind,
    int_op_ok lim _ (by omega) h32, ok_bind]
  rfl

/-- In `int` arithmetic, with every operation also held to a limit `lim` below
`2^31` that is at least `N * N`, `P * Q`, `N / B + P` and `N / B + Q`, the
function runs on every rank of the grid exactly as with exact integers. -/
theorem init_local_domain32_eq (lim fuel N B P Q r : Nat) (h32 : lim < 2 ^ 31) (hB : 1 ≤ B)
    (hr : r < P * Q) (hlim : N * N ≤ lim) (hlimR : P * Q ≤ lim) (hlimP : N / B + P ≤ lim)
    (hlimQ : N / B + Q ≤ lim) (hfuel : N + B + P + Q < fuel) :
    init_local_domain32 lim fuel N B (grid_of_rank P Q r) =
      Except.ok (init_fields N B (grid_of_rank P Q r),
        if r = 0 then
          holderOps N B (grid_of_rank P Q r) (init_fields N B (grid_of_rank P Q r))
            { count := B, blocklength := B, stride := N }
        else recvOps B (init_fields N B (grid_of_rank P Q r))) := by
  have hP : 0 < P := Nat.pos_of_ne_zero (fun h => by subst h; simp at hr)
  have hQ : 0 < Q := Nat.pos_of_ne_zero (fun h => by subst h; simp at hr)
  unfold init_local_domain32
  rw [init_fields32_eq lim N B P Q r h32 hB hr hlim, ok_bind]
  by_cases h0 : r = 0
  · subst h0
    have hl : (grid_of_rank P Q 0).lrank = 0 := rfl
    rw [if_pos hl, if_pos rfl,
      holder_branch32_eq lim fuel N B P Q _ h32 hB hP hQ hlim hlimR hlimP hlimQ hfuel, ok_bind]
    rfl
  · have hl : (grid_of_rank P Q r).lrank ≠ 0 := h0
    rw [if_neg hl, if_neg h0, receiver_branch32_eq lim fuel N B P Q r h32 hB hr hlim hfuel,
      ok_bind]
    rfl

/-! ## The scatter as a whole, in 32-bit arithmetic -/

theorem sendsValid_holderOps (W N B : Nat) (grid : grid_t) (ld : local_domain_t)
    (ty : vector_type) (hW : grid.P * grid.Q ≤ W) :
    sendsValid W (holderOps N B grid ld ty) = true := by
  unfold sendsValid
  rw [List.all_eq_true]
  intro a ha
  rcases mem_holderOps N B grid ld ty a ha with h | ⟨p, q, hp, hq, h⟩
  · simp only [copyOps, List.mem_flatMap, List.mem_range, List.mem_singleton] at h
    obtain ⟨_, _, _, _, _, _, _, _, rfl⟩ := h
    rfl
  · simp only [sendOps, List.mem_flatMap, List.mem_range, List.mem_singleton] at h
    obtain ⟨_, _, _, _, rfl⟩ := h
    have hr : RANK_FROM_PQ grid p q < grid.P * grid.Q := rank_lt grid.P grid.Q p q hp hq
    simp only [decide_eq_true_eq]
    omega

/-- After `init_local_domain` has run, in 32-bit arithmetic and within the
size bounds, on rank 0 and on rank `r` of a `P x Q` grid in a communicator of
at least `P * Q` processes, the local buffer of rank `r` is its local image of
`globalA`. -/
theorem scatter32_eq (globalA : List α) (W fuel N B P Q r : Nat) (hB : 1 ≤ B)
    (hlen : globalA.length = N * N) (hr : r < P * Q) (hW : P * Q ≤ W)
    (hN : N * N ≤ 2 ^ 31 - 1) (hR : P * Q ≤ 2 ^ 31 - 1) (hGP : N / B + P ≤ 2 ^ 31 - 1)
    (hGQ : N / B + Q ≤ 2 ^ 31 - 1) (hfuel : N + B + P + Q < fuel) :
    scatter32 W fuel globalA N B P Q r =
      some (localImage globalA N B (init_fields N B (grid_of_rank P Q r))) := by
  have hP : 0 < P := Nat.pos_of_ne_zero (fun h => by subst h; simp at hr)
  have hQ : 0 < Q := Nat.pos_of_ne_zero (fun h => by subst h; simp at hr)
  have hvalid := sendsValid_holderOps W N B (grid_of_rank P Q 0)
    (init_fields N B (grid_of_rank P Q 0)) { count := B, blocklength := B, stride := N } hW
  unfold scatter32
  rw [init_local_domain32_eq (2 ^ 31 - 1) fuel N B P Q 0 (by omega) hB (Nat.mul_pos hP hQ) hN hR
      hGP hGQ hfuel,
    init_local_domain32_eq (2 ^ 31 - 1) fuel N B P Q r (by omega) hB hr hN hR hGP hGQ hfuel]
  simp only [if_true]
  rw [if_pos ⟨hvalid, by omega⟩]
  by_cases h0 : r = 0
  · subst h0
    simp only [if_true, mailbox, sendsTo_zero_holderOps, List.map_nil]
    rw [exec_holder globalA N B P Q hlen hP hQ]
  · simp only [if_neg h0]
    rw [exec_receiver globalA [] N B P Q r hr h0]

/-! ## Runs in a communicator -/

theorem run_in_world_append (W : Nat) (pre tr : List Action) (h : sendsValid W pre = true) :
    run_in_world W (pre ++ tr) = (pre ++ (run_in_world W tr).1, (run_in_world W tr).2) := by
  induction pre with
  | nil => rfl
  | cons a pre ih =>
    have hpre : sendsValid W pre = true := by
      simp only [sendsValid, List.all_cons, Bool.and_eq_true] at h ⊢
      exact h.2
    cases a with
    | store d s =>
      show (Action.store d s :: (run_in_world W (pre ++ tr)).1, (run_in_world W (pre ++ tr)).2) =
        _
      rw [ih hpre]
      rfl
    | recv d c s =>
      show (Action.recv d c s :: (run_in_world W (pre ++ tr)).1,
        (run_in_world W (pre ++ tr)).2) = _
      rw [ih hpre]
      rfl
    | send off ty dest =>
      have hd : dest < W := by
        simp only [sendsValid, List.all_cons, Bool.and_eq_true, decide_eq_true_eq] at h
        exact h.1
      show (if dest < W then (Action.send off ty dest :: (run_in_world W (pre ++ tr)).1,
        (run_in_world W (pre ++ tr)).2) else ([], some dest)) = _
      rw [if_pos hd, ih hpre]
      rfl

theorem run_in_world_valid (W : Nat) (tr : List Action) (h : sendsValid W tr = true) :
    run_in_world W tr = (tr, none) := by
  have h2 := run_in_world_append W tr [] h
  simpa [run_in_world] using h2

theorem run_in_world_fails (W : Nat) (tr : List Action) (d : Nat)
    (h : (run_in_world W tr).2 = some d) : W ≤ d ∧ ∃ off ty, Action.send off ty d ∈ tr := by
  induction tr with
  | nil => simp [run_in_world] at h
  | cons a tr ih =>
    cases a with
    | store d' s =>
      simp only [run_in_world] at h
      obtain ⟨h1, off, ty, h2⟩ := ih h
      exact ⟨h1, off, ty, List.mem_cons_of_mem _ h2⟩
    | recv d' c s =>
      simp only [run_in_world] at h
      obtain ⟨h1, off, ty, h2⟩ := ih h
      exact ⟨h1, off, ty, List.mem_cons_of_mem _ h2⟩
    | send off ty dest =>
      simp only [run_in_world] at h
      split_ifs at h with hd
      · obtain ⟨h1, off', ty', h2⟩ := ih h
        exact ⟨h1, off', ty', List.mem_cons_of_mem _ h2⟩
      · simp only [Option.some.injEq] at h
        subst h
        exact ⟨by omega, off, ty, List.mem_cons_self _ _⟩

theorem sendsValid_copyOps (W N B : Nat) (ld : local_domain_t) :
    sendsValid W (copyOps N B ld) = true := by
  unfold sendsValid
  rw [List.all_eq_true]
  intro a ha
  simp only [copyOps, List.mem_flatMap, List.mem_range, List.mem_singleton] at ha
  obtain ⟨_, _, _, _, _, _, _, _, rfl⟩ := ha
  rfl

theorem sendsValid_sendOps (W N B : Nat) (grid : grid_t) (ld : local_domain_t)
    (ty : vector_type) (p q t : Nat) (ht : t < W) :
    sendsValid W (sendOps N B grid ld ty p q t) = true := by
  unfold sendsValid
  rw [List.all_eq_true]
  intro a ha
  simp only [sendOps, List.mem_flatMap, List.mem_range, List.mem_singleton] at ha
  obtain ⟨_, _, _, _, rfl⟩ := ha
  simpa using ht

theorem sendsValid_flatMap {β : Type} (W : Nat) (L : List β) (g : β → List Action)
    (h : ∀ x ∈ L, sendsValid W (g x) = true) : sendsValid W (L.flatMap g) = true := by
  unfold sendsValid at h ⊢
  rw [List.all_eq_true]
  intro a ha
  rw [List.mem_flatMap] at ha
  obtain ⟨x, hx, hax⟩ := ha
  exact List.all_eq_true.mp (h x hx) a hax

theorem sendsValid_recvOps (W B : Nat) (ld : local_domain_t) :
    sendsValid W (recvOps B ld) = true := by
  unfold sendsValid
  rw [List.all_eq_true]
  intro a ha
  simp only [recvOps, List.mem_flatMap, List.mem_range, List.mem_singleton] at ha
  obtain ⟨_, _, _, _, rfl⟩ := ha
  rfl

/-- In a communicator of at least `P * Q` processes every operation of a rank
of the `P x Q` grid completes. -/
theorem run_in_world_complete (W N B P Q r : Nat) (hW : P * Q ≤ W) :
    run_in_world W
        (if r = 0 then
          holderOps N B (grid_of_rank P Q r) (init_fields N B (grid_of_rank P Q r))
            { count := B, blocklength := B, stride := N }
        else recvOps B (init_fields N B (grid_of_rank P Q r))) =
      (if r = 0 then
          holderOps N B (grid_of_rank P Q r) (init_fields N B (grid_of_rank P Q r))
            { count := B, blocklength := B, stride := N }
        else recvOps B (init_fields N B (grid_of_rank P Q r)), none) := by
  refine run_in_world_valid W _ ?_
  split_ifs
  · exact sendsValid_holderOps W N B (grid_of_rank P Q r) _ _ hW
  · exact sendsValid_recvOps W B _


/-! ## The specification's claims -/

/-- C1, as stated for every `N`, fails: with `N = 46341`, `B = 1` on a `1 x 1`
grid the product `NBP * NBQ = 46341 * 46341` of line 37 does not fit a signed
32-bit `int`, the run of rank 0 is abandoned there and no local buffer
results. -/
theorem scatter_undefined_for_large_matrix :
    (1 ≤ 1 ∧ (List.replicate (46341 * 46341) (0 : Nat)).length = 46341 * 46341) ∧
      init_local_domain32 (2 ^ 31 - 1) 46350 46341 1 (grid_of_rank 1 1 0) =
        Except.error (Fault.wraps 2147488281) ∧
      scatter32 1 46350 (List.replicate (46341 * 46341) (0 : Nat)) 46341 1 1 1 0 = none :=
  ⟨⟨by decide, List.length_replicate _ _⟩, rfl, rfl⟩

/-- C1 (amended): for `B >= 1`, a global matrix of `N * N` values and sizes
within `N * N`, `P * Q`, `N div B + P`, `N div B + Q <= 2^31 - 1`, once
`init_local_domain` has run on rank 0 and on the process at grid coordinate
`(p, q)` (rank `p * Q + q`) of a communicator of at least `P * Q` processes,
messages delivered in order, that process's run has set `NBP`, `NBQ` and its
local buffer holds, for every owned tile `lbi < NBP`, `lbj < NBQ` and offset
`ii, jj < B`, at position `(lbi * NBQ + lbj) * B * B + ii * B + jj` the value
`globalA[((lbi * P + p) * B + ii) * N + (lbj * Q + q) * B + jj]`, an index
inside the matrix; this covers the self-copy of rank 0 and the tiles received
by every other rank. -/
theorem scatter_places_every_owned_element (globalA : List α) (W fuel N B P Q p q : Nat)
    (hB : 1 ≤ B) (hlen : globalA.length = N * N) (hfuel : N + B + P + Q < fuel)
    (hW : P * Q ≤ W) (hN : N * N ≤ 2 ^ 31 - 1) (hR : P * Q ≤ 2 ^ 31 - 1)
    (hGP : N / B + P ≤ 2 ^ 31 - 1) (hGQ : N / B + Q ≤ 2 ^ 31 - 1) (hp : p < P) (hq : q < Q) :
    ∃ ld tr data,
      init_local_domain32 (2 ^ 31 - 1) fuel N B (grid_of_rank P Q (p * Q + q)) =
        Except.ok (ld, tr) ∧
      scatter32 W fuel globalA N B P Q (p * Q + q) = some data ∧
      ∀ lbi lbj ii jj, lbi < ld.NBP → lbj < ld.NBQ → ii < B → jj < B →
        ∃ h : ((lbi * P + p) * B + ii) * N + ((lbj * Q + q) * B + jj) < globalA.length,
          data[(lbi * ld.NBQ + lbj) * B * B + ii * B + jj]? =
            some (some (globalA.get
              ⟨((lbi * P + p) * B + ii) * N + ((lbj * Q + q) * B + jj), h⟩)) := by
  have hr := rank_lt P Q p q hp hq
  refine ⟨_, _, _,
    init_local_domain32_eq (2 ^ 31 - 1) fuel N B P Q (p * Q + q) (by omega) hB hr hN hR hGP hGQ
      hfuel,
    scatter32_eq globalA W fuel N B P Q (p * Q + q) hB hlen hr hW hN hR hGP hGQ hfuel, ?_⟩
  intro lbi lbj ii jj hlbi hlbj hii hjj
  have hmem := (mem_layout N B (init_fields N B (grid_of_rank P Q (p * Q + q)))
    (BLK_ELE (BLK (init_fields N B (grid_of_rank P Q (p * Q + q))) lbi lbj) B ii jj,
      G_ROW (init_fields N B (grid_of_rank P Q (p * Q + q))) lbi ii * N +
        G_COL (init_fields N B (grid_of_rank P Q (p * Q + q))) lbj jj)).mpr
    ⟨lbi, hlbi, lbj, hlbj, ii, hii, jj, hjj, rfl⟩
  have hsrc : G_ROW (init_fields N B (grid_of_rank P Q (p * Q + q))) lbi ii * N +
      G_COL (init_fields N B (grid_of_rank P Q (p * Q + q))) lbj jj =
      ((lbi * P + p) * B + ii) * N + ((lbj * Q + q) * B + jj) := by
    simp only [G_ROW, G_COL, G_ROW_P, G_COL_Q, init_fields, grid_of_rank, rank_div Q p q hq,
      rank_mod Q p q hq]
  have hlt := layout_snd_lt N B P Q (p * Q + q) hr _ hmem
  have himg := localImage_getElem? globalA N B _ rfl _ hmem
  simp only [hsrc] at hlt himg
  have hlt2 : ((lbi * P + p) * B + ii) * N + ((lbj * Q + q) * B + jj) < globalA.length := by
    rw [hlen]; exact hlt
  refine ⟨hlt2, ?_⟩
  rw [List.getElem?_eq_getElem hlt2] at himg
  exact himg

theorem scatter_places_every_owned_element_witness :
    ∃ ld tr data,
      init_local_domain32 (2 ^ 31 - 1) 11 4 2 (grid_of_rank 2 2 (1 * 2 + 1)) =
        Except.ok (ld, tr) ∧
      scatter32 4 11 (List.range 16) 4 2 2 2 (1 * 2 + 1) = some data ∧
      ∀ lbi lbj ii jj, lbi < ld.NBP → lbj < ld.NBQ → ii < 2 → jj < 2 →
        ∃ h : ((lbi * 2 + 1) * 2 + ii) * 4 + ((lbj * 2 + 1) * 2 + jj) < (List.range 16).length,
          data[(lbi * ld.NBQ + lbj) * 2 * 2 + ii * 2 + jj]? =
            some (some ((List.range 16).get
              ⟨((lbi * 2 + 1) * 2 + ii) * 4 + ((lbj * 2 + 1) * 2 + jj), h⟩)) :=
  scatter_places_every_owned_element (List.range 16) 4 11 4 2 2 2 1 1 (by decide) (by simp)
    (by decide) (by decide) (by decide) (by decide) (by decide) (by decide) (by decide)
    (by decide)
theorem fieldsAt_NBP (N B P Q p q : Nat) (hq : q < Q) :
    (fieldsAt N B P Q p q).NBP = blockCount (N / B) P p := by
  simp only [fieldsAt, init_fields_NBP, grid_of_rank, RANK_FROM_PQ, rank_div Q p q hq]

theorem fieldsAt_NBQ (N B P Q p q : Nat) (hq : q < Q) :
    (fieldsAt N B P Q p q).NBQ = blockCount (N / B) Q q := by
  simp only [fieldsAt, init_fields_NBQ, grid_of_rank, RANK_FROM_PQ, rank_mod Q p q hq]

/-- Splitting an index into block and offset, and the block into local index
and owner, loses nothing. -/
theorem index_decompose (B P g : Nat) : (g / B / P * P + g / B % P) * B + g % B = g := by
  rw [Nat.div_add_mod' (g / B) P, Nat.div_add_mod' g B]

/-- An index `(lbi * P + p) * B + ii` with `p < P`, `ii < B` determines `lbi`,
`p` and `ii`. -/
theorem index_unique (B P lbi p ii g : Nat) (hp : p < P) (hii : ii < B)
    (h : (lbi * P + p) * B + ii = g) : lbi = g / B / P ∧ p = g / B % P ∧ ii = g % B := by
  have hB : 0 < B := by omega
  have hP : 0 < P := by omega
  have h1 : g / B = lbi * P + p := by
    rw [← h, Nat.mul_comm, Nat.mul_add_div hB, Nat.div_eq_of_lt hii]; rfl
  have h2 : g % B = ii := by
    rw [← h, Nat.mul_comm, Nat.mul_add_mod, Nat.mod_eq_of_lt hii]
  refine ⟨?_, ?_, h2.symm⟩
  · rw [h1, Nat.mul_comm, Nat.mul_add_div hP, Nat.div_eq_of_lt hp]; rfl
  · rw [h1, Nat.mul_comm, Nat.mul_add_mod, Nat.mod_eq_of_lt hp]

/-- The local block index of a covered row is one the owner counts as its own. -/
theorem lbi_lt_blockCount (N B P g : Nat) (hB : 0 < B) (hP : 0 < P) (hg : g < N / B * B) :
    g / B / P < blockCount (N / B) P (g / B % P) := by
  rw [← guard_iff_lt_blockCount (N / B) P (g / B % P) (g / B / P) (Nat.mod_lt _ hP),
    Nat.div_add_mod']
  exact (Nat.div_lt_iff_lt_mul hB).mpr hg

theorem assigned_slotOf (N B P Q gi gj : Nat) (hB : 0 < B) (hP : 0 < P) (hQ : 0 < Q)
    (hgi : gi < N / B * B) (hgj : gj < N / B * B) :
    Assigned N B P Q gi gj (slotOf B P Q gi gj) := by
  have hq : gj / B % Q < Q := Nat.mod_lt _ hQ
  unfold Assigned
  simp only [slotOf]
  rw [fieldsAt_NBP N B P Q _ _ hq, fieldsAt_NBQ N B P Q _ _ hq]
  refine ⟨Nat.mod_lt _ hP, hq, lbi_lt_blockCount N B P gi hB hP hgi,
    lbi_lt_blockCount N B Q gj hB hQ hgj, Nat.mod_lt _ hB, Nat.mod_lt _ hB, ?_, ?_⟩
  · exact index_decompose B P gi
  · exact index_decompose B Q gj

theorem assigned_unique (N B P Q gi gj : Nat) (s : Slot) (h : Assigned N B P Q gi gj s) :
    s = slotOf B P Q gi gj := by
  obtain ⟨hp, hq, _, _, hii, hjj, hrow, hcol⟩ := h
  obtain ⟨h1, h2, h3⟩ := index_unique B P s.lbi s.p s.ii gi hp hii hrow
  obtain ⟨h4, h5, h6⟩ := index_unique B Q s.lbj s.q s.jj gj hq hjj hcol
  cases s
  simp only [slotOf, Slot.mk.injEq]
  exact ⟨h2, h5, h1, h4, h3, h6⟩

theorem assigned_covered (N B P Q gi gj : Nat) (s : Slot) (h : Assigned N B P Q gi gj s) :
    gi < N / B * B ∧ gj < N / B * B := by
  obtain ⟨hp, hq, hlbi, hlbj, hii, hjj, hrow, hcol⟩ := h
  rw [fieldsAt_NBP N B P Q _ _ hq] at hlbi
  rw [fieldsAt_NBQ N B P Q _ _ hq] at hlbj
  have hI := (guard_iff_lt_blockCount (N / B) P s.p s.lbi hp).mpr hlbi
  have hJ := (guard_iff_lt_blockCount (N / B) Q s.q s.lbj hq).mpr hlbj
  have h1 : (s.lbi * P + s.p + 1) * B ≤ N / B * B := Nat.mul_le_mul_right B hI
  have h2 : (s.lbj * Q + s.q + 1) * B ≤ N / B * B := Nat.mul_le_mul_right B hJ
  have h3 : (s.lbi * P + s.p + 1) * B = (s.lbi * P + s.p) * B + B := by ring
  have h4 : (s.lbj * Q + s.q + 1) * B = (s.lbj * Q + s.q) * B + B := by ring
  have h5 : (s.lbi * P + s.p) * B + s.ii = gi := hrow
  have h6 : (s.lbj * Q + s.q) * B + s.jj = gj := hcol
  constructor <;> omega

/-- C2, as stated, fails: with `N = 3`, `B = 2` on a `1 x 1` grid the element
`(2, 0)` of the matrix belongs to no tile, so no slot is assigned to it. -/
theorem trailing_element_unassigned :
    (2 < 3 ∧ 0 < 3 ∧ 1 ≤ 2 ∧ 1 ≤ 1) ∧ ¬ ∃! s : Slot, Assigned 3 2 1 1 2 0 s := by
  refine ⟨by decide, ?_⟩
  rintro ⟨s, hs, _⟩
  have := assigned_covered 3 2 1 1 2 0 s hs
  omega

/-- C2 (amended): for `B, P, Q >= 1`, every global element `(gi, gj)` inside
the part of the matrix covered by whole blocks, `gi, gj < (N div B) * B`, is
assigned to exactly one slot `(p, q, lbi, lbj, ii, jj)` with `p < P`, `q < Q`,
`lbi < NBP(p)`, `lbj < NBQ(q)`, `ii, jj < B`, and that slot is on the process
`((gi div B) mod P, (gj div B) mod Q)`. -/
theorem covered_element_assigned_once (N B P Q gi gj : Nat) (hB : 1 ≤ B) (hP : 1 ≤ P)
    (hQ : 1 ≤ Q) (hgi : gi < N / B * B) (hgj : gj < N / B * B) :
    (∃! s : Slot, Assigned N B P Q gi gj s) ∧
      ∀ s : Slot, Assigned N B P Q gi gj s → s.p = gi / B % P ∧ s.q = gj / B % Q := by
  refine ⟨⟨slotOf B P Q gi gj, assigned_slotOf N B P Q gi gj hB hP hQ hgi hgj,
    fun s hs => assigned_unique N B P Q gi gj s hs⟩, fun s hs => ?_⟩
  rw [assigned_unique N B P Q gi gj s hs]
  exact ⟨rfl, rfl⟩

theorem covered_element_assigned_once_witness :
    (∃! s : Slot, Assigned 4 2 2 2 2 1 s) ∧
      ∀ s : Slot, Assigned 4 2 2 2 2 1 s → s.p = 2 / 2 % 2 ∧ s.q = 1 / 2 % 2 :=
  covered_element_assigned_once 4 2 2 2 2 1 (by decide) (by decide) (by decide) (by decide)
    (by decide)

/-! ### Round trip -/

theorem foldl_set_length {β : Type} (W : List (Nat × β)) :
    ∀ init : List β, (W.foldl (fun G w => G.set w.1 w.2) init).length = init.length := by
  induction W with
  | nil => intro init; rfl
  | cons w t ih => intro init; rw [List.foldl_cons, ih, List.length_set]

theorem foldl_set_getElem?_of_not_mem {β : Type} (W : List (Nat × β)) (i : Nat)
    (h : ∀ w ∈ W, w.1 ≠ i) :
    ∀ init : List β, (W.foldl (fun G w => G.set w.1 w.2) init)[i]? = init[i]? := by
  induction W with
  | nil => intro init; rfl
  | cons w t ih =>
    intro init
    rw [List.foldl_cons, ih (fun x hx => h x (List.mem_cons_of_mem _ hx)),
      List.getElem?_set_ne (h w (List.mem_cons_self _ _))]

theorem foldl_set_getElem?_of_mem {β : Type} (g : Nat → β) (W : List (Nat × β)) (i : Nat)
    (hW : ∀ w ∈ W, w.2 = g w.1) (hmem : ∃ w ∈ W, w.1 = i) :
    ∀ init : List β, i < init.length →
      (W.foldl (fun G w => G.set w.1 w.2) init)[i]? = some (g i) := by
  induction W with
  | nil => obtain ⟨w, hw, _⟩ := hmem; simp at hw
  | cons w t ih =>
    intro init hi
    rw [List.foldl_cons]
    by_cases hlater : ∃ x ∈ t, x.1 = i
    · exact ih (fun x hx => hW x (List.mem_cons_of_mem _ hx)) hlater _
        (by rw [List.length_set]; exact hi)
    · have hnot : ∀ x ∈ t, x.1 ≠ i := fun x hx hxi => hlater ⟨x, hx, hxi⟩
      obtain ⟨x, hx, hxi⟩ := hmem
      have hwx : w.1 = i := by
        rcases List.mem_cons.mp hx with h | h
        · rw [← h]; exact hxi
        · exact absurd hxi (hnot x h)
      rw [foldl_set_getElem?_of_not_mem t i hnot, ← hwx, List.getElem?_set_self (by rw [hwx]; exact hi),
        hW w (List.mem_cons_self _ _)]

theorem mem_gatherWrites (N B P Q : Nat) (bufs : Nat → Nat → List (Option α))
    (w : Nat × Option α) :
    w ∈ gatherWrites N B P Q bufs ↔ ∃ s : Slot, ∃ gi gj, Assigned N B P Q gi gj s ∧
      w = (gi * N + gj,
        ((bufs s.p s.q)[(s.lbi * (fieldsAt N B P Q s.p s.q).NBQ + s.lbj) * B * B
          + s.ii * B + s.jj]?).join) := by
  simp only [gatherWrites, List.mem_flatMap, List.mem_range, List.mem_singleton]
  constructor
  · rintro ⟨p, hp, q, hq, lbi, hlbi, lbj, hlbj, ii, hii, jj, hjj, rfl⟩
    exact ⟨⟨p, q, lbi, lbj, ii, jj⟩, _, _, ⟨hp, hq, hlbi, hlbj, hii, hjj, rfl, rfl⟩, rfl⟩
  · rintro ⟨⟨p, q, lbi, lbj, ii, jj⟩, gi, gj, ⟨hp, hq, hlbi, hlbj, hii, hjj, hrow, hcol⟩, rfl⟩
    refine ⟨p, hp, q, hq, lbi, hlbi, lbj, hlbj, ii, hii, jj, hjj, ?_⟩
    rw [← hrow, ← hcol]
    rfl

/-- The local image of a process holds, at the position of a slot on it, the
global element assigned to that slot. -/
theorem localImage_at_slot (globalA : List α) (N B P Q gi gj : Nat) (s : Slot)
    (hs : Assigned N B P Q gi gj s) :
    (localImage globalA N B (fieldsAt N B P Q s.p s.q))[
      (s.lbi * (fieldsAt N B P Q s.p s.q).NBQ + s.lbj) * B * B + s.ii * B + s.jj]? =
      some globalA[gi * N + gj]? := by
  obtain ⟨hp, hq, hlbi, hlbj, hii, hjj, hrow, hcol⟩ := hs
  have hmem := (mem_layout N B (fieldsAt N B P Q s.p s.q)
    (BLK_ELE (BLK (fieldsAt N B P Q s.p s.q) s.lbi s.lbj) B s.ii s.jj,
      G_ROW (fieldsAt N B P Q s.p s.q) s.lbi s.ii * N +
        G_COL (fieldsAt N B P Q s.p s.q) s.lbj s.jj)).mpr
    ⟨s.lbi, hlbi, s.lbj, hlbj, s.ii, hii, s.jj, hjj, rfl⟩
  have himg := localImage_getElem? globalA N B _ rfl _ hmem
  have hR : G_ROW (fieldsAt N B P Q s.p s.q) s.lbi s.ii = gi := by
    rw [← hrow]
    simp only [G_ROW, G_ROW_P, fieldsAt, init_fields, grid_of_rank, RANK_FROM_PQ,
      rank_div Q s.p s.q hq]
  have hC : G_COL (fieldsAt N B P Q s.p s.q) s.lbj s.jj = gj := by
    rw [← hcol]
    simp only [G_COL, G_COL_Q, fieldsAt, init_fields, grid_of_rank, RANK_FROM_PQ,
      rank_mod Q s.p s.q hq]
  simp only [hR, hC] at himg
  exact himg

/-- The cell the scatter leaves at a slot is the global element assigned to it. -/
theorem scatter_at_slot (globalA : List α) (W fuel N B P Q gi gj : Nat) (s : Slot)
    (hB : 1 ≤ B) (hlen : globalA.length = N * N) (hW : P * Q ≤ W) (hN : N * N ≤ 2 ^ 31 - 1)
    (hR : P * Q ≤ 2 ^ 31 - 1) (hGP : N / B + P ≤ 2 ^ 31 - 1) (hGQ : N / B + Q ≤ 2 ^ 31 - 1)
    (hfuel : N + B + P + Q < fuel) (hs : Assigned N B P Q gi gj s) :
    (((scatter32 W fuel globalA N B P Q (RANK_FROM_PQ (grid_of_rank P Q 0) s.p s.q)).getD [])[
      (s.lbi * (fieldsAt N B P Q s.p s.q).NBQ + s.lbj) * B * B + s.ii * B + s.jj]?).join =
      globalA[gi * N + gj]? := by
  have hr : RANK_FROM_PQ (grid_of_rank P Q 0) s.p s.q < P * Q := rank_lt P Q s.p s.q hs.1 hs.2.1
  have himg := localImage_at_slot globalA N B P Q gi gj s hs
  rw [scatter32_eq globalA W fuel N B P Q _ hB hlen hr hW hN hR hGP hGQ hfuel]
  simp only [Option.getD_some]
  unfold fieldsAt at himg ⊢
  rw [himg]
  rfl

/-- What the round trip leaves in each cell of the gathered matrix: the
original element where whole blocks cover it, nothing in the trailing rows and
columns. -/
theorem roundTrip32_getElem? (globalA : List α) (W fuel N B P Q gi gj : Nat)
    (hB : 0 < B) (hP : 0 < P) (hQ : 0 < Q) (hlen : globalA.length = N * N) (hW : P * Q ≤ W)
    (hN : N * N ≤ 2 ^ 31 - 1) (hR : P * Q ≤ 2 ^ 31 - 1) (hGP : N / B + P ≤ 2 ^ 31 - 1)
    (hGQ : N / B + Q ≤ 2 ^ 31 - 1) (hfuel : N + B + P + Q < fuel) (hgi : gi < N)
    (hgj : gj < N) :
    (roundTrip32 W fuel globalA N B P Q)[gi * N + gj]? =
      some (if gi < N / B * B ∧ gj < N / B * B then globalA[gi * N + gj]? else none) := by
  have hidx : gi * N + gj < N * N := flat_index_lt N gi gj hgi hgj
  unfold roundTrip32 gather
  by_cases hcov : gi < N / B * B ∧ gj < N / B * B
  · rw [if_pos hcov]
    refine foldl_set_getElem?_of_mem (fun i => globalA[i]?) _ _ (fun w hw => ?_) ?_ _
      (by rw [List.length_replicate]; exact hidx)
    · rw [mem_gatherWrites] at hw
      obtain ⟨s, gi', gj', hs, rfl⟩ := hw
      exact scatter_at_slot globalA W fuel N B P Q gi' gj' s hB hlen hW hN hR hGP hGQ hfuel hs
    · exact ⟨_, (mem_gatherWrites N B P Q _ _).mpr
        ⟨slotOf B P Q gi gj, gi, gj, assigned_slotOf N B P Q gi gj hB hP hQ hcov.1 hcov.2, rfl⟩,
        rfl⟩
  · rw [if_neg hcov, foldl_set_getElem?_of_not_mem]
    · rw [List.getElem?_replicate, if_pos hidx]
    · intro w hw hwi
      rw [mem_gatherWrites] at hw
      obtain ⟨s, gi', gj', hs, rfl⟩ := hw
      have hc := assigned_covered N B P Q gi' gj' s hs
      have hN : N / B * B ≤ N := Nat.div_mul_le_self N B
      have hgj' : gj' < N := by omega
      have h1 : gi' * N + gj' = gi * N + gj := hwi
      have h2 : (gi' * N + gj') / N = gi' := by
        rw [Nat.mul_comm, Nat.mul_add_div (by omega), Nat.div_eq_of_lt hgj']; rfl
      have h3 : (gi * N + gj) / N = gi := by
        rw [Nat.mul_comm, Nat.mul_add_div (by omega), Nat.div_eq_of_lt hgj]; rfl
      have h4 : (gi' * N + gj') % N = gj' := by
        rw [Nat.mul_comm, Nat.mul_add_mod, Nat.mod_eq_of_lt hgj']
      have h5 : (gi * N + gj) % N = gj := by
        rw [Nat.mul_comm, Nat.mul_add_mod, Nat.mod_eq_of_lt hgj]
      rw [h1] at h2 h4
      have e1 : gi' = gi := h2.symm.trans h3
      have e2 : gj' = gj := h4.symm.trans h5
      rw [e1, e2] at hc
      exact hcov hc

theorem roundTrip32_length (globalA : List α) (W fuel N B P Q : Nat) :
    (roundTrip32 W fuel globalA N B P Q).length = N * N := by
  unfold roundTrip32 gather
  rw [foldl_set_length, List.length_replicate]

/-- C3, as stated, fails.  With `N = 3`, `B = 2` on a `1 x 1` grid the scatter
moves only the leading `2 x 2` block, so the gathered matrix lacks the last
row and column of the original.  And with `N = 46341`, `B = 1`, a multiple of
`B`, the product `NBP * NBQ` of line 37 does not fit a signed 32-bit `int`, so
the scatter does not run to its end. -/
theorem roundTrip_loses_trailing_strip :
    (1 ≤ 2 ∧ 1 ≤ 1 ∧ (List.range 9).length = 3 * 3) ∧
      roundTrip32 1 8 (List.range 9) 3 2 1 1 ≠ (List.range 9).map some ∧
      init_local_domain32 (2 ^ 31 - 1) 46350 46341 1 (grid_of_rank 1 1 0) =
        Except.error (Fault.wraps 2147488281) :=
  ⟨by decide, by decide, rfl⟩

/-- C3 (amended): for `B, P, Q >= 1`, an `N * N` global matrix, `N` a multiple
of `B` and sizes within `N * N`, `P * Q`, `N div B + P`,
`N div B + Q <= 2^31 - 1`, scattering with `init_local_domain` to all `P * Q`
processes and gathering every local buffer back with the inverse mapping
reconstructs the original matrix exactly, element for element. -/
theorem roundTrip_exact_of_dvd (globalA : List α) (W fuel N B P Q : Nat) (hB : 1 ≤ B)
    (hP : 1 ≤ P) (hQ : 1 ≤ Q) (hlen : globalA.length = N * N) (hW : P * Q ≤ W)
    (hN : N * N ≤ 2 ^ 31 - 1) (hR : P * Q ≤ 2 ^ 31 - 1) (hGP : N / B + P ≤ 2 ^ 31 - 1)
    (hGQ : N / B + Q ≤ 2 ^ 31 - 1) (hfuel : N + B + P + Q < fuel) (hdiv : B ∣ N) :
    roundTrip32 W fuel globalA N B P Q = globalA.map some := by
  have hcov : N / B * B = N := Nat.div_mul_cancel hdiv
  apply List.ext_getElem?
  intro i
  by_cases hi : i < N * N
  · have hN0 : 0 < N := Nat.pos_of_ne_zero (fun h => by subst h; simp at hi)
    have hgi : i / N < N := (Nat.div_lt_iff_lt_mul hN0).mpr hi
    have hgj : i % N < N := Nat.mod_lt _ hN0
    have key := roundTrip32_getElem? globalA W fuel N B P Q (i / N) (i % N) hB hP hQ hlen hW hN
      hR hGP hGQ hfuel hgi hgj
    rw [Nat.div_add_mod' i N, hcov, if_pos ⟨hgi, hgj⟩] at key
    rw [key, List.getElem?_map, List.getElem?_eq_getElem (by rw [hlen]; exact hi)]
    rfl
  · rw [List.getElem?_eq_none (by rw [roundTrip32_length]; omega),
      List.getElem?_eq_none (by rw [List.length_map, hlen]; omega)]

theorem roundTrip_exact_of_dvd_witness :
    roundTrip32 4 11 (List.range 16) 4 2 2 2 = (List.range 16).map some :=
  roundTrip_exact_of_dvd (List.range 16) 4 11 4 2 2 2 (by decide) (by decide) (by decide)
    (by simp) (by decide) (by decide) (by decide) (by decide) (by decide) (by decide)
    (by decide)

/-! ### Block counts -/

theorem blockCount_succ (nb P p : Nat) (hp : p < P) :
    blockCount (nb + 1) P p = blockCount nb P p + (if nb % P = p then 1 else 0) := by
  have hP : 0 < P := by omega
  have hdm := Nat.div_add_mod nb P
  have hm := Nat.mod_lt nb hP
  unfold blockCount
  by_cases hwrap : nb % P + 1 = P
  · have h : (nb + 1) / P = nb / P + 1 ∧ (nb + 1) % P = 0 := by
      rw [Nat.div_mod_unique hP]
      have h1 : P * (nb / P + 1) = P * (nb / P) + P := by ring
      constructor <;> omega
    rw [h.1, h.2]
    split_ifs <;> omega
  · have h : (nb + 1) / P = nb / P ∧ (nb + 1) % P = nb % P + 1 := by
      rw [Nat.div_mod_unique hP]
      constructor <;> omega
    rw [h.1, h.2]
    split_ifs <;> omega

theorem blockCount_eq_enumeration (nb P p : Nat) (hp : p < P) :
    blockCount nb P p = ((List.range nb).filter (fun I => decide (I % P = p))).length := by
  induction nb with
  | zero => simp [blockCount]
  | succ n ih =>
    rw [blockCount_succ n P p hp, List.range_succ, List.filter_append, List.length_append, ← ih]
    by_cases h : n % P = p
    · simp [h]
    · simp [h]

/-- C4: for `B >= 1` and a grid coordinate `myrow < P`, `mycol < Q`, the `NBP`
computed by `init_local_domain`, `(N / B / P) + (myrow < (N / B) mod P)`, is the
number of block-row indices `I` in `[0, N div B)` with `I mod P = myrow`, and
`NBQ` is the number of `J` in `[0, N div B)` with `J mod Q = mycol`. -/
theorem block_counts_match_enumeration (N B : Nat) (grid : grid_t) (_hB : 1 ≤ B)
    (hrow : grid.myrow < grid.P) (hcol : grid.mycol < grid.Q) :
    (init_fields N B grid).NBP =
        ((List.range (N / B)).filter (fun I => decide (I % grid.P = grid.myrow))).length ∧
      (init_fields N B grid).NBQ =
        ((List.range (N / B)).filter (fun J => decide (J % grid.Q = grid.mycol))).length :=
  ⟨by rw [init_fields_NBP]; exact blockCount_eq_enumeration _ _ _ hrow,
    by rw [init_fields_NBQ]; exact blockCount_eq_enumeration _ _ _ hcol⟩

theorem block_counts_match_enumeration_witness :
    (init_fields 6 2 (grid_of_rank 2 1 1)).NBP =
        ((List.range (6 / 2)).filter
          (fun I => decide (I % (grid_of_rank 2 1 1).P = (grid_of_rank 2 1 1).myrow))).length ∧
      (init_fields 6 2 (grid_of_rank 2 1 1)).NBQ =
        ((List.range (6 / 2)).filter
          (fun J => decide (J % (grid_of_rank 2 1 1).Q = (grid_of_rank 2 1 1).mycol))).length :=
  block_counts_match_enumeration 6 2 (grid_of_rank 2 1 1) (by decide) (by decide) (by decide)

/-- The scenario of the specification: `N = 6`, `B = 2`, `P = 2`, `Q = 1` gives
`NBP = 2` on process row 0 and `NBP = 1` on process row 1. -/
theorem block_counts_6_2_2_1 :
    (init_fields 6 2 (grid_of_rank 2 1 0)).NBP = 2 ∧
      (init_fields 6 2 (grid_of_rank 2 1 1)).NBP = 1 := by
  decide

/-! ### Pairing of sends and receives -/

theorem range_nest2 {β : Type} (a b : Nat) (h : Nat → Nat → β) :
    ((List.range a).flatMap fun i => (List.range b).flatMap fun j => [h i j]) =
      (List.range (a * b)).map (fun k => h (k / b) (k % b)) := by
  rw [← range_flatMap_map a b (fun k => h (k / b) (k % b))]
  congr 1
  funext i
  rw [flatMap_singleton_eq_map]
  apply List.map_congr_left
  intro j hj
  rw [List.mem_range] at hj
  rw [rank_div b i j hj, rank_mod b i j hj]

theorem getElem?_map_range {β : Type} (n k : Nat) (f : Nat → β) (hk : k < n) :
    ((List.range n).map f)[k]? = some (f k) := by
  rw [List.getElem?_map, List.getElem?_range hk]
  rfl

theorem holderOps_no_recv (N B : Nat) (grid : grid_t) (ld : local_domain_t) (ty : vector_type)
    (a : Action) (ha : a ∈ holderOps N B grid ld ty) (d c s : Nat) : a ≠ Action.recv d c s := by
  simp only [holderOps, holderStep, List.mem_flatMap, List.mem_range] at ha
  obtain ⟨p, _, q, _, ha⟩ := ha
  split_ifs at ha
  · simp only [copyOps, List.mem_flatMap, List.mem_range, List.mem_singleton] at ha
    obtain ⟨_, _, _, _, _, _, _, _, rfl⟩ := ha
    exact fun h => Action.noConfusion h
  · simp only [sendOps, List.mem_flatMap, List.mem_range, List.mem_singleton] at ha
    obtain ⟨_, _, _, _, rfl⟩ := ha
    exact fun h => Action.noConfusion h

/-- C5, as stated for every `N`, fails: with `N = 92682`, `B = 46341` on a
`2 x 1` grid the buffer size `NUM_BLOCKS * B * B = 2 * 46341 * 46341` of line 39
does not fit a signed 32-bit `int`; the runs of rank 0 and of rank 1 are both
abandoned there, before any send or receive. -/
theorem pairing_undefined_for_large_blocks :
    (1 ≤ 46341 ∧ 1 < 2 ∧ 0 < 1 ∧ 1 * 1 + 0 ≠ 0) ∧
      init_local_domain32 (2 ^ 31 - 1) 139030 92682 46341 (grid_of_rank 2 1 0) =
        Except.error (Fault.wraps 4294976562) ∧
      init_local_domain32 (2 ^ 31 - 1) 139030 92682 46341 (grid_of_rank 2 1 (1 * 1 + 0)) =
        Except.error (Fault.wraps 4294976562) :=
  ⟨by decide, rfl, rfl⟩

/-- C5 (amended): for `B >= 1`, sizes within `N * N`, `P * Q`, `N div B + P`,
`N div B + Q <= 2^31 - 1` and every grid coordinate `(p, q)` other than the
holder's (rank `p * Q + q != 0`), in a communicator of `W >= P * Q`
processes, every send of rank 0 completes and its send loops issue exactly
`NBP(p) * NBQ(q)` sends to that rank, `NBP`, `NBQ` being the counts the
receiver computes with the closed formula; the `k`-th of them is the tile with
local block index `(k div NBQ, k mod NBQ)`, and the `k`-th receive the receiver
posts is for that same tile, so both sides run in the same row-major order.
Rank 0 sends nothing to itself and posts no receive. -/
theorem sends_match_receives_in_order (W fuel N B P Q p q : Nat) (hB : 1 ≤ B) (hp : p < P)
    (hq : q < Q) (hne : p * Q + q ≠ 0) (hW : P * Q ≤ W) (hN : N * N ≤ 2 ^ 31 - 1)
    (hR : P * Q ≤ 2 ^ 31 - 1)
    (hGP : N / B + P ≤ 2 ^ 31 - 1) (hGQ : N / B + Q ≤ 2 ^ 31 - 1)
    (hfuel : N + B + P + Q < fuel) :
    ∃ ld0 sent ld tr,
      init_local_domain32 (2 ^ 31 - 1) fuel N B (grid_of_rank P Q 0) = Except.ok (ld0, sent) ∧
      init_local_domain32 (2 ^ 31 - 1) fuel N B (grid_of_rank P Q (p * Q + q)) =
        Except.ok (ld, tr) ∧
      run_in_world W sent = (sent, none) ∧
      (sendsTo (p * Q + q) sent).length = ld.NBP * ld.NBQ ∧
      tr.length = ld.NBP * ld.NBQ ∧
      (∀ k, k < ld.NBP * ld.NBQ →
        (sendsTo (p * Q + q) sent)[k]? =
            some (G_ROW_P ld0 (k / ld.NBQ) p 0 * N + G_COL_Q ld0 (k % ld.NBQ) q 0,
              { count := B, blocklength := B, stride := N }) ∧
          tr[k]? = some (Action.recv (BLK ld (k / ld.NBQ) (k % ld.NBQ)) (B * B) 0)) ∧
      sendsTo 0 sent = [] ∧ ∀ a ∈ sent, ∀ d c s, a ≠ Action.recv d c s := by
  have hr := rank_lt P Q p q hp hq
  have hP : 0 < P := by omega
  have hQ : 0 < Q := by omega
  have hNBP : (init_fields N B (grid_of_rank P Q (p * Q + q))).NBP = blockCount (N / B) P p := by
    simp only [init_fields_NBP, grid_of_rank, rank_div Q p q hq]
  have hNBQ : (init_fields N B (grid_of_rank P Q (p * Q + q))).NBQ = blockCount (N / B) Q q := by
    simp only [init_fields_NBQ, grid_of_rank, rank_mod Q p q hq]
  have hsends := sendsTo_holderOps N B (grid_of_rank P Q 0) (init_fields N B (grid_of_rank P Q 0))
    { count := B, blocklength := B, stride := N } p q hp hq hne
  have hsends2 : sendsTo (p * Q + q)
      (holderOps N B (grid_of_rank P Q 0) (init_fields N B (grid_of_rank P Q 0))
        { count := B, blocklength := B, stride := N }) =
      (List.range (blockCount (N / B) P p * blockCount (N / B) Q q)).map (fun k =>
        (G_ROW_P (init_fields N B (grid_of_rank P Q 0)) (k / blockCount (N / B) Q q) p 0 * N +
          G_COL_Q (init_fields N B (grid_of_rank P Q 0)) (k % blockCount (N / B) Q q) q 0,
          ({ count := B, blocklength := B, stride := N } : vector_type))) := by
    exact hsends.trans (range_nest2 _ _ (fun lbi lbj =>
      (G_ROW_P (init_fields N B (grid_of_rank P Q 0)) lbi p 0 * N +
        G_COL_Q (init_fields N B (grid_of_rank P Q 0)) lbj q 0,
        ({ count := B, blocklength := B, stride := N } : vector_type))))
  have hrecv : recvOps B (init_fields N B (grid_of_rank P Q (p * Q + q))) =
      (List.range (blockCount (N / B) P p * blockCount (N / B) Q q)).map (fun k =>
        Action.recv (BLK (init_fields N B (grid_of_rank P Q (p * Q + q)))
          (k / blockCount (N / B) Q q) (k % blockCount (N / B) Q q)) (B * B) 0) := by
    rw [← hNBP, ← hNBQ]
    exact range_nest2 _ _ (fun lbi lbj =>
      Action.recv (BLK (init_fields N B (grid_of_rank P Q (p * Q + q))) lbi lbj) (B * B) 0)
  refine ⟨_, _, _, _,
    init_local_domain32_eq (2 ^ 31 - 1) fuel N B P Q 0 (by omega) hB (Nat.mul_pos hP hQ) hN hR
      hGP hGQ hfuel,
    init_local_domain32_eq (2 ^ 31 - 1) fuel N B P Q (p * Q + q) (by omega) hB hr hN hR hGP hGQ
      hfuel, run_in_world_complete W N B P Q 0 hW, ?_, ?_, ?_, ?_, ?_⟩
  · rw [if_pos rfl, hsends2, hNBP, hNBQ, List.length_map, List.length_range]
  · rw [if_neg hne, hrecv, hNBP, hNBQ, List.length_map, List.length_range]
  · intro k hk
    rw [if_pos rfl, if_neg hne, hsends2, hrecv, hNBQ]
    rw [hNBP, hNBQ] at hk
    exact ⟨getElem?_map_range _ k _ hk, getElem?_map_range _ k _ hk⟩
  · rw [if_pos rfl]; exact sendsTo_zero_holderOps _ _ _ _ _
  · intro a ha
    rw [if_pos rfl] at ha
    exact holderOps_no_recv _ _ _ _ _ a ha

theorem sends_match_receives_in_order_witness :
    ∃ ld0 sent ld tr,
      init_local_domain32 (2 ^ 31 - 1) 15 6 2 (grid_of_rank 2 1 0) = Except.ok (ld0, sent) ∧
      init_local_domain32 (2 ^ 31 - 1) 15 6 2 (grid_of_rank 2 1 (1 * 1 + 0)) =
        Except.ok (ld, tr) ∧
      run_in_world 2 sent = (sent, none) ∧
      (sendsTo (1 * 1 + 0) sent).length = ld.NBP * ld.NBQ ∧
      tr.length = ld.NBP * ld.NBQ ∧
      (∀ k, k < ld.NBP * ld.NBQ →
        (sendsTo (1 * 1 + 0) sent)[k]? =
            some (G_ROW_P ld0 (k / ld.NBQ) 1 0 * 6 + G_COL_Q ld0 (k % ld.NBQ) 0 0,
              { count := 2, blocklength := 2, stride := 6 }) ∧
          tr[k]? = some (Action.recv (BLK ld (k / ld.NBQ) (k % ld.NBQ)) (2 * 2) 0)) ∧
      sendsTo 0 sent = [] ∧ ∀ a ∈ sent, ∀ d c s, a ≠ Action.recv d c s :=
  sends_match_receives_in_order 2 15 6 2 2 1 1 0 (by decide) (by decide) (by decide) (by decide)
    (by decide) (by decide) (by decide) (by decide) (by decide) (by decide)

/-! ### Index mapper and rank mapping -/

/-- C6: for `P, Q, B >= 1` and a valid global index `g < (N div B) * B`, with
`I = g div B`, `ii = g mod B`, the owner row `myrow = I mod P` and the local
block index `lbi = I div P` satisfy
`global_row(lbi, myrow, ii) = (lbi * P + myrow) * B + ii = g`, and symmetrically
for columns with `Q`; the owner is a process row (column) of the grid, `lbi`
is one of the block rows (columns) it counts as its own, and the macros of the
source compute the same index. -/
theorem index_mapper_round_trip (N B P Q g : Nat) (hB : 1 ≤ B) (hP : 1 ≤ P) (hQ : 1 ≤ Q)
    (hg : g < N / B * B) :
    (global_row P B (local_block_index (g / B) P) (owner_of_block P Q (g / B) (g / B)).1 (g % B)
        = g ∧
      (local_block_index (g / B) P * P + (owner_of_block P Q (g / B) (g / B)).1) * B + g % B = g ∧
      (owner_of_block P Q (g / B) (g / B)).1 < P ∧
      local_block_index (g / B) P <
        (fieldsAt N B P Q (owner_of_block P Q (g / B) (g / B)).1
          (owner_of_block P Q (g / B) (g / B)).2).NBP ∧
      G_ROW_P (fieldsAt N B P Q (owner_of_block P Q (g / B) (g / B)).1
          (owner_of_block P Q (g / B) (g / B)).2)
        (local_block_index (g / B) P) (owner_of_block P Q (g / B) (g / B)).1 (g % B) = g) ∧
    (global_col Q B (local_block_index (g / B) Q) (owner_of_block P Q (g / B) (g / B)).2 (g % B)
        = g ∧
      (local_block_index (g / B) Q * Q + (owner_of_block P Q (g / B) (g / B)).2) * B + g % B = g ∧
      (owner_of_block P Q (g / B) (g / B)).2 < Q ∧
      local_block_index (g / B) Q <
        (fieldsAt N B P Q (owner_of_block P Q (g / B) (g / B)).1
          (owner_of_block P Q (g / B) (g / B)).2).NBQ ∧
      G_COL_Q (fieldsAt N B P Q (owner_of_block P Q (g / B) (g / B)).1
          (owner_of_block P Q (g / B) (g / B)).2)
        (local_block_index (g / B) Q) (owner_of_block P Q (g / B) (g / B)).2 (g % B) = g) := by
  have hq : g / B % Q < Q := Nat.mod_lt _ hQ
  have hp : g / B % P < P := Nat.mod_lt _ hP
  simp only [owner_of_block, local_block_index, global_row, global_col]
  rw [fieldsAt_NBP N B P Q _ _ hq, fieldsAt_NBQ N B P Q _ _ hq]
  exact ⟨⟨index_decompose B P g, index_decompose B P g, hp, lbi_lt_blockCount N B P g hB hP hg,
      index_decompose B P g⟩,
    ⟨index_decompose B Q g, index_decompose B Q g, hq, lbi_lt_blockCount N B Q g hB hQ hg,
      index_decompose B Q g⟩⟩

theorem index_mapper_round_trip_witness :
    (global_row 2 2 (local_block_index (5 / 2) 2) (owner_of_block 2 3 (5 / 2) (5 / 2)).1 (5 % 2)
        = 5 ∧
      (local_block_index (5 / 2) 2 * 2 + (owner_of_block 2 3 (5 / 2) (5 / 2)).1) * 2 + 5 % 2 = 5 ∧
      (owner_of_block 2 3 (5 / 2) (5 / 2)).1 < 2 ∧
      local_block_index (5 / 2) 2 <
        (fieldsAt 7 2 2 3 (owner_of_block 2 3 (5 / 2) (5 / 2)).1
          (owner_of_block 2 3 (5 / 2) (5 / 2)).2).NBP ∧
      G_ROW_P (fieldsAt 7 2 2 3 (owner_of_block 2 3 (5 / 2) (5 / 2)).1
          (owner_of_block 2 3 (5 / 2) (5 / 2)).2)
        (local_block_index (5 / 2) 2) (owner_of_block 2 3 (5 / 2) (5 / 2)).1 (5 % 2) = 5) ∧
    (global_col 3 2 (local_block_index (5 / 2) 3) (owner_of_block 2 3 (5 / 2) (5 / 2)).2 (5 % 2)
        = 5 ∧
      (local_block_index (5 / 2) 3 * 3 + (owner_of_block 2 3 (5 / 2) (5 / 2)).2) * 2 + 5 % 2 = 5 ∧
      (owner_of_block 2 3 (5 / 2) (5 / 2)).2 < 3 ∧
      local_block_index (5 / 2) 3 <
        (fieldsAt 7 2 2 3 (owner_of_block 2 3 (5 / 2) (5 / 2)).1
          (owner_of_block 2 3 (5 / 2) (5 / 2)).2).NBQ ∧
      G_COL_Q (fieldsAt 7 2 2 3 (owner_of_block 2 3 (5 / 2) (5 / 2)).1
          (owner_of_block 2 3 (5 / 2) (5 / 2)).2)
        (local_block_index (5 / 2) 3) (owner_of_block 2 3 (5 / 2) (5 / 2)).2 (5 % 2) = 5) :=
  index_mapper_round_trip 7 2 2 3 5 (by decide) (by decide) (by decide) (by decide)

theorem range_nest2_flatMap {β : Type} (a b : Nat) (F : Nat → Nat → List β) :
    ((List.range a).flatMap fun i => (List.range b).flatMap fun j => F i j) =
      (List.range (a * b)).flatMap (fun k => F (k / b) (k % b)) := by
  have h := congrArg (fun L : List (Nat × Nat) => L.flatMap (fun x => F x.1 x.2))
    (range_nest2 a b (fun i j => (i, j)))
  simp only [List.flatMap_assoc, List.flatMap_cons, List.flatMap_nil, List.append_nil,
    List.flatMap_map] at h
  exact h

theorem holderOps_single (N B : Nat) (ld : local_domain_t) (ty : vector_type) :
    holderOps N B (grid_of_rank 1 1 0) ld ty = copyOps N B ld := by
  simp [holderOps, holderStep, RANK_FROM_PQ, grid_of_rank, List.range_succ]

theorem copyOps_all_store (N B : Nat) (ld : local_domain_t) (a : Action)
    (ha : a ∈ copyOps N B ld) : ∃ d s, a = Action.store d s := by
  simp only [copyOps, List.mem_flatMap, List.mem_range, List.mem_singleton] at ha
  obtain ⟨_, _, _, _, _, _, _, _, rfl⟩ := ha
  exact ⟨_, _, rfl⟩

theorem le_of_sq_le (N : Nat) (hN : N * N ≤ 2 ^ 31 - 1) : N ≤ 46340 := by
  by_contra h
  have h1 : 46341 * 46341 ≤ N * N := Nat.mul_le_mul (by omega) (by omega)
  omega

/-- C8, as stated, fails: with `N = 3`, `B = 2` the single process copies only
the leading `2 x 2` block; element `(2, 2)` of the matrix, the value `8`, is
not in its local buffer.  And with `N = 46341`, `B = 1` the block count
`NBP * NBQ = 46341 * 46341` of line 37 does not fit a signed 32-bit `int`, so
nothing is copied at all. -/
theorem single_process_skips_trailing_strip :
    (1 ≤ 2 ∧ 2 < 3) ∧
      scatter32 1 8 (List.range 9) 3 2 1 1 0 = some [some 0, some 1, some 3, some 4] ∧
      (List.range 9)[2 * 3 + 2]? = some 8 ∧ some 8 ∉ [some 0, some 1, some 3, some 4] ∧
      init_local_domain32 (2 ^ 31 - 1) 46350 46341 1 (grid_of_rank 1 1 0) =
        Except.error (Fault.wraps 2147488281) :=
  ⟨by decide, by decide, by decide, by decide, rfl⟩

/-- C8 (amended): with `P = Q = 1` (single process, rank 0), for every
`B >= 1` and every `N` with `N * N <= 2^31 - 1`, `init_local_domain` sends no
message and posts no receive (every operation is a store into the local
buffer), and the distribution is a direct copy of the part of the matrix
covered by whole blocks: every element `(gi, gj)` with
`gi, gj < (N div B) * B` is in the local buffer at block
`(gi div B, gj div B)`, in-block offset `(gi mod B, gj mod B)`. -/
theorem single_process_direct_copy (globalA : List α) (fuel N B : Nat) (hB : 1 ≤ B)
    (hlen : globalA.length = N * N) (hN : N * N ≤ 2 ^ 31 - 1) (hfuel : N + B + 1 + 1 < fuel) :
    ∃ ld tr data,
      init_local_domain32 (2 ^ 31 - 1) fuel N B (grid_of_rank 1 1 0) = Except.ok (ld, tr) ∧
      (∀ a ∈ tr, ∃ d s, a = Action.store d s) ∧
      scatter32 1 fuel globalA N B 1 1 0 = some data ∧
      ∀ gi gj, gi < N / B * B → gj < N / B * B →
        ∃ h : gi * N + gj < globalA.length,
          data[(gi / B * ld.NBQ + gj / B) * B * B + gi % B * B + gj % B]? =
            some (some (globalA.get ⟨gi * N + gj, h⟩)) := by
  have hN1 := le_of_sq_le N hN
  have hdiv : N / B ≤ N := Nat.div_le_self N B
  refine ⟨_, _, _,
    init_local_domain32_eq (2 ^ 31 - 1) fuel N B 1 1 0 (by omega) hB (by decide) hN (by decide)
      (by omega) (by omega) hfuel, ?_,
    scatter32_eq globalA 1 fuel N B 1 1 0 hB hlen (by decide) (by decide) hN (by decide)
      (by omega) (by omega) hfuel, ?_⟩
  · intro a ha
    rw [if_pos rfl, holderOps_single] at ha
    exact copyOps_all_store _ _ _ a ha
  · intro gi gj hgi hgj
    have hs := assigned_slotOf N B 1 1 gi gj hB (by decide) (by decide) hgi hgj
    have himg := localImage_at_slot globalA N B 1 1 gi gj _ hs
    have hNB : N / B * B ≤ N := Nat.div_mul_le_self N B
    have hidx : gi * N + gj < globalA.length := by
      rw [hlen]; exact flat_index_lt N gi gj (by omega) (by omega)
    refine ⟨hidx, ?_⟩
    simp only [slotOf, Nat.mod_one, Nat.div_one, RANK_FROM_PQ, grid_of_rank, fieldsAt,
      Nat.zero_mul, Nat.add_zero] at himg
    rw [List.getElem?_eq_getElem hidx] at himg
    exact himg

theorem single_process_direct_copy_witness :
    ∃ ld tr data,
      init_local_domain32 (2 ^ 31 - 1) 9 4 2 (grid_of_rank 1 1 0) = Except.ok (ld, tr) ∧
      (∀ a ∈ tr, ∃ d s, a = Action.store d s) ∧
      scatter32 1 9 (List.range 16) 4 2 1 1 0 = some data ∧
      ∀ gi gj, gi < 4 / 2 * 2 → gj < 4 / 2 * 2 →
        ∃ h : gi * 4 + gj < (List.range 16).length,
          data[(gi / 2 * ld.NBQ + gj / 2) * 2 * 2 + gi % 2 * 2 + gj % 2]? =
            some (some ((List.range 16).get ⟨gi * 4 + gj, h⟩)) :=
  single_process_direct_copy (List.range 16) 9 4 2 (by decide) (by simp) (by decide)
    (by decide)

/-! ### The local buffer is tiled without gap or overlap -/

theorem writes_copyOps (N B : Nat) (ld : local_domain_t) :
    (copyOps N B ld).flatMap Action.writes = (layout N B ld).map Prod.fst := by
  rw [copyOps_eq_map_layout, List.flatMap_map]
  exact flatMap_singleton_eq_map _ _

theorem writes_holderOps (N B : Nat) (grid : grid_t) (ld : local_domain_t) (ty : vector_type)
    (hP : 0 < grid.P) (hQ : 0 < grid.Q) :
    (holderOps N B grid ld ty).flatMap Action.writes = (layout N B ld).map Prod.fst := by
  obtain ⟨rest, hsplit, hrest⟩ := holderOps_split N B grid ld ty hP hQ
  have hnil : rest.flatMap Action.writes = [] := by
    rw [List.flatMap_eq_nil_iff]
    intro a ha
    obtain ⟨p, q, _, _, _, hmem⟩ := hrest a ha
    simp only [sendOps, List.mem_flatMap, List.mem_range, List.mem_singleton] at hmem
    obtain ⟨_, _, _, _, rfl⟩ := hmem
    rfl
  rw [hsplit, List.flatMap_append, hnil, List.append_nil, writes_copyOps]

theorem writes_recvOps (B : Nat) (ld : local_domain_t) (hB : ld.B = B) :
    (recvOps B ld).flatMap Action.writes = List.range (ld.NBP * ld.NBQ * (B * B)) := by
  rw [recvOps_eq_map B ld hB, ← List.range_eq_range', List.flatMap_map]
  have h : (fun k => (Action.recv (k * (B * B)) (B * B) 0).writes) =
      fun k => (List.range (B * B)).map (fun j => id (k * (B * B) + j)) := by
    funext k
    simp only [Action.writes, List.range'_eq_map_range, id]
  rw [h, range_flatMap_map (ld.NBP * ld.NBQ) (B * B) id, List.map_id]

/-- The write positions of a rank of the grid are `0, 1, ..., dataLen - 1`. -/
theorem writes_eq_range (N B P Q r : Nat) (hr : r < P * Q) :
    (if r = 0 then
        holderOps N B (grid_of_rank P Q r) (init_fields N B (grid_of_rank P Q r))
          { count := B, blocklength := B, stride := N }
      else recvOps B (init_fields N B (grid_of_rank P Q r))).flatMap Action.writes =
      List.range (init_fields N B (grid_of_rank P Q r)).dataLen := by
  have hP : 0 < P := Nat.pos_of_ne_zero (fun h => by subst h; simp at hr)
  have hQ : 0 < Q := Nat.pos_of_ne_zero (fun h => by subst h; simp at hr)
  have hdl : (init_fields N B (grid_of_rank P Q r)).dataLen =
      (init_fields N B (grid_of_rank P Q r)).NBP *
        ((init_fields N B (grid_of_rank P Q r)).NBQ * (B * B)) := by
    simp only [init_fields]; ring
  by_cases h0 : r = 0
  · rw [if_pos h0, writes_holderOps N B _ _ _ hP hQ, layout_fst N B _ rfl, hdl]
  · rw [if_neg h0, writes_recvOps B _ rfl, hdl, Nat.mul_assoc]

/-- C9, as stated for every size, fails: with `N = B = 46341` on a `1 x 1` grid
the single block gives `NUM_BLOCKS * B * B = 46341 * 46341`, which does not fit
a signed 32-bit `int`; the size handed to `malloc` at line 39 is not
`NBP * NBQ * B * B` and the run is abandoned there, before any write. -/
theorem buffer_length_wraps_for_large_block :
    (1 ≤ 46341 ∧ 0 < 1 * 1) ∧
      init_local_domain32 (2 ^ 31 - 1) 92690 46341 46341 (grid_of_rank 1 1 0) =
        Except.error (Fault.wraps 2147488281) :=
  ⟨by decide, rfl⟩

/-- C9 (amended): for `B >= 1` and sizes within `N * N`, `P * Q`,
`N div B + P`, `N div B + Q <= 2^31 - 1`, on every rank of the grid the local
buffer has length `NBP * NBQ * B * B`; the block layout used for the writes,
`(lbi, lbj, ii, jj) -> (lbi * NBQ + lbj) * B * B + ii * B + jj`, maps
`{lbi < NBP} x {lbj < NBQ} x {ii < B} x {jj < B}` one-to-one onto
`[0, NBP * NBQ * B * B)`; and in a communicator of `W >= P * Q` processes
`init_local_domain` runs to its end and writes every position of the buffer
exactly once and nothing outside it, on the holder (by its stores) and on
every other rank (by its receives). -/
theorem local_buffer_tiled_exactly (W fuel N B P Q r : Nat) (hB : 1 ≤ B) (hr : r < P * Q)
    (hW : P * Q ≤ W) (hN : N * N ≤ 2 ^ 31 - 1) (hR : P * Q ≤ 2 ^ 31 - 1) (hGP : N / B + P ≤ 2 ^ 31 - 1)
    (hGQ : N / B + Q ≤ 2 ^ 31 - 1) (hfuel : N + B + P + Q < fuel) :
    ∃ ld tr,
      init_local_domain32 (2 ^ 31 - 1) fuel N B (grid_of_rank P Q r) = Except.ok (ld, tr) ∧
      run_in_world W tr = (tr, none) ∧
      ld.dataLen = ld.NBP * ld.NBQ * B * B ∧
      (∀ lbi lbj ii jj, lbi < ld.NBP → lbj < ld.NBQ → ii < B → jj < B →
        BLK_ELE (BLK ld lbi lbj) B ii jj = (lbi * ld.NBQ + lbj) * B * B + ii * B + jj ∧
          BLK_ELE (BLK ld lbi lbj) B ii jj < ld.dataLen) ∧
      (∀ lbi lbj ii jj lbi' lbj' ii' jj', lbj < ld.NBQ → ii < B → jj < B →
        lbj' < ld.NBQ → ii' < B → jj' < B →
        BLK_ELE (BLK ld lbi lbj) B ii jj = BLK_ELE (BLK ld lbi' lbj') B ii' jj' →
          lbi = lbi' ∧ lbj = lbj' ∧ ii = ii' ∧ jj = jj') ∧
      (∀ pos, pos < ld.dataLen → ∃ lbi lbj ii jj, lbi < ld.NBP ∧ lbj < ld.NBQ ∧ ii < B ∧
        jj < B ∧ BLK_ELE (BLK ld lbi lbj) B ii jj = pos) ∧
      ∀ pos, (tr.flatMap Action.writes).count pos = if pos < ld.dataLen then 1 else 0 := by
  have hdl : (init_fields N B (grid_of_rank P Q r)).dataLen =
      (init_fields N B (grid_of_rank P Q r)).NBP *
        ((init_fields N B (grid_of_rank P Q r)).NBQ * (B * B)) := by
    simp only [init_fields]; ring
  have hfst := layout_fst N B (init_fields N B (grid_of_rank P Q r)) rfl
  rw [← hdl] at hfst
  have hflat : ∀ lbi lbj ii jj,
      BLK_ELE (BLK (init_fields N B (grid_of_rank P Q r)) lbi lbj) B ii jj =
        ((lbi * (init_fields N B (grid_of_rank P Q r)).NBQ + lbj) * B + ii) * B + jj := by
    intro lbi lbj ii jj
    simp only [BLK_ELE, BLK, init_fields]
    ring
  refine ⟨_, _,
    init_local_domain32_eq (2 ^ 31 - 1) fuel N B P Q r (by omega) hB hr hN hR hGP hGQ hfuel,
    run_in_world_complete W N B P Q r hW, ?_, ?_, ?_, ?_, ?_⟩
  · simp only [init_fields]
  · intro lbi lbj ii jj hlbi hlbj hii hjj
    refine ⟨rfl, ?_⟩
    have hmem := (mem_layout N B (init_fields N B (grid_of_rank P Q r)) _).mpr
      ⟨lbi, hlbi, lbj, hlbj, ii, hii, jj, hjj, rfl⟩
    have h2 := List.mem_map_of_mem Prod.fst hmem
    rw [hfst, List.mem_range] at h2
    exact h2
  · intro lbi lbj ii jj lbi' lbj' ii' jj' hlbj hii hjj hlbj' hii' hjj' heq
    rw [hflat, hflat] at heq
    obtain ⟨a1, a2, a3⟩ := index_unique B B _ ii jj _ hii hjj heq
    obtain ⟨b1, b2, b3⟩ := index_unique B B _ ii' jj' _ hii' hjj' rfl
    have hblk : lbi * (init_fields N B (grid_of_rank P Q r)).NBQ + lbj =
        lbi' * (init_fields N B (grid_of_rank P Q r)).NBQ + lbj' := a1.trans b1.symm
    refine ⟨?_, ?_, a2.trans b2.symm, a3.trans b3.symm⟩
    · rw [← rank_div _ lbi lbj hlbj, hblk, rank_div _ lbi' lbj' hlbj']
    · rw [← rank_mod _ lbi lbj hlbj, hblk, rank_mod _ lbi' lbj' hlbj']
  · intro pos hpos
    have h2 : pos ∈ (layout N B (init_fields N B (grid_of_rank P Q r))).map Prod.fst := by
      rw [hfst, List.mem_range]; exact hpos
    rw [List.mem_map] at h2
    obtain ⟨x, hx, rfl⟩ := h2
    rw [mem_layout] at hx
    obtain ⟨lbi, hlbi, lbj, hlbj, ii, hii, jj, hjj, rfl⟩ := hx
    exact ⟨lbi, lbj, ii, jj, hlbi, hlbj, hii, hjj, rfl⟩
  · intro pos
    rw [writes_eq_range N B P Q r hr]
    by_cases hpos : pos < (init_fields N B (grid_of_rank P Q r)).dataLen
    · rw [if_pos hpos]
      exact List.count_eq_one_of_mem (List.nodup_range _) (List.mem_range.mpr hpos)
    · rw [if_neg hpos]
      exact List.count_eq_zero_of_not_mem (fun h => hpos (List.mem_range.mp h))

theorem local_buffer_tiled_exactly_witness :
    ∃ ld tr,
      init_local_domain32 (2 ^ 31 - 1) 15 7 2 (grid_of_rank 2 3 4) = Except.ok (ld, tr) ∧
      run_in_world 6 tr = (tr, none) ∧
      ld.dataLen = ld.NBP * ld.NBQ * 2 * 2 ∧
      (∀ lbi lbj ii jj, lbi < ld.NBP → lbj < ld.NBQ → ii < 2 → jj < 2 →
        BLK_ELE (BLK ld lbi lbj) 2 ii jj = (lbi * ld.NBQ + lbj) * 2 * 2 + ii * 2 + jj ∧
          BLK_ELE (BLK ld lbi lbj) 2 ii jj < ld.dataLen) ∧
      (∀ lbi lbj ii jj lbi' lbj' ii' jj', lbj < ld.NBQ → ii < 2 → jj < 2 →
        lbj' < ld.NBQ → ii' < 2 → jj' < 2 →
        BLK_ELE (BLK ld lbi lbj) 2 ii jj = BLK_ELE (BLK ld lbi' lbj') 2 ii' jj' →
          lbi = lbi' ∧ lbj = lbj' ∧ ii = ii' ∧ jj = jj') ∧
      (∀ pos, pos < ld.dataLen → ∃ lbi lbj ii jj, lbi < ld.NBP ∧ lbj < ld.NBQ ∧ ii < 2 ∧
        jj < 2 ∧ BLK_ELE (BLK ld lbi lbj) 2 ii jj = pos) ∧
      ∀ pos, (tr.flatMap Action.writes).count pos = if pos < ld.dataLen then 1 else 0 :=
  local_buffer_tiled_exactly 6 15 7 2 2 3 4 (by decide) (by decide) (by decide) (by decide)
    (by decide) (by decide) (by decide) (by decide)

/-! ### Grid and process count -/

/-- The operations of rank 0, in the order of the ranks they are for. -/
theorem holderOps_by_rank (N B : Nat) (grid : grid_t) (ld : local_domain_t) (ty : vector_type) :
    holderOps N B grid ld ty =
      (List.range (grid.P * grid.Q)).flatMap fun r =>
        holderStep N B grid ld ty (r / grid.Q) (r % grid.Q) := by
  unfold holderOps
  exact range_nest2_flatMap grid.P grid.Q (fun p q => holderStep N B grid ld ty p q)

theorem sendOps_head (N B : Nat) (grid : grid_t) (ld : local_domain_t) (ty : vector_type)
    (p q t : Nat) (hp : p < grid.P) (hq : q < grid.Q) (hpn : p < N / B) (hqn : q < N / B) :
    ∃ off rest, sendOps N B grid ld ty p q t = Action.send off ty t :: rest := by
  have h1 : 0 < blockCount (N / B) grid.P p :=
    (guard_iff_lt_blockCount (N / B) grid.P p 0 hp).mp (by omega)
  have h2 : 0 < blockCount (N / B) grid.Q q :=
    (guard_iff_lt_blockCount (N / B) grid.Q q 0 hq).mp (by omega)
  obtain ⟨a, ha⟩ : ∃ a, blockCount (N / B) grid.P p = a + 1 := ⟨_, (Nat.sub_add_cancel h1).symm⟩
  obtain ⟨b, hb⟩ : ∃ b, blockCount (N / B) grid.Q q = b + 1 := ⟨_, (Nat.sub_add_cancel h2).symm⟩
  unfold sendOps
  rw [ha, hb, List.range_succ_eq_map, List.flatMap_cons, List.range_succ_eq_map,
    List.flatMap_cons]
  exact ⟨_, _, rfl⟩

/-- The run of rank 0 in a communicator of `W` processes, `1 <= W < P * Q`,
when the grid coordinate of rank `W` owns a tile: the steps for ranks below
`W` are performed and the first send to rank `W` fails. -/
theorem run_in_world_holderOps (W N B : Nat) (grid : grid_t) (ld : local_domain_t)
    (ty : vector_type) (hW1 : 1 ≤ W) (hW : W < grid.P * grid.Q)
    (hp : W / grid.Q < N / B) (hq : W % grid.Q < N / B) :
    run_in_world W (holderOps N B grid ld ty) =
      ((List.range W).flatMap fun r => holderStep N B grid ld ty (r / grid.Q) (r % grid.Q),
        some W) := by
  obtain ⟨k, hk⟩ : ∃ k, grid.P * grid.Q = W + (k + 1) := ⟨grid.P * grid.Q - W - 1, by omega⟩
  have hvalid : sendsValid W
      ((List.range W).flatMap fun r =>
        holderStep N B grid ld ty (r / grid.Q) (r % grid.Q)) = true := by
    refine sendsValid_flatMap W _ _ (fun r hr => ?_)
    rw [List.mem_range] at hr
    unfold holderStep
    split_ifs
    · exact sendsValid_copyOps W N B ld
    · refine sendsValid_sendOps W N B grid ld ty _ _ _ ?_
      have h : RANK_FROM_PQ grid (r / grid.Q) (r % grid.Q) = r := Nat.div_add_mod' r grid.Q
      omega
  obtain ⟨hrow, hcol⟩ := div_mod_lt_of_lt_mul grid.P grid.Q W hW
  have hrank : RANK_FROM_PQ grid (W / grid.Q) (W % grid.Q) = W := Nat.div_add_mod' W grid.Q
  obtain ⟨off, rest, hhead⟩ := sendOps_head N B grid ld ty (W / grid.Q) (W % grid.Q) W hrow hcol
    hp hq
  have hstep : holderStep N B grid ld ty (W / grid.Q) (W % grid.Q) =
      Action.send off ty W :: rest := by
    unfold holderStep
    rw [hrank, if_neg (by omega), hhead]
  rw [holderOps_by_rank, hk, List.range_add, List.flatMap_append, List.flatMap_map,
    List.range_succ_eq_map, List.flatMap_cons, Nat.add_zero, hstep,
    run_in_world_append W _ _ hvalid]
  simp only [List.cons_append, run_in_world, if_neg (Nat.lt_irrefl W), List.append_nil]

/-- C10, as stated, fails: `init_local_domain` never looks at the process
count.  Handed a `2 x 1` grid on rank 0 of a run with a single process, it
first copies its own two elements into the Local Domain; the run then stops at
the first send to rank 1, which is not in the communicator. -/
theorem mismatched_grid_not_rejected :
    (2 * 1 ≠ 1 ∧ 0 < 1) ∧
      init_local_domain32 (2 ^ 31 - 1) 7 2 1 (grid_of_rank 2 1 0) =
        Except.ok (init_fields 2 1 (grid_of_rank 2 1 0),
          [Action.store 0 0, Action.store 1 1,
            Action.send 2 { count := 1, blocklength := 1, stride := 2 } 1,
            Action.send 3 { count := 1, blocklength := 1, stride := 2 } 1]) ∧
      run_in_world 1 [Action.store 0 0, Action.store 1 1,
          Action.send 2 { count := 1, blocklength := 1, stride := 2 } 1,
          Action.send 3 { count := 1, blocklength := 1, stride := 2 } 1] =
        ([Action.store 0 0, Action.store 1 1], some 1) :=
  ⟨by decide, rfl, by decide⟩

/-- C10 (amended): `init_local_domain` performs no check of `P * Q` against the
process count `W >= 1`.  For `B, P, Q >= 1`, sizes within `N * N`, `P * Q`,
`N div B + P`, `N div B + Q <= 2^31 - 1` and `P * Q != W`, rank 0 always
begins with the copy of its own tiles, which writes the `NBP * NBQ * B * B`
positions of its Local Domain.  If `P * Q < W` every send goes to a rank
of the communicator and the run completes.  If `P * Q > W`, a send that
fails is to a rank `d` with `W <= d < P * Q`; and when the grid coordinate
`(W div Q, W mod Q)` of rank `W` owns a tile (both below `N div B`), the run
performs the steps for the ranks `0 .. W-1` and stops at the first send to
rank `W`. -/
theorem mismatched_grid_runs_unchecked (W fuel N B P Q : Nat) (hB : 1 ≤ B) (hP : 1 ≤ P)
    (hQ : 1 ≤ Q) (hW1 : 1 ≤ W) (hW : P * Q ≠ W) (hN : N * N ≤ 2 ^ 31 - 1)
    (hR : P * Q ≤ 2 ^ 31 - 1) (hGP : N / B + P ≤ 2 ^ 31 - 1) (hGQ : N / B + Q ≤ 2 ^ 31 - 1)
    (hfuel : N + B + P + Q < fuel) :
    ∃ ld tr,
      init_local_domain32 (2 ^ 31 - 1) fuel N B (grid_of_rank P Q 0) = Except.ok (ld, tr) ∧
      (∃ rest, (run_in_world W tr).1 = copyOps N B ld ++ rest) ∧
      (copyOps N B ld).flatMap Action.writes = List.range (ld.NBP * ld.NBQ * B * B) ∧
      ((P * Q < W ∧ run_in_world W tr = (tr, none)) ∨
        (W < P * Q ∧
          (∀ d, (run_in_world W tr).2 = some d → W ≤ d ∧ d < P * Q) ∧
          (W / Q < N / B → W % Q < N / B →
            run_in_world W tr =
              ((List.range W).flatMap fun r =>
                  holderStep N B (grid_of_rank P Q 0) ld
                    { count := B, blocklength := B, stride := N } (r / Q) (r % Q),
                some W)))) := by
  have hr : 0 < P * Q := Nat.mul_pos hP hQ
  refine ⟨_, _,
    init_local_domain32_eq (2 ^ 31 - 1) fuel N B P Q 0 (by omega) hB hr hN hR hGP hGQ hfuel,
    ?_, ?_, ?_⟩
  · rw [if_pos rfl]
    obtain ⟨rest, hsplit, _⟩ := holderOps_split N B (grid_of_rank P Q 0)
      (init_fields N B (grid_of_rank P Q 0)) { count := B, blocklength := B, stride := N } hP hQ
    rw [hsplit, run_in_world_append W _ _ (sendsValid_copyOps W N B _)]
    exact ⟨_, rfl⟩
  · rw [writes_copyOps, layout_fst N B _ rfl]
    congr 1
    ring
  · rw [if_pos rfl]
    rcases Nat.lt_or_gt_of_ne hW with h | h
    · left
      exact ⟨h, run_in_world_valid W _ (sendsValid_holderOps W N B (grid_of_rank P Q 0) _ _
        (Nat.le_of_lt h))⟩
    · right
      refine ⟨h, fun d hd => ?_, fun hp hq => ?_⟩
      · obtain ⟨hle, off, ty, hmem⟩ := run_in_world_fails W _ d hd
        refine ⟨hle, ?_⟩
        rcases mem_holderOps N B _ _ _ _ hmem with hc | ⟨p, q, hp, hq, hs⟩
        · obtain ⟨_, _, hst⟩ := copyOps_all_store N B _ _ hc
          exact absurd hst (by simp)
        · simp only [sendOps, List.mem_flatMap, List.mem_range, List.mem_singleton] at hs
          obtain ⟨_, _, _, _, hs⟩ := hs
          have hd2 : d = RANK_FROM_PQ (grid_of_rank P Q 0) p q := by
            injection hs
          rw [hd2]
          exact rank_lt P Q p q hp hq
      · exact run_in_world_holderOps W N B (grid_of_rank P Q 0) _ _ hW1 h hp hq

theorem mismatched_grid_runs_unchecked_witness :
    ∃ ld tr,
      init_local_domain32 (2 ^ 31 - 1) 7 2 1 (grid_of_rank 2 1 0) = Except.ok (ld, tr) ∧
      (∃ rest, (run_in_world 1 tr).1 = copyOps 2 1 ld ++ rest) ∧
      (copyOps 2 1 ld).flatMap Action.writes = List.range (ld.NBP * ld.NBQ * 1 * 1) ∧
      ((2 * 1 < 1 ∧ run_in_world 1 tr = (tr, none)) ∨
        (1 < 2 * 1 ∧
          (∀ d, (run_in_world 1 tr).2 = some d → 1 ≤ d ∧ d < 2 * 1) ∧
          (1 / 1 < 2 / 1 → 1 % 1 < 2 / 1 →
            run_in_world 1 tr =
              ((List.range 1).flatMap fun r =>
                  holderStep 2 1 (grid_of_rank 2 1 0) ld
                    { count := 1, blocklength := 1, stride := 2 } (r / 1) (r % 1),
                some 1)))) :=
  mismatched_grid_runs_unchecked 1 7 2 1 2 1 (by decide) (by decide) (by decide) (by decide)
    (by decide) (by decide) (by decide) (by decide) (by decide) (by decide)

/-! ### Reads of the global matrix -/

/-- Every element the self-copy of rank 0 reads sits at a row and a column of
the matrix. -/
theorem copyOps_reads (N B P Q : Nat) (hP : 0 < P) (hQ : 0 < Q) (dst src : Nat)
    (h : Action.store dst src ∈ copyOps N B (init_fields N B (grid_of_rank P Q 0))) :
    ∃ gi gj, gi < N ∧ gj < N ∧ src = gi * N + gj := by
  simp only [copyOps, List.mem_flatMap, List.mem_range, List.mem_singleton] at h
  obtain ⟨lbi, hlbi, lbj, hlbj, ii, hii, jj, hjj, heq⟩ := h
  rw [init_fields_NBP] at hlbi
  rw [init_fields_NBQ] at hlbj
  have hrow : (grid_of_rank P Q 0).myrow < P := by
    simp only [grid_of_rank, Nat.zero_div]; exact hP
  have hcol : (grid_of_rank P Q 0).mycol < Q := by
    simp only [grid_of_rank, Nat.zero_mod]; exact hQ
  have hI := (guard_iff_lt_blockCount (N / B) P _ lbi hrow).mpr hlbi
  have hJ := (guard_iff_lt_blockCount (N / B) Q _ lbj hcol).mpr hlbj
  injection heq with _ hsrc
  exact ⟨_, _, block_index_lt N B _ ii hI hii, block_index_lt N B _ jj hJ hjj, hsrc⟩

/-- Every send of rank 0 starts at the first cell of a whole block of the
matrix. -/
theorem sendOps_reads (N B : Nat) (grid : grid_t) (ld : local_domain_t) (ty : vector_type)
    (p q t : Nat) (hp : p < grid.P) (hq : q < grid.Q) (off : Nat) (ty' : vector_type) (dest : Nat)
    (h : Action.send off ty' dest ∈ sendOps N B grid ld ty p q t) :
    ty' = ty ∧ dest = t ∧ ∃ lbi lbj, lbi * grid.P + p < N / B ∧ lbj * grid.Q + q < N / B ∧
      off = G_ROW_P ld lbi p 0 * N + G_COL_Q ld lbj q 0 := by
  simp only [sendOps, List.mem_flatMap, List.mem_range, List.mem_singleton] at h
  obtain ⟨lbi, hlbi, lbj, hlbj, heq⟩ := h
  injection heq with h1 h2 h3
  exact ⟨h2, h3, lbi, lbj, (guard_iff_lt_blockCount (N / B) grid.P p lbi hp).mpr hlbi,
    (guard_iff_lt_blockCount (N / B) grid.Q q lbj hq).mpr hlbj, h1⟩

/-- A loop whose body faults at iteration `k`, after `k` iterations that
succeed, ends with that fault. -/
theorem forLoop32_fault (lim : Nat) (cond : Nat → Except Fault Bool)
    (body : Nat → Except Fault (List Action)) (e : Fault) (k : Nat) (h32 : lim < 2 ^ 31)
    (hk : k ≤ lim) (hc : ∀ i, i ≤ k → cond i = Except.ok true)
    (hb : ∀ i, i < k → ∃ a, body i = Except.ok a) (he : body k = Except.error e) :
    ∀ fuel i, i ≤ k → k - i < fuel → forLoop32 lim cond body fuel i = Except.error e := by
  intro fuel
  induction fuel with
  | zero => intro i _ h; omega
  | succ n ih =>
    intro i hik h
    by_cases hi : i < k
    · obtain ⟨a, ha⟩ := hb i hi
      rw [forLoop32, hc i hik, ok_bind, if_pos rfl, ha, ok_bind,
        int_op_ok lim (i + 1) (by omega) h32, ok_bind, ih (i + 1) (by omega) (by omega),
        error_bind]
    · have hik2 : i = k := by omega
      rw [forLoop32, hc i hik, ok_bind, if_pos rfl, hik2, he, error_bind]

/-- The self-copy of rank 0 for `N = 46342`, `B = 1` on a `2 x 1` grid: the
rows `lbi < 23170` are copied, and at `lbi = 23170` the product `gi * N` of
line 66 wraps. -/
theorem copy_own_blocks32_wraps :
    copy_own_blocks32 (2 ^ 31 - 1) 46350 46342 1 (init_fields 46342 1 (grid_of_rank 2 1 0)) =
      Except.error (Fault.wraps 2147488280) := by
  have h32 : 2 ^ 31 - 1 < 2 ^ 31 := by omega
  have hB : 1 ≤ (init_fields 46342 1 (grid_of_rank 2 1 0)).B := Nat.le_refl 1
  unfold copy_own_blocks32
  refine forLoop32_fault _ _ _ _ 23170 h32 (by omega) (fun i hi => ?_) (fun lbi hlbi => ?_) ?_
    46350 0 (by omega) (by omega)
  · have h : i < (init_fields 46342 1 (grid_of_rank 2 1 0)).NBP := by
      show i < 23171
      omega
    show Except.ok (decide (i < (init_fields 46342 1 (grid_of_rank 2 1 0)).NBP)) = Except.ok true
    rw [decide_eq_true h]
  · refine ⟨(List.range 46342).flatMap fun lbj =>
        (List.range 1).flatMap fun ii =>
          (List.range 1).flatMap fun jj =>
            [Action.store (BLK_ELE (BLK (init_fields 46342 1 (grid_of_rank 2 1 0)) lbi lbj) 1 ii jj)
              (G_ROW_P (init_fields 46342 1 (grid_of_rank 2 1 0)) lbi 0 ii * 46342 +
                G_COL_Q (init_fields 46342 1 (grid_of_rank 2 1 0)) lbj 0 jj)],
      forLoop32_eq _ _ _ _ 46342 46350 h32 (by omega) (fun _ _ => rfl)
        (fun lbj hlbj => ?_) (by omega)⟩
    have hblk : BLK (init_fields 46342 1 (grid_of_rank 2 1 0)) lbi lbj ≤ 2 ^ 31 - 1 := by
      show (lbi * 46342 + lbj) * 1 * 1 ≤ 2 ^ 31 - 1
      omega
    rw [BLK32_ok _ _ lbi lbj h32 hB hblk, ok_bind]
    refine forLoop32_eq _ _ _ _ 1 46350 h32 (by omega) (fun _ _ => rfl) (fun ii hii => ?_)
      (by omega)
    refine forLoop32_eq _ _ _ _ 1 46350 h32 (by omega) (fun _ _ => rfl) (fun jj hjj => ?_)
      (by omega)
    have hgi : G_ROW_P (init_fields 46342 1 (grid_of_rank 2 1 0)) lbi 0 ii = lbi * 2 + ii := by
      show (lbi * 2 + 0) * 1 + ii = lbi * 2 + ii
      omega
    have hgj : G_COL_Q (init_fields 46342 1 (grid_of_rank 2 1 0)) lbj 0 jj = lbj + jj := by
      show (lbj * 1 + 0) * 1 + jj = lbj + jj
      omega
    unfold G_ROW32 G_COL32
    show (G_ROW_P32 _ _ lbi 0 ii >>= fun gi => G_COL_Q32 _ _ lbj 0 jj >>= fun gj => _) = _
    rw [G_ROW_P32_ok _ _ lbi 0 ii h32 hB (by rw [hgi]; omega), ok_bind,
      G_COL_Q32_ok _ _ lbj 0 jj h32 hB (by rw [hgj]; omega), ok_bind,
      BLK_ELE32_ok _ _ 1 ii jj h32 (by omega), ok_bind,
      int_op_ok _ _ (by rw [hgi]; omega) h32, ok_bind,
      int_op_ok _ _ (by rw [hgi, hgj]; omega) h32, ok_bind]
    rfl
  · rfl

/-- C11, as stated for every `N`, fails: with `N = 46342`, `B = 1` on a `2 x 1`
grid the sizes of lines 35-39 fit an `int`, and the self-copy of rank 0
reaches row `gi = 46340 < N`, where the index `gi * N + gj` of line 66 is
`2147488280 > 2^31 - 1`: computed as a signed 32-bit `int` it comes out
negative, outside `[0, N * N)`. -/
theorem read_index_wraps_for_large_matrix :
    (1 ≤ 1 ∧ 0 < 2 * 1) ∧
      init_fields32 (2 ^ 31 - 1) 46342 1 (grid_of_rank 2 1 0) =
        Except.ok (init_fields 46342 1 (grid_of_rank 2 1 0)) ∧
      init_local_domain32 (2 ^ 31 - 1) 46350 46342 1 (grid_of_rank 2 1 0) =
        Except.error (Fault.wraps 2147488280) ∧
      46340 < 46342 ∧ 46340 * 46342 + 0 = 2147488280 ∧ wrap32 2147488280 = -2147479016 := by
  have hf : init_fields32 (2 ^ 31 - 1) 46342 1 (grid_of_rank 2 1 0) =
      Except.ok (init_fields 46342 1 (grid_of_rank 2 1 0)) := rfl
  have h32 : 2 ^ 31 - 1 < 2 ^ 31 := by omega
  refine ⟨by decide, hf, ?_, by decide, by decide, by decide⟩
  unfold init_local_domain32
  rw [hf, ok_bind]
  have hh : holder_branch32 (2 ^ 31 - 1) 46350 46342 1 (grid_of_rank 2 1 0)
      (init_fields 46342 1 (grid_of_rank 2 1 0))
      { count := 1, blocklength := 1, stride := 46342 } =
      Except.error (Fault.wraps 2147488280) := by
    unfold holder_branch32
    refine forLoop32_fault _ _ _ _ 0 h32 (by omega) (fun i hi => ?_) (fun i hi => by omega) ?_
      46350 0 (by omega) (by omega)
    · have hi0 : i = 0 := by omega
      rw [hi0]
      rfl
    · refine forLoop32_fault _ _ _ _ 0 h32 (by omega) (fun i hi => ?_) (fun i hi => by omega) ?_
        46350 0 (by omega) (by omega)
      · have hi0 : i = 0 := by omega
        rw [hi0]
        rfl
      · show (RANK_FROM_PQ32 _ _ 0 0 >>= fun t_rank => _) = _
        rw [RANK_FROM_PQ32_ok _ _ 0 0 h32 (by decide), ok_bind]
        exact copy_own_blocks32_wraps
  have hl : (grid_of_rank 2 1 0).lrank = 0 := rfl
  rw [if_pos hl, hh, error_bind]

/-- C11 (amended): for `B >= 1`, sizes within `N * N`, `P * Q`, `N div B + P`,
`N div B + Q <= 2^31 - 1` and every rank of a `P x Q` grid in a communicator
of `W >= P * Q` processes, `init_local_domain` runs to its end and every index
of `globalA` that it reads lies in `[0, N * N)`.  In the
self-copy each read is at `gi * N + gj` with `gi, gj < N`.  Every strided send
uses the datatype of `B` rows of `B` values with row stride `N` and starts at
`gi * N + gj` with `gi = (lbi * P + p) * B`, `gj = (lbj * Q + q) * B` for some
`lbi * P + p < N div B`, `lbj * Q + q < N div B`; every element of its tile,
`(gi + r) * N + gj + c` with `r, c < B`, has `gi + r < N` and `gj + c < N`. -/
theorem global_reads_in_bounds (W fuel N B P Q r : Nat) (hB : 1 ≤ B) (hr : r < P * Q)
    (hW : P * Q ≤ W) (hN : N * N ≤ 2 ^ 31 - 1) (hR : P * Q ≤ 2 ^ 31 - 1) (hGP : N / B + P ≤ 2 ^ 31 - 1)
    (hGQ : N / B + Q ≤ 2 ^ 31 - 1) (hfuel : N + B + P + Q < fuel) :
    ∃ ld tr,
      init_local_domain32 (2 ^ 31 - 1) fuel N B (grid_of_rank P Q r) = Except.ok (ld, tr) ∧
      run_in_world W tr = (tr, none) ∧
      (∀ i ∈ tr.flatMap Action.reads, i < N * N) ∧
      (∀ dst src, Action.store dst src ∈ tr → ∃ gi gj, gi < N ∧ gj < N ∧ src = gi * N + gj) ∧
      ∀ off ty dest, Action.send off ty dest ∈ tr →
        ty = { count := B, blocklength := B, stride := N } ∧
        ∃ p q lbi lbj, p < P ∧ q < Q ∧ dest = p * Q + q ∧
          lbi * P + p < N / B ∧ lbj * Q + q < N / B ∧
          off = (lbi * P + p) * B * N + (lbj * Q + q) * B ∧
          ∀ i j, i < B → j < B →
            (lbi * P + p) * B + i < N ∧ (lbj * Q + q) * B + j < N ∧
              off + (i * ty.stride + j) = ((lbi * P + p) * B + i) * N + ((lbj * Q + q) * B + j) := by
  have hP : 0 < P := Nat.pos_of_ne_zero (fun h => by subst h; simp at hr)
  have hQ : 0 < Q := Nat.pos_of_ne_zero (fun h => by subst h; simp at hr)
  have hstore : ∀ dst src, Action.store dst src ∈
      (if r = 0 then
        holderOps N B (grid_of_rank P Q r) (init_fields N B (grid_of_rank P Q r))
          { count := B, blocklength := B, stride := N }
      else recvOps B (init_fields N B (grid_of_rank P Q r))) →
      ∃ gi gj, gi < N ∧ gj < N ∧ src = gi * N + gj := by
    intro dst src h
    by_cases h0 : r = 0
    · subst h0
      rw [if_pos rfl] at h
      rcases mem_holderOps _ _ _ _ _ _ h with h | ⟨p, q, _, _, h⟩
      · exact copyOps_reads N B P Q hP hQ dst src h
      · simp only [sendOps, List.mem_flatMap, List.mem_range, List.mem_singleton] at h
        obtain ⟨_, _, _, _, h⟩ := h
        exact Action.noConfusion h
    · rw [if_neg h0] at h
      simp only [recvOps, List.mem_flatMap, List.mem_range, List.mem_singleton] at h
      obtain ⟨_, _, _, _, h⟩ := h
      exact Action.noConfusion h
  have hsend : ∀ off ty dest, Action.send off ty dest ∈
      (if r = 0 then
        holderOps N B (grid_of_rank P Q r) (init_fields N B (grid_of_rank P Q r))
          { count := B, blocklength := B, stride := N }
      else recvOps B (init_fields N B (grid_of_rank P Q r))) →
      ty = { count := B, blocklength := B, stride := N } ∧
        ∃ p q lbi lbj, p < P ∧ q < Q ∧ dest = p * Q + q ∧
          lbi * P + p < N / B ∧ lbj * Q + q < N / B ∧
          off = (lbi * P + p) * B * N + (lbj * Q + q) * B ∧
          ∀ i j, i < B → j < B →
            (lbi * P + p) * B + i < N ∧ (lbj * Q + q) * B + j < N ∧
              off + (i * ty.stride + j) = ((lbi * P + p) * B + i) * N + ((lbj * Q + q) * B + j) := by
    intro off ty dest h
    by_cases h0 : r = 0
    · subst h0
      rw [if_pos rfl] at h
      rcases mem_holderOps _ _ _ _ _ _ h with h | ⟨p, q, hp, hq, h⟩
      · simp only [copyOps, List.mem_flatMap, List.mem_range, List.mem_singleton] at h
        obtain ⟨_, _, _, _, _, _, _, _, h⟩ := h
        exact Action.noConfusion h
      · obtain ⟨hty, hdest, lbi, lbj, hI, hJ, hoff⟩ :=
          sendOps_reads N B _ _ _ p q _ hp hq off ty dest h
        have hI' : lbi * P + p < N / B := hI
        have hJ' : lbj * Q + q < N / B := hJ
        have hoff' : off = (lbi * P + p) * B * N + (lbj * Q + q) * B := by
          rw [hoff]; simp only [G_ROW_P, G_COL_Q, init_fields, grid_of_rank, Nat.add_zero]
        refine ⟨hty, p, q, lbi, lbj, hp, hq, hdest, hI', hJ', hoff', fun i j hi hj => ?_⟩
        refine ⟨block_index_lt N B _ i hI' hi, block_index_lt N B _ j hJ' hj, ?_⟩
        rw [hoff', hty]
        ring
    · rw [if_neg h0] at h
      simp only [recvOps, List.mem_flatMap, List.mem_range, List.mem_singleton] at h
      obtain ⟨_, _, _, _, h⟩ := h
      exact Action.noConfusion h
  refine ⟨_, _,
    init_local_domain32_eq (2 ^ 31 - 1) fuel N B P Q r (by omega) hB hr hN hR hGP hGQ hfuel,
    run_in_world_complete W N B P Q r hW, ?_, hstore, hsend⟩
  intro i hi
  rw [List.mem_flatMap] at hi
  obtain ⟨a, ha, hia⟩ := hi
  cases a with
  | store dst src =>
    obtain ⟨gi, gj, hgi, hgj, rfl⟩ := hstore dst src ha
    simp only [Action.reads, List.mem_singleton] at hia
    rw [hia]
    exact flat_index_lt N gi gj hgi hgj
  | recv d c s => simp [Action.reads] at hia
  | send off ty dest =>
    obtain ⟨hty, p, q, lbi, lbj, _, _, _, _, _, _, hall⟩ := hsend off ty dest ha
    simp only [Action.reads, List.mem_map] at hia
    obtain ⟨d, hd, rfl⟩ := hia
    rw [mem_offsets] at hd
    obtain ⟨i', hi', j', hj', rfl⟩ := hd
    rw [hty] at hi' hj'
    obtain ⟨h1, h2, h3⟩ := hall i' j' hi' hj'
    rw [h3]
    exact flat_index_lt N _ _ h1 h2

theorem global_reads_in_bounds_witness :
    ∃ ld tr,
      init_local_domain32 (2 ^ 31 - 1) 15 7 2 (grid_of_rank 2 3 0) = Except.ok (ld, tr) ∧
      run_in_world 6 tr = (tr, none) ∧
      (∀ i ∈ tr.flatMap Action.reads, i < 7 * 7) ∧
      (∀ dst src, Action.store dst src ∈ tr → ∃ gi gj, gi < 7 ∧ gj < 7 ∧ src = gi * 7 + gj) ∧
      ∀ off ty dest, Action.send off ty dest ∈ tr →
        ty = { count := 2, blocklength := 2, stride := 7 } ∧
        ∃ p q lbi lbj, p < 2 ∧ q < 3 ∧ dest = p * 3 + q ∧
          lbi * 2 + p < 7 / 2 ∧ lbj * 3 + q < 7 / 2 ∧
          off = (lbi * 2 + p) * 2 * 7 + (lbj * 3 + q) * 2 ∧
          ∀ i j, i < 2 → j < 2 →
            (lbi * 2 + p) * 2 + i < 7 ∧ (lbj * 3 + q) * 2 + j < 7 ∧
              off + (i * ty.stride + j) = ((lbi * 2 + p) * 2 + i) * 7 + ((lbj * 3 + q) * 2 + j) :=
  global_reads_in_bounds 6 15 7 2 2 3 0 (by decide) (by decide) (by decide) (by decide)
    (by decide) (by decide) (by decide) (by decide)

/-! ### Block counts add up -/

theorem sum_indicator (P k : Nat) (hk : k < P) :
    ((List.range P).map (fun p => if k = p then 1 else 0)).sum = 1 := by
  induction P with
  | zero => omega
  | succ n ih =>
    rw [List.range_succ, List.map_append, List.sum_append]
    by_cases hkn : k = n
    · subst hkn
      have h0 : ((List.range k).map (fun p => if k = p then 1 else 0)).sum = 0 := by
        rw [List.sum_eq_zero]
        intro x hx
        rw [List.mem_map] at hx
        obtain ⟨p, hp, rfl⟩ := hx
        rw [List.mem_range] at hp
        rw [if_neg (by omega)]
      rw [h0]
      simp
    · rw [ih (by omega)]
      simp [hkn]

/-- The closed-form counts of all process rows add up to the number of
blocks. -/
theorem sum_blockCount (nb P : Nat) (hP : 0 < P) :
    ((List.range P).map (fun p => blockCount nb P p)).sum = nb := by
  induction nb with
  | zero =>
    rw [List.sum_eq_zero]
    intro x hx
    rw [List.mem_map] at hx
    obtain ⟨p, _, rfl⟩ := hx
    simp [blockCount]
  | succ n ih =>
    have h : (List.range P).map (fun p => blockCount (n + 1) P p) =
        (List.range P).map (fun p => blockCount n P p + (if n % P = p then 1 else 0)) := by
      apply List.map_congr_left
      intro p hp
      rw [List.mem_range] at hp
      exact blockCount_succ n P p hp
    rw [h, List.sum_map_add, ih, sum_indicator P (n % P) (Nat.mod_lt _ hP)]

theorem sum_flatMap {β : Type} (L : List β) (g : β → List Nat) :
    (L.flatMap g).sum = (L.map (fun x => (g x).sum)).sum := by
  induction L with
  | nil => rfl
  | cons a t ih => rw [List.flatMap_cons, List.sum_append, ih, List.map_cons, List.sum_cons]

theorem countP_flatMap {β : Type} (pr : Action → Bool) (L : List β) (g : β → List Action) :
    (L.flatMap g).countP pr = (L.map (fun x => (g x).countP pr)).sum := by
  induction L with
  | nil => rfl
  | cons a t ih => rw [List.flatMap_cons, List.countP_append, ih, List.map_cons, List.sum_cons]

/-- The block counts of all ranks add up to the square of the number of
blocks per dimension. -/
theorem sum_num_blocks (nb P Q : Nat) (hP : 0 < P) (hQ : 0 < Q) :
    ((List.range (P * Q)).map
      (fun r => blockCount nb P (r / Q) * blockCount nb Q (r % Q))).sum = nb * nb := by
  rw [← range_nest2 P Q (fun p q => blockCount nb P p * blockCount nb Q q), sum_flatMap]
  have h : ∀ p, ((List.range Q).flatMap fun q => [blockCount nb P p * blockCount nb Q q]).sum =
      blockCount nb P p * nb := by
    intro p
    rw [flatMap_singleton_eq_map, List.sum_map_mul_left, sum_blockCount nb Q hQ]
  simp only [h]
  rw [List.sum_map_mul_right, sum_blockCount nb P hP]

theorem countP_copyOps (N B : Nat) (ld : local_domain_t) :
    (copyOps N B ld).countP Action.isSend = 0 := by
  rw [List.countP_eq_zero]
  intro a ha
  obtain ⟨d, s, rfl⟩ := copyOps_all_store N B ld a ha
  simp [Action.isSend]

theorem countP_sendOps (N B : Nat) (grid : grid_t) (ld : local_domain_t) (ty : vector_type)
    (p q t : Nat) :
    (sendOps N B grid ld ty p q t).countP Action.isSend =
      blockCount (N / B) grid.P p * blockCount (N / B) grid.Q q := by
  have h : (sendOps N B grid ld ty p q t).countP Action.isSend =
      (sendOps N B grid ld ty p q t).length := by
    rw [List.countP_eq_length]
    intro a ha
    simp only [sendOps, List.mem_flatMap, List.mem_range, List.mem_singleton] at ha
    obtain ⟨_, _, _, _, rfl⟩ := ha
    rfl
  rw [h]
  unfold sendOps
  refine length_flatMap_range _ _ _ (fun i => ?_)
  have h1 := length_flatMap_range (blockCount (N / B) grid.Q q) 1
    (fun lbj => [Action.send (G_ROW_P ld i p 0 * N + G_COL_Q ld lbj q 0) ty t]) (fun _ => rfl)
  rw [Nat.mul_one] at h1
  exact h1

/-- The number of sends rank 0 issues, rank by rank. -/
theorem countP_holderOps (N B P Q : Nat) :
    (holderOps N B (grid_of_rank P Q 0) (init_fields N B (grid_of_rank P Q 0))
        { count := B, blocklength := B, stride := N }).countP Action.isSend =
      ((List.range (P * Q)).map (fun r =>
        if r = 0 then 0 else blockCount (N / B) P (r / Q) * blockCount (N / B) Q (r % Q))).sum := by
  unfold holderOps
  rw [range_nest2_flatMap, countP_flatMap]
  have hPg : (grid_of_rank P Q 0).P = P := rfl
  have hQg : (grid_of_rank P Q 0).Q = Q := rfl
  rw [hPg, hQg]
  congr 1
  apply List.map_congr_left
  intro r _
  have hrank : RANK_FROM_PQ (grid_of_rank P Q 0) (r / Q) (r % Q) = r := Nat.div_add_mod' r Q
  unfold holderStep
  rw [hrank]
  by_cases h0 : r = 0
  · rw [if_pos h0, if_pos h0, countP_copyOps]
  · rw [if_neg h0, if_neg h0, countP_sendOps]
    rfl

/-- C12, as stated for every `N`, fails: with `N = 46341`, `B = 1` on a `1 x 1`
grid the single process has `NBP = NBQ = 46341`, and its
`NUM_BLOCKS = NBP * NBQ` (line 37), which would have to be
`(N div B)^2 = 2147488281`, does not fit a signed 32-bit `int`. -/
theorem num_blocks_wraps_for_large_matrix :
    (1 ≤ 1 ∧ 1 ≤ 1) ∧
      init_fields32 (2 ^ 31 - 1) 46341 1 (grid_of_rank 1 1 0) =
        Except.error (Fault.wraps 2147488281) ∧
      (46341 / 1) ^ 2 = 2147488281 ∧ 2 ^ 31 - 1 < 2147488281 :=
  ⟨by decide, rfl, by decide, by decide⟩

/-- C12 (amended): for `B, P, Q >= 1` and sizes within `N * N`, `P * Q`,
`N div B + P`, `N div B + Q <= 2^31 - 1`, the fields of every rank are
computed without overflow and the block counts add up to the whole grid of
blocks: the sum over `p < P` of `NBP(p)` is `N div B`, the sum over `q < Q` of
`NBQ(q)` is `N div B`, the sum over all `P * Q` processes of `NUM_BLOCKS` is
`(N div B)^2`, and in a communicator of `W >= P * Q` processes rank 0 runs to
its end and issues exactly `(N div B)^2 - NBP(0) * NBQ(0)` sends in total. -/
theorem block_counts_sum_to_grid (W fuel N B P Q : Nat) (hB : 1 ≤ B) (hP : 1 ≤ P) (hQ : 1 ≤ Q)
    (hW : P * Q ≤ W) (hN : N * N ≤ 2 ^ 31 - 1) (hR : P * Q ≤ 2 ^ 31 - 1) (hGP : N / B + P ≤ 2 ^ 31 - 1)
    (hGQ : N / B + Q ≤ 2 ^ 31 - 1) (hfuel : N + B + P + Q < fuel) :
    ∃ F : Nat → local_domain_t,
      (∀ r, r < P * Q →
        init_fields32 (2 ^ 31 - 1) N B (grid_of_rank P Q r) = Except.ok (F r)) ∧
      ((List.range P).map (fun p => (F (p * Q + 0)).NBP)).sum = N / B ∧
      ((List.range Q).map (fun q => (F (0 * Q + q)).NBQ)).sum = N / B ∧
      ((List.range (P * Q)).map (fun r => (F r).NUM_BLOCKS)).sum = (N / B) ^ 2 ∧
      ∃ tr,
        init_local_domain32 (2 ^ 31 - 1) fuel N B (grid_of_rank P Q 0) = Except.ok (F 0, tr) ∧
        run_in_world W tr = (tr, none) ∧
        tr.countP Action.isSend + (F 0).NBP * (F 0).NBQ = (N / B) ^ 2 ∧
        tr.countP Action.isSend = (N / B) ^ 2 - (F 0).NBP * (F 0).NBQ := by
  have hnum : ((List.range (P * Q)).map
      (fun r => (init_fields N B (grid_of_rank P Q r)).NUM_BLOCKS)).sum = (N / B) ^ 2 := by
    have h := sum_num_blocks (N / B) P Q hP hQ
    rw [← Nat.pow_two] at h
    exact h
  have hsends : (holderOps N B (grid_of_rank P Q 0) (init_fields N B (grid_of_rank P Q 0))
      { count := B, blocklength := B, stride := N }).countP Action.isSend +
      (init_fields N B (grid_of_rank P Q 0)).NBP * (init_fields N B (grid_of_rank P Q 0)).NBQ =
      (N / B) ^ 2 := by
    rw [countP_holderOps N B P Q, ← hnum]
    obtain ⟨M, hM⟩ : ∃ M, P * Q = M + 1 := ⟨P * Q - 1, by
      have := Nat.mul_pos hP hQ; omega⟩
    rw [hM, List.range_succ_eq_map, List.map_cons, List.map_cons, List.sum_cons, List.sum_cons,
      List.map_map, List.map_map, if_pos rfl, Nat.zero_add]
    have hrest : (List.range M).map
        ((fun r => if r = 0 then 0 else
          blockCount (N / B) P (r / Q) * blockCount (N / B) Q (r % Q)) ∘ Nat.succ) =
        (List.range M).map
          ((fun r => (init_fields N B (grid_of_rank P Q r)).NUM_BLOCKS) ∘ Nat.succ) := by
      apply List.map_congr_left
      intro m _
      simp only [Function.comp, Nat.succ_ne_zero, if_false]
      rfl
    rw [hrest, Nat.add_comm]
    rfl
  refine ⟨fun r => init_fields N B (grid_of_rank P Q r),
    fun r hr => init_fields32_eq (2 ^ 31 - 1) N B P Q r (by omega) hB hr hN, ?_, ?_, hnum, _,
    init_local_domain32_eq (2 ^ 31 - 1) fuel N B P Q 0 (by omega) hB (Nat.mul_pos hP hQ) hN hR
      hGP hGQ hfuel, run_in_world_complete W N B P Q 0 hW, ?_, ?_⟩
  · have h : (List.range P).map
        (fun p => (init_fields N B (grid_of_rank P Q (p * Q + 0))).NBP) =
        (List.range P).map (fun p => blockCount (N / B) P p) :=
      List.map_congr_left (fun p _ => fieldsAt_NBP N B P Q p 0 hQ)
    beta_reduce
    rw [h, sum_blockCount (N / B) P hP]
  · have h : (List.range Q).map
        (fun q => (init_fields N B (grid_of_rank P Q (0 * Q + q))).NBQ) =
        (List.range Q).map (fun q => blockCount (N / B) Q q) := by
      apply List.map_congr_left
      intro q hq
      rw [List.mem_range] at hq
      exact fieldsAt_NBQ N B P Q 0 q hq
    beta_reduce
    rw [h, sum_blockCount (N / B) Q hQ]
  · beta_reduce
    rw [if_pos rfl]
    exact hsends
  · beta_reduce
    rw [if_pos rfl]
    omega

theorem block_counts_sum_to_grid_witness :
    ∃ F : Nat → local_domain_t,
      (∀ r, r < 2 * 3 →
        init_fields32 (2 ^ 31 - 1) 7 2 (grid_of_rank 2 3 r) = Except.ok (F r)) ∧
      ((List.range 2).map (fun p => (F (p * 3 + 0)).NBP)).sum = 7 / 2 ∧
      ((List.range 3).map (fun q => (F (0 * 3 + q)).NBQ)).sum = 7 / 2 ∧
      ((List.range (2 * 3)).map (fun r => (F r).NUM_BLOCKS)).sum = (7 / 2) ^ 2 ∧
      ∃ tr,
        init_local_domain32 (2 ^ 31 - 1) 15 7 2 (grid_of_rank 2 3 0) = Except.ok (F 0, tr) ∧
        run_in_world 6 tr = (tr, none) ∧
        tr.countP Action.isSend + (F 0).NBP * (F 0).NBQ = (7 / 2) ^ 2 ∧
        tr.countP Action.isSend = (7 / 2) ^ 2 - (F 0).NBP * (F 0).NBQ :=
  block_counts_sum_to_grid 6 15 7 2 2 3 (by decide) (by decide) (by decide) (by decide)
    (by decide) (by decide) (by decide) (by decide) (by decide)

/-! ### 32-bit arithmetic -/

/-- C13, as stated, fails.  With `N = 2`, `B = 1` on a `4 x 1` grid
(`N * N = 4 <= 2^31 - 1`) the guard `lbi * P + p` of the send loop is computed
as `1 * 4 + 1 = 5 > N * N` on the test that ends the loop for `p = 1`.  And the
bound on `N` alone does not keep 32-bit arithmetic exact: on a
`(2^31 - 1) x 1` grid the same guard is `1 * (2^31 - 1) + 1 = 2^31`, which a
signed 32-bit `int` cannot hold. -/
theorem guard_value_exceeds_matrix_size :
    (2 * 2 ≤ 2 ^ 31 - 1 ∧ 1 ≤ 1 ∧ 0 < 4 * 1) ∧
      init_local_domain32 (2 * 2) 9 2 1 (grid_of_rank 4 1 0) =
        Except.error (Fault.exceeds 5) ∧
      init_local_domain32 (2 ^ 31 - 1) 9 2 1 (grid_of_rank (2 ^ 31 - 1) 1 0) =
        Except.error (Fault.wraps (2 ^ 31)) :=
  ⟨by decide, rfl, rfl⟩

/-- C13 (amended): for `B, P, Q >= 1`, every rank of the grid and every limit
`lim <= 2^31 - 1` that is at least `N * N`, `P * Q`, `N div B + P` and
`N div B + Q`, every `int` addition and multiplication `init_local_domain`
evaluates (the listed expressions with their sub-expressions, the rank
`p * Q + q`, the loop guards on every test and the loop increments) has an
exact value at most `lim`, and computing it modulo `2^32` as a signed 32-bit
`int` gives that exact value; so the function returns what it returns with
exact integers. -/
theorem int_arithmetic_exact_within_limit (lim fuel N B P Q r : Nat) (hB : 1 ≤ B)
    (hr : r < P * Q) (h32 : lim ≤ 2 ^ 31 - 1) (hlim : N * N ≤ lim) (hlimR : P * Q ≤ lim)
    (hlimP : N / B + P ≤ lim) (hlimQ : N / B + Q ≤ lim) (hfuel : N + B + P + Q < fuel) :
    ∃ res, init_local_domain fuel N B (grid_of_rank P Q r) = some res ∧
      init_local_domain32 lim fuel N B (grid_of_rank P Q r) = Except.ok res :=
  ⟨_, init_local_domain_eq fuel N B P Q r hr hfuel,
    init_local_domain32_eq lim fuel N B P Q r (by omega) hB hr hlim hlimR hlimP hlimQ hfuel⟩

theorem int_arithmetic_exact_within_limit_witness :
    ∃ res, init_local_domain 15 7 2 (grid_of_rank 2 3 4) = some res ∧
      init_local_domain32 49 15 7 2 (grid_of_rank 2 3 4) = Except.ok res :=
  int_arithmetic_exact_within_limit 49 15 7 2 2 3 4 (by decide) (by decide) (by decide)
    (by decide) (by decide) (by decide) (by decide) (by decide)

end LocalDomain
